import Mathlib

/-!
Link conversion pipeline of `netlify/functions/api.js`.

A shallow embedding of the pure parts of the handler: the regular
expressions it uses, the item-id extraction and link cleaning of
`resolveAndProcessUrl`, and the scan / deduplicate / replace steps of the
`/convert-text` route.

JavaScript strings are modelled as lists of characters (`Str`).  Every
pattern of the source works on single characters taken from ASCII classes or
their complements, so a character-level model and the UTF-16 code-unit
semantics of the engine agree on well-formed strings.
-/

namespace Shopee

/-- JavaScript strings, as lists of characters. -/
abbrev Str := List Char

/-! ## String primitives -/

/-- The rest of `s` after the literal `p` when `s` starts with `p`
(`s.startsWith(p)` together with the remainder). -/
def dropLit : Str → Str → Option Str
  | [], s => some s
  | _ :: _, [] => none
  | a :: p, b :: s => if a = b then dropLit p s else none

/-- Canonical form of a character under the `i` flag of a non-unicode regular
expression: ASCII letters are folded, and no character outside ASCII folds onto
an ASCII one. -/
def foldCase (c : Char) : Char :=
  if 'A' ≤ c ∧ c ≤ 'Z' then Char.ofNat (c.toNat + 32) else c

/-- Case-insensitive variant of `dropLit` (literals under the `i` flag). -/
def dropLitI : Str → Str → Option Str
  | [], s => some s
  | _ :: _, [] => none
  | a :: p, b :: s => if foldCase a = foldCase b then dropLitI p s else none

/-- `s.includes(p)`. -/
def includes (p : Str) : Str → Bool
  | [] => (dropLit p []).isSome
  | c :: t => (dropLit p (c :: t)).isSome || includes p t

/-- The class `\s` of the regular expression engine. -/
def isJsSpace (c : Char) : Bool :=
  let n := c.toNat
  n = 9 || n = 10 || n = 11 || n = 12 || n = 13 || n = 32 || n = 160 || n = 5760
    || (8192 ≤ n && n ≤ 8202) || n = 8232 || n = 8233 || n = 8239 || n = 8287
    || n = 12288 || n = 65279

/-! ## Regular expressions

The fragment of the pattern language used by the source: literals, greedy
repetition of a character class, optional groups, alternation, capturing groups
and the end-of-input assertion.  `Re.run` lists every way the pattern can match
at the start of the input, in the order in which a backtracking engine tries
them; the engine reports the first one. -/

/-- Patterns. -/
inductive Re where
  | lit (s : Str)
  | litI (s : Str)
  | plus (p : Char → Bool)
  | star (p : Char → Bool)
  | opt (r : Re)
  | alt (a b : Re)
  | seq (a b : Re)
  | grp (r : Re)
  | eos

/-- Remainders left by a greedy `[class]*`, longest match first. -/
def greedy (p : Char → Bool) : Str → List Str
  | [] => [[]]
  | c :: t => if p c then greedy p t ++ [c :: t] else [c :: t]

/-- All matches of a pattern at the start of the input, in backtracking order:
each is the list of captured groups (in order of their opening bracket) and the
input left after the match. -/
def Re.run : Re → Str → List (List Str × Str)
  | .lit l, s =>
    match dropLit l s with
    | some r => [([], r)]
    | none => []
  | .litI l, s =>
    match dropLitI l s with
    | some r => [([], r)]
    | none => []
  | .plus p, s =>
    match s with
    | [] => []
    | c :: t => if p c then (greedy p t).map (fun r => ([], r)) else []
  | .star p, s => (greedy p s).map (fun r => ([], r))
  | .opt r, s => r.run s ++ [([], s)]
  | .alt a b, s => a.run s ++ b.run s
  | .seq a b, s => (a.run s).flatMap (fun m => (b.run m.2).map (fun n => (m.1 ++ n.1, n.2)))
  | .grp r, s => (r.run s).map (fun m => (s.take (s.length - m.2.length) :: m.1, m.2))
  | .eos, s => if s = [] then [([], [])] else []

/-- A lower bound on the number of characters a match of the pattern consumes. -/
def Re.minLen : Re → Nat
  | .lit s => s.length
  | .litI s => s.length
  | .plus _ => 1
  | .star _ => 0
  | .opt _ => 0
  | .alt a b => min a.minLen b.minLen
  | .seq a b => a.minLen + b.minLen
  | .grp r => r.minLen
  | .eos => 0

/-- The leftmost match (`String.prototype.match` without the `g` flag): captured
groups and the input left after the match. -/
def Re.search (r : Re) : Str → Option (List Str × Str)
  | [] => (r.run []).head?
  | c :: t =>
    match r.run (c :: t) with
    | m :: _ => some m
    | [] => r.search t

/-- All successive matches (`String.prototype.match` with the `g` flag).  The
first argument counts the characters still covered by the previous match. -/
def Re.scan (r : Re) : Nat → Str → List Str
  | _, [] =>
    match r.run [] with
    | _ :: _ => [[]]
    | [] => []
  | k + 1, _ :: t => r.scan k t
  | 0, c :: t =>
    match r.run (c :: t) with
    | m :: _ =>
      ((c :: t).take ((c :: t).length - m.2.length)) ::
        r.scan ((c :: t).length - m.2.length - 1) t
    | [] => r.scan 0 t

/-! ## Item-id extraction (`resolveAndProcessUrl`, part B) -/

/-- The pattern `-i\.(\d+)\.(\d+)` (written between slashes in the source). -/
def dashIRe : Re :=
  .seq (.lit "-i.".toList) (.seq (.grp (.plus Char.isDigit))
    (.seq (.lit ".".toList) (.grp (.plus Char.isDigit))))

/-- The pattern `\/product\/\d+\/(\d+)`. -/
def productPathRe : Re :=
  .seq (.lit "/product/".toList) (.seq (.plus Char.isDigit)
    (.seq (.lit "/".toList) (.grp (.plus Char.isDigit))))

/-- The pattern `(?:itemId=|\/product\/)(\d+)`. -/
def genericIdRe : Re :=
  .seq (.alt (.lit "itemId=".toList) (.lit "/product/".toList)) (.grp (.plus Char.isDigit))

/-- The pattern `\/(\d+)(?:\?|$)`. -/
def lastDigitRe : Re :=
  .seq (.lit "/".toList) (.seq (.grp (.plus Char.isDigit)) (.alt (.lit "?".toList) .eos))

/-- Capturing group `i` (counted from 1) of a match. -/
def group (m : List Str × Str) (i : Nat) : Option Str := m.1[i - 1]?

/-- The item id computed by `resolveAndProcessUrl` from the resolved URL;
`none` is the `null` of the source. -/
def extractItemId (finalUrl : Str) : Option Str :=
  match dashIRe.search finalUrl with
  | some m => group m 2
  | none =>
    match productPathRe.search finalUrl with
    | some m => group m 1
    | none =>
      match genericIdRe.search finalUrl with
      | some m => group m 1
      | none =>
        match lastDigitRe.search finalUrl with
        | some m => group m 1
        | none => none

/-! ## Shapes of the identifier patterns

What it means for one of the identifier shapes to stand at the start of a
string, written without the pattern matcher: the statements about
`extractItemId` use these readings to say where a shape occurs. -/

/-- A non-empty maximal run of digits at the start of `s`, with what follows it. -/
def digitsAt : Str → Option (Str × Str)
  | [] => none
  | c :: t =>
    if c.isDigit then some (c :: t.takeWhile Char.isDigit, t.dropWhile Char.isDigit) else none

/-- The shape `-i.<A>.<B>` at the start of `s`: the digit runs `A` and `B`. -/
def dashIAt (s : Str) : Option (Str × Str) :=
  (dropLit "-i.".toList s).bind fun r => (digitsAt r).bind fun a =>
    (dropLit ".".toList a.2).bind fun r2 => (digitsAt r2).map fun b => (a.1, b.1)

/-- The shape `/product/<A>/<B>` at the start of `s`: the digit runs `A` and `B`. -/
def productPathAt (s : Str) : Option (Str × Str) :=
  (dropLit "/product/".toList s).bind fun r => (digitsAt r).bind fun a =>
    (dropLit "/".toList a.2).bind fun r2 => (digitsAt r2).map fun b => (a.1, b.1)

/-- The shape `itemId=<N>` or `/product/<N>` at the start of `s`: the digit run `N`. -/
def genericIdAt (s : Str) : Option Str :=
  ((dropLit "itemId=".toList s).orElse fun _ => dropLit "/product/".toList s).bind fun r =>
    (digitsAt r).map Prod.fst

/-- The shape `/<N>` followed by `?` or by the end of the string, at the start of `s`. -/
def lastDigitAt (s : Str) : Option Str :=
  (dropLit "/".toList s).bind fun r => (digitsAt r).bind fun a =>
    if a.2 = [] ∨ a.2.head? = some '?' then some a.1 else none

/-! ## The platform's `URLSearchParams` -/

/-- Entries of a `URLSearchParams` object, in order. -/
abbrev Params := List (Str × Str)

/-- `params.has(key)`. -/
def Params.has (ps : Params) (key : Str) : Bool := ps.any (fun p => p.1 = key)

/-- `params.get(key)`: the value of the first entry named `key`. -/
def Params.get (ps : Params) (key : Str) : Option Str := (ps.find? (fun p => p.1 = key)).map Prod.snd

/-- Upper-case hexadecimal digit. -/
def hexDigit (n : Nat) : Char := if n < 10 then Char.ofNat (48 + n) else Char.ofNat (55 + n)

/-- The escape `%XX` of a byte. -/
def pctByte (b : Nat) : Str := ['%', hexDigit (b / 16), hexDigit (b % 16)]

/-- UTF-8 encoding of a character. -/
def utf8Bytes (c : Char) : List Nat :=
  let n := c.toNat
  if n < 128 then [n]
  else if n < 2048 then [192 + n / 64, 128 + n % 64]
  else if n < 65536 then [224 + n / 4096, 128 + n / 64 % 64, 128 + n % 64]
  else [240 + n / 262144, 128 + n / 4096 % 64, 128 + n / 64 % 64, 128 + n % 64]

/-- Characters the `application/x-www-form-urlencoded` serializer leaves as they are. -/
def formSafe (c : Char) : Bool := c.isAlphanum || c = '*' || c = '-' || c = '.' || c = '_'

/-- The serializer's encoding of one character. -/
def formEncodeChar (c : Char) : Str :=
  if c = ' ' then ['+'] else if formSafe c then [c] else (utf8Bytes c).flatMap pctByte

/-- The serializer's encoding of a name or a value. -/
def formEncode (s : Str) : Str := s.flatMap formEncodeChar

/-- `params.toString()`: the `application/x-www-form-urlencoded` serializer. -/
def serialize (ps : Params) : Str :=
  "&".toList.intercalate (ps.map (fun p => formEncode p.1 ++ '=' :: formEncode p.2))

/-! ## Link cleaning (`resolveAndProcessUrl`, part C)

`new URL(finalUrl).searchParams` belongs to the platform, not to the
repository: the cleaning step takes it as a parameter `sp`, which answers
`none` where the constructor throws. -/

/-- `s.split(c)[0]` for a one-character separator: the part before its first occurrence. -/
def baseOf (u : Str) : Str := u.takeWhile (fun c => c != '?')

/-- `s.split(p)[0]`: the part of `s` before the first occurrence of `p`. -/
def before (p : Str) : Str → Str
  | [] => []
  | c :: t => if (dropLit p (c :: t)).isSome then [] else c :: before p t

/-- `s.split(c).length` for a one-character separator. -/
def splitCount (sep : Char) (s : Str) : Nat := s.count sep + 1

/-- `s.endsWith(c)` for a one-character `c`. -/
def endsWithChar (c : Char) (s : Str) : Bool := s.getLast? = some c

/-- The allow-list of the search branch. -/
def allowedKeys : List Str :=
  ["keyword".toList, "shop".toList, "evcode".toList, "signature".toList,
    "promotionId".toList, "mmp_pid".toList]

/-- The `newParams` built by the `forEach` over the allow-list. -/
def whitelist (ps : Params) : Params :=
  allowedKeys.foldl
    (fun newParams key => if ps.has key then newParams ++ [(key, (ps.get key).getD [])] else newParams) []

/-- The pattern `shopee\.vn\/([^\/]+)\/(\d+)\/(\d+)`. -/
def shopProductRe : Re :=
  .seq (.lit "shopee.vn/".toList) (.seq (.grp (.plus (fun c => c != '/')))
    (.seq (.lit "/".toList) (.seq (.grp (.plus Char.isDigit))
      (.seq (.lit "/".toList) (.grp (.plus Char.isDigit))))))

/-- The tracking markers of the fallback branch, in the order of the source. -/
def trackingMarkers : List Str :=
  ["uls_trackid=".toList, "utm_source=".toList, "mmp_pid=".toList]

/-- The fallback branch: cut at each marker in turn, then trim one dangling `?` or `&`. -/
def stripTracking (finalUrl : Str) : Str :=
  let tempUrl := trackingMarkers.foldl
    (fun tempUrl p => if includes p tempUrl then before p tempUrl else tempUrl) finalUrl
  if endsWithChar '?' tempUrl || endsWithChar '&' tempUrl then tempUrl.dropLast else tempUrl

/-- The `cleanedUrl` of `resolveAndProcessUrl`, from the resolved URL. -/
def cleanUrl (sp : Str → Option Params) (finalUrl : Str) : Str :=
  let baseUrl := baseOf finalUrl
  if includes "/search".toList baseUrl then
    match sp finalUrl with
    | none => baseUrl
    | some searchParams =>
      let newParams := whitelist searchParams
      if serialize newParams != [] then baseUrl ++ '?' :: serialize newParams else baseUrl
  else
    match shopProductRe.search baseUrl with
    | some m =>
      "https://shopee.vn/product/".toList ++ (group m 2).getD [] ++ '/' :: (group m 3).getD []
    | none =>
      if includes "/m/".toList baseUrl || includes "/product/".toList baseUrl
          || splitCount '/' baseUrl = 4 then
        baseUrl
      else
        stripTracking finalUrl

/-- A non-empty maximal run of characters other than `/` at the start of `s`, with what
follows it. -/
def segmentAt : Str → Option (Str × Str)
  | [] => none
  | c :: t =>
    if c != '/' then
      some (c :: t.takeWhile (fun x => x != '/'), t.dropWhile (fun x => x != '/'))
    else none

/-- The shape `shopee.vn/<slug>/<A>/<B>` at the start of `s`: the slug and the digit runs
`A` and `B`. -/
def shopProductAt (s : Str) : Option (Str × Str × Str) :=
  (dropLit "shopee.vn/".toList s).bind fun r => (segmentAt r).bind fun g =>
    (dropLit "/".toList g.2).bind fun r1 => (digitsAt r1).bind fun a =>
      (dropLit "/".toList a.2).bind fun r2 => (digitsAt r2).map fun b => (g.1, a.1, b.1)

/-! ### A reference model of the platform's URL parser

`whatwgSearchParams` follows the URL standard on the class of inputs
`http://host...` and `https://host...` made of printable ASCII characters, with
a host of dot-separated alphabetic labels and a query whose escapes decode to
ASCII.  Outside this class it answers `none` and no agreement with the platform
is intended: a host with a digit, a hyphen or a port, and an escape `%XX` of a
byte from 128 on, are outside the class although the platform parses them.  The
general theorems below hold for every `sp`, or for every `sp` under laws that
are stated for all inputs. -/

/-- Value of a hexadecimal digit. -/
def hexVal (c : Char) : Option Nat :=
  if '0' ≤ c ∧ c ≤ '9' then some (c.toNat - 48)
  else if 'a' ≤ c ∧ c ≤ 'f' then some (c.toNat - 87)
  else if 'A' ≤ c ∧ c ≤ 'F' then some (c.toNat - 55)
  else none

/-- Decoding of a name or value by the `application/x-www-form-urlencoded` parser, for
ASCII results: `+` is a space and `%XX` a byte. -/
def formDecode : Str → Option Str
  | [] => some []
  | '+' :: t => (formDecode t).map (fun r => ' ' :: r)
  | '%' :: a :: b :: t =>
    match hexVal a, hexVal b with
    | some x, some y =>
      if 16 * x + y < 128 then (formDecode t).map (fun r => Char.ofNat (16 * x + y) :: r) else none
    | _, _ => (formDecode (a :: b :: t)).map (fun r => '%' :: r)
  | c :: t => (formDecode t).map (fun r => c :: r)

/-- Pieces of a string between occurrences of a one-character separator. -/
def splitChar (sep : Char) : Str → List Str
  | [] => [[]]
  | c :: t =>
    if c = sep then [] :: splitChar sep t
    else
      match splitChar sep t with
      | p :: ps => (c :: p) :: ps
      | [] => [[c]]

/-- Name and value of one `name=value` sequence, undecoded. -/
def rawPair (s : Str) : Str × Str :=
  (s.takeWhile (fun c => c != '='), (s.dropWhile (fun c => c != '=')).drop 1)

/-- The undecoded `name=value` sequences of a query string. -/
def rawParams (q : Str) : List (Str × Str) :=
  ((splitChar '&' q).filter (fun s => s != [])).map rawPair

/-- The `application/x-www-form-urlencoded` parser, for ASCII results. -/
def parseQuery (q : Str) : Option Params :=
  (rawParams q).mapM (fun p =>
    match formDecode p.1, formDecode p.2 with
    | some k, some v => some (k, v)
    | _, _ => none)

/-- Dot-separated non-empty alphabetic labels; the flag tells whether a label has begun. -/
def hostOk : Bool → Str → Bool
  | inLabel, [] => inLabel
  | inLabel, c :: t => if c.isAlpha then hostOk true t else c = '.' && inLabel && hostOk false t

/-- Reference model of `new URL(u).searchParams`. -/
def whatwgSearchParams (u : Str) : Option Params :=
  if u.all (fun c => 33 ≤ c.toNat && c.toNat ≤ 126) then
    match (dropLit "https://".toList u).orElse (fun _ => dropLit "http://".toList u) with
    | none => none
    | some rest =>
      if hostOk false (rest.takeWhile (fun c => c != '/' && c != '?' && c != '#')) then
        parseQuery (((rest.takeWhile (fun c => c != '#')).dropWhile (fun c => c != '?')).drop 1)
      else none
  else none

/-- The query string of a URL without fragment: what follows the first `?`. -/
def queryOf (u : Str) : Str := (u.dropWhile (fun c => c != '?')).drop 1

/-- The URL reaches the fallback branch of the cleaning step. -/
def isFallback (u : Str) : Bool :=
  !includes "/search".toList (baseOf u) && (shopProductRe.search (baseOf u)).isNone
    && !(includes "/m/".toList (baseOf u) || includes "/product/".toList (baseOf u)
      || splitCount '/' (baseOf u) = 4)

/-- The string ends with `?` or `&`. -/
def dangling (s : Str) : Bool := endsWithChar '?' s || endsWithChar '&' s

/-! ## Remote calls

The answers of the network belong to the environment.  Each call is keyed by
the candidate whose pipeline issues it, since the remote side may answer two
equal requests differently. -/

/-- A value is truthy when it is present and not the empty string. -/
def truthy (v : Option Str) : Option Str := v.filter (fun s => s != [])

/-- A node of the `productOfferV2` answer. -/
structure ProductNode where
  productName : Option Str
  imageUrl : Option Str

/-- Answers of the network during one request. -/
structure Remote where
  /-- The call `axios.get(inputUrl, ...)`: `none` when it throws, otherwise
  `response.request?.res?.responseUrl` and `response.headers['location']`. -/
  get : Str → Str → Option (Option Str × Option Str)
  /-- The short-link mutation: `response.data.data?.generateShortLink?.shortLink`,
  `none` when the call throws or the answer has no such field. -/
  shortLink : Str → Str → Option Str
  /-- The product query: `response.data.data?.productOfferV2?.nodes?.[0]`,
  `none` when the call throws or there is no such node. -/
  productInfo : Str → Str → Option ProductNode

/-- The test on the shortener domains at the head of `resolveAndProcessUrl`. -/
def isShortener (inputUrl : Str) : Bool :=
  includes "s.shopee.vn".toList inputUrl || includes "shp.ee".toList inputUrl
    || includes "vn.shp.ee".toList inputUrl

/-- The `finalUrl` of `resolveAndProcessUrl` (part A). -/
def resolveUrl (remote : Remote) (cand inputUrl : Str) : Str :=
  if isShortener inputUrl then
    match remote.get cand inputUrl with
    | some response =>
      ((truthy response.1).orElse (fun _ => truthy response.2)).getD inputUrl
    | none => inputUrl
  else inputUrl

/-- The function `resolveAndProcessUrl`: the pair `(cleanedUrl, itemId)`. -/
def resolveAndProcessUrl (sp : Str → Option Params) (remote : Remote) (cand inputUrl : Str) :
    Str × Option Str :=
  let finalUrl := resolveUrl remote cand inputUrl
  (cleanUrl sp finalUrl, extractItemId finalUrl)

/-- The GraphQL text sent by `getShopeeProductInfo`. -/
def productQuery (itemId : Str) : Str :=
  "query \x7b productOfferV2(itemId: ".toList ++ itemId
    ++ ") \x7b nodes \x7b productName imageUrl \x7d \x7d \x7d".toList

/-- The function `getShopeeProductInfo`. -/
def getShopeeProductInfo (remote : Remote) (cand : Str) (itemId : Option Str) :
    Option ProductNode :=
  match truthy itemId with
  | none => none
  | some id => remote.productInfo cand (productQuery id)

/-- `s.trim()`. -/
def jsTrim (s : Str) : Str := ((s.dropWhile isJsSpace).reverse.dropWhile isJsSpace).reverse

/-- The `finalSubIds` of `getShopeeShortLink`; `none` is an absent argument. -/
def finalSubIds (subIds : Option (List Str)) : List Str :=
  match subIds with
  | none => ["webchuyendoi".toList]
  | some ids =>
    if ids.length > 0 then
      let validIds := ids.filter (fun id => id != [] && jsTrim id != [])
      if validIds.length > 0 then validIds.map jsTrim else ["webchuyendoi".toList]
    else ["webchuyendoi".toList]

/-- The `formattedIds` of `getShopeeShortLink`. -/
def formattedIds (ids : List Str) : Str :=
  ",".toList.intercalate (ids.map (fun id => '"' :: id ++ ['"']))

/-- The GraphQL text sent by `getShopeeShortLink`. -/
def shortLinkQuery (originalUrl : Str) (ids : List Str) : Str :=
  "mutation \x7b generateShortLink(input: \x7b originUrl: \"".toList ++ originalUrl
    ++ "\", subIds: [".toList ++ formattedIds ids ++ "] \x7d) \x7b shortLink \x7d \x7d".toList

/-- The function `getShopeeShortLink`. -/
def getShopeeShortLink (remote : Remote) (cand originalUrl : Str) (subIds : Option (List Str)) :
    Option Str :=
  truthy (remote.shortLink cand (shortLinkQuery originalUrl (finalSubIds subIds)))

/-! ## The route `/convert-text` -/

/-- One entry of `details`. -/
structure Conversion where
  original : Str
  short : Option Str
  productName : Str
  imageUrl : Str
deriving DecidableEq

/-- The answers of the route. -/
inductive Response where
  | badRequest
  | nothing
  | ok (newText : Str) (converted : Nat) (details : List Conversion)
deriving DecidableEq

/-- The pattern
`((?:https?:\/\/)?(?:www\.)?(?:shopee\.vn|vn\.shp\.ee|shp\.ee|s\.shopee\.vn)[^\s]*)`
under the flags `gi`. -/
def urlRegex : Re :=
  .grp (.seq (.opt (.seq (.litI "http".toList) (.seq (.opt (.litI "s".toList)) (.litI "://".toList))))
    (.seq (.opt (.litI "www.".toList))
      (.seq (.alt (.litI "shopee.vn".toList) (.alt (.litI "vn.shp.ee".toList)
          (.alt (.litI "shp.ee".toList) (.litI "s.shopee.vn".toList))))
        (.star (fun c => !isJsSpace c)))))

/-- Adding a value to a `Set`, which keeps insertion order. -/
def setAdd (seen : List Str) (x : Str) : List Str := if x ∈ seen then seen else seen ++ [x]

/-- The array `[...new Set(xs)]`. -/
def uniq (xs : List Str) : List Str := xs.foldl setAdd []

/-- The text made of gaps and matches taken in turn: `g₀ m₁ g₁ m₂ … mₙ gₙ`. -/
def weave : List Str → List Str → Str
  | g :: gs, m :: ms => g ++ m ++ weave gs ms
  | [g], [] => g
  | _, _ => []

/-- Position of the first occurrence of `x` in `xs` (the length of `xs` when there is none). -/
def firstIndex (x : Str) : List Str → Nat
  | [] => 0
  | y :: ys => if y = x then 0 else firstIndex x ys + 1

/-- Pieces of `s` between successive occurrences of a non-empty separator; the
first argument counts the characters still covered by the last occurrence. -/
def splitOn (sep : Str) : Nat → Str → List Str
  | _, [] => [[]]
  | k + 1, _ :: t => splitOn sep k t
  | 0, c :: t =>
    if (dropLit sep (c :: t)).isSome then [] :: splitOn sep (sep.length - 1) t
    else
      match splitOn sep 0 t with
      | p :: ps => (c :: p) :: ps
      | [] => [[c]]

/-- `s.split(sep)`. -/
def jsSplit (sep s : Str) : List Str :=
  if sep = [] then s.map (fun c => [c]) else splitOn sep 0 s

/-- The pipeline of one candidate inside `Promise.all`. -/
def convertOne (sp : Str → Option Params) (remote : Remote) (subIds : Option (List Str))
    (url : Str) : Conversion :=
  let fullUrl := if (dropLit "http".toList url).isSome then url else "https://".toList ++ url
  let r := resolveAndProcessUrl sp remote url fullUrl
  let short := getShopeeShortLink remote url r.1 subIds
  let info := getShopeeProductInfo remote url r.2
  { original := url
    short := short
    productName := (truthy (info.bind ProductNode.productName)).getD "Sản phẩm Shopee".toList
    imageUrl := (truthy (info.bind ProductNode.imageUrl)).getD [] }

/-- The `newText` built by the `forEach` over the conversions. -/
def replaceLinks (text : Str) (conversions : List Conversion) : Str :=
  conversions.foldl
    (fun newText item =>
      match truthy item.short with
      | some short => short.intercalate (jsSplit item.original newText)
      | none => newText) text

/-- The handler of `POST /convert-text`. -/
def convertText (sp : Str → Option Params) (remote : Remote) (text : Str)
    (subIds : Option (List Str)) : Response :=
  if text = [] then .badRequest
  else
    let foundLinks := urlRegex.scan 0 text
    let uniqueLinks := uniq foundLinks
    if uniqueLinks.length = 0 then .nothing
    else
      let conversions := uniqueLinks.map (convertOne sp remote subIds)
      .ok (replaceLinks text conversions)
        (conversions.filter (fun c => (truthy c.short).isSome)).length conversions

/-- A remote side whose short-link call answers `s` and whose other calls fail. -/
def remoteShort (s : Str) : Remote :=
  { get := fun _ _ => none, shortLink := fun _ _ => some s, productInfo := fun _ _ => none }

/-- A text with one candidate occurring twice. -/
def duplicateText : Str := "x https://shopee.vn/product/1/2 and https://shopee.vn/product/1/2".toList

/-- A text with three matches, two of them equal. -/
def threeLinksText : Str := "a shopee.vn/x b https://shp.ee/y c shopee.vn/x".toList

/-! ## Network calls issued by the handler

The calls a run of the handler sends out, listed per candidate; the order of
the entries carries no meaning, since the pipelines run concurrently. -/

/-- A call to the network. -/
inductive Call where
  | get (cand inputUrl : Str)
  | shortLink (cand query : Str)
  | productInfo (cand query : Str)
deriving DecidableEq

/-- The calls of part A of `resolveAndProcessUrl`. -/
def resolveCalls (cand inputUrl : Str) : List Call :=
  if isShortener inputUrl then [.get cand inputUrl] else []

/-- The `fullUrl` of the pipeline of one candidate. -/
def fullUrlOf (url : Str) : Str :=
  if (dropLit "http".toList url).isSome then url else "https://".toList ++ url

/-- The calls of the pipeline of one candidate. -/
def convertOneCalls (sp : Str → Option Params) (remote : Remote) (subIds : Option (List Str))
    (url : Str) : List Call :=
  let r := resolveAndProcessUrl sp remote url (fullUrlOf url)
  resolveCalls url (fullUrlOf url)
    ++ [.shortLink url (shortLinkQuery r.1 (finalSubIds subIds))]
    ++ (match truthy r.2 with
        | none => []
        | some id => [.productInfo url (productQuery id)])

/-- The calls of the handler of `POST /convert-text`. -/
def convertTextCalls (sp : Str → Option Params) (remote : Remote) (text : Str)
    (subIds : Option (List Str)) : List Call :=
  if text = [] then []
  else (uniq (urlRegex.scan 0 text)).flatMap (convertOneCalls sp remote subIds)

/-- The product lookup of the pipeline of one candidate. -/
def productLookup (sp : Str → Option Params) (remote : Remote) (url : Str) : Option ProductNode :=
  getShopeeProductInfo remote url (resolveAndProcessUrl sp remote url (fullUrlOf url)).2

/-! ## Readings used by the statements -/

/-- The substrings tested at the head of `resolveAndProcessUrl`. -/
def shortenerDomains : List Str :=
  ["s.shopee.vn".toList, "shp.ee".toList, "vn.shp.ee".toList]

/-- The host of an absolute `http(s)` URL: what stands between the scheme and the first
`/`, `?` or `#`. -/
def hostOf (u : Str) : Str :=
  let rest := ((dropLit "https://".toList u).orElse (fun _ => dropLit "http://".toList u)).getD u
  rest.takeWhile (fun c => c != '/' && c != '?' && c != '#')

/-- The number of non-empty pieces of `s` between slashes. -/
def segmentCount (s : Str) : Nat := ((splitChar '/' s).filter (fun p => p != [])).length

/-- One of the tracking markers stands at the start of `s`. -/
def markerAt (s : Str) : Bool := trackingMarkers.any (fun m => (dropLit m s).isSome)

/-- The part of `s` before the first position at which `P` holds of the rest. -/
def cutWhen (P : Str → Bool) : Str → Str
  | [] => []
  | c :: t => if P (c :: t) then [] else c :: cutWhen P t

/-- A remote side on which every call fails. -/
def remoteFail : Remote :=
  { get := fun _ _ => none, shortLink := fun _ _ => none, productInfo := fun _ _ => none }

/-- A remote side whose redirect call reports the final URL `target`. -/
def remoteRedirect (target : Str) : Remote :=
  { get := fun _ _ => some (some target, none), shortLink := fun _ _ => none,
    productInfo := fun _ _ => none }

/-! ## Replacement of the links, one candidate after the other -/

/-- No occurrence of `c` starts at one of the first `n` positions of `s`. -/
def noStart (c : Str) : Nat → Str → Bool
  | 0, _ => true
  | n + 1, s => (dropLit c s).isNone && noStart c n s.tail

/-- What stands in the place of the matched link `m` once the conversions `done` have been
applied: the short link of the conversion of `m` when it has one, and `m` itself otherwise. -/
def renderLink (done : List Conversion) (m : Str) : Str :=
  match done.find? (fun c => c.original = m) with
  | some c => (truthy c.short).getD m
  | none => m

/-- In the text woven from `gaps` and the matches `ms` shown through `ρ`, the string `c` starts
nowhere but at the places of the matches equal to `c`, and these still show `c`. -/
def onlyAt (c : Str) (ρ : Str → Str) : List Str → List Str → Bool
  | g :: gs, m :: ms =>
    noStart c g.length (g ++ ρ m ++ weave gs (ms.map ρ))
      && (if m = c then decide (ρ m = c)
          else noStart c (ρ m).length (ρ m ++ weave gs (ms.map ρ)))
      && onlyAt c ρ gs ms
  | [g], [] => noStart c g.length g
  | _, _ => false

/-- Every replacement of the run over `rest`, coming after the conversions `done`, finds its
candidate at the places of its own matches only. -/
def cleanSteps (gaps ms : List Str) : List Conversion → List Conversion → Bool
  | _, [] => true
  | done, c :: rest =>
    (match truthy c.short with
      | some _ => onlyAt c.original (renderLink done) gaps ms
      | none => true)
      && cleanSteps gaps ms (done ++ [c]) rest

/-- A text with a product link and a short link. -/
def chainText : Str := "https://shopee.vn/product/1/2 https://s.shopee.vn/abc".toList

/-- The conversion of the product link of `chainText`; its short link is the other link of
the text. -/
def chainFirst : Conversion :=
  { original := "https://shopee.vn/product/1/2".toList
    short := some "https://s.shopee.vn/abc".toList
    productName := "Sản phẩm Shopee".toList
    imageUrl := [] }

/-- The conversion of the short link of `chainText`. -/
def chainSecond : Conversion :=
  { original := "https://s.shopee.vn/abc".toList
    short := some "https://s.shopee.vn/xyz".toList
    productName := "Sản phẩm Shopee".toList
    imageUrl := [] }

/-- The conversion of the product link of `chainText` with a short link of its own. -/
def freshFirst : Conversion :=
  { original := "https://shopee.vn/product/1/2".toList
    short := some "https://s.shopee.vn/pqr".toList
    productName := "Sản phẩm Shopee".toList
    imageUrl := [] }

/-! ## Facts about the string primitives -/

theorem dropLit_eq_some {p s r : Str} : dropLit p s = some r ↔ s = p ++ r := by
  induction p generalizing s with
  | nil => simp [dropLit, eq_comm]
  | cons a p ih =>
    cases s with
    | nil => simp [dropLit]
    | cons b s =>
      by_cases h : a = b
      · subst h; simp [dropLit, ih]
      · simp [dropLit, h]; intro h2; exact absurd h2.symm h

theorem dropLit_append (p r : Str) : dropLit p (p ++ r) = some r := dropLit_eq_some.2 rfl

theorem includes_iff {p s : Str} : includes p s = true ↔ ∃ a b, s = a ++ p ++ b := by
  induction s with
  | nil =>
    simp only [includes, Option.isSome_iff_exists, dropLit_eq_some]
    constructor
    · rintro ⟨r, hr⟩; exact ⟨[], r, by simpa using hr⟩
    · rintro ⟨a, b, h⟩
      have h1 : a = [] := by
        cases a with
        | nil => rfl
        | cons x a => simp at h
      subst h1
      exact ⟨b, by simpa using h⟩
  | cons c t ih =>
    simp only [includes, Bool.or_eq_true, Option.isSome_iff_exists, dropLit_eq_some, ih]
    constructor
    · rintro (⟨r, hr⟩ | ⟨a, b, h⟩)
      · exact ⟨[], r, by simpa using hr⟩
      · exact ⟨c :: a, b, by simp [h]⟩
    · rintro ⟨a, b, h⟩
      cases a with
      | nil => exact Or.inl ⟨b, by simpa using h⟩
      | cons x a =>
        simp only [List.cons_append, List.cons.injEq] at h
        exact Or.inr ⟨a, b, h.2⟩

/-! ## Facts about the pattern matcher -/

theorem greedy_flatMap {β : Type} (p : Char → Bool) (f : Str → List β)
    (hf : ∀ c t, p c = true → f (c :: t) = []) (s : Str) :
    (greedy p s).flatMap f = f (s.dropWhile p) := by
  induction s with
  | nil => simp [greedy]
  | cons c t ih =>
    by_cases h : p c = true
    · simp [greedy, h, ih, hf c t h]
    · simp [greedy, h]

theorem greedy_head (p : Char → Bool) (s : Str) :
    (greedy p s).head? = some (s.dropWhile p) := by
  induction s with
  | nil => simp [greedy]
  | cons c t ih =>
    by_cases h : p c = true
    · cases hg : greedy p t with
      | nil => simp [hg] at ih
      | cons x xs => simp [greedy, h, hg] at ih ⊢; exact ih
    · simp [greedy, h]

theorem take_length_sub_dropWhile (p : Char → Bool) (s : Str) :
    s.take (s.length - (s.dropWhile p).length) = s.takeWhile p := by
  have h := List.takeWhile_append_dropWhile p s
  have hl : s.length = (s.takeWhile p).length + (s.dropWhile p).length := by
    rw [← List.length_append, h]
  have h2 : s.length - (s.dropWhile p).length = (s.takeWhile p).length := by omega
  rw [h2]
  have h3 := List.take_left (s.takeWhile p) (s.dropWhile p)
  rwa [h] at h3

theorem run_seq_lit (l : Str) (k : Re) (s : Str) :
    (Re.seq (.lit l) k).run s = match dropLit l s with
      | some r => k.run r
      | none => [] := by
  simp only [Re.run]
  cases dropLit l s <;> simp

theorem run_seq_plus (p : Char → Bool) (k : Re) (hk : ∀ c t, p c = true → k.run (c :: t) = [])
    (c : Char) (t : Str) :
    (Re.seq (.plus p) k).run (c :: t) = if p c then k.run (t.dropWhile p) else [] := by
  simp only [Re.run]
  by_cases h : p c = true
  · simp only [h, if_true, List.flatMap_map]
    rw [greedy_flatMap p _ _ t]
    · simp
    · intro c2 t2 h2
      simp [hk c2 t2 h2]
  · simp [h]

theorem run_seq_grp_plus (p : Char → Bool) (k : Re)
    (hk : ∀ c t, p c = true → k.run (c :: t) = []) (c : Char) (t : Str) :
    (Re.seq (.grp (.plus p)) k).run (c :: t) =
      if p c then (k.run (t.dropWhile p)).map (fun n => ((c :: t.takeWhile p) :: n.1, n.2))
      else [] := by
  simp only [Re.run]
  by_cases h : p c = true
  · simp only [h, if_true, List.map_map, List.flatMap_map]
    rw [greedy_flatMap p _ _ t]
    · have h3 := take_length_sub_dropWhile p (c :: t)
      simp only [List.dropWhile_cons, h, if_true, List.takeWhile_cons, List.length_cons] at h3
      simp [h3]
    · intro c2 t2 h2
      simp [hk c2 t2 h2]
  · simp [h]

theorem head_run_grp_plus (p : Char → Bool) (c : Char) (t : Str) :
    ((Re.grp (.plus p)).run (c :: t)).head? =
      if p c then some ([c :: t.takeWhile p], t.dropWhile p) else none := by
  simp only [Re.run]
  by_cases h : p c = true
  · have h3 := take_length_sub_dropWhile p (c :: t)
    simp only [List.dropWhile_cons, h, if_true, List.takeWhile_cons, List.length_cons] at h3
    simp [h, List.head?_map, greedy_head, h3]
  · simp [h]

/-! ### Leftmost matches -/

theorem search_append (r : Re) (pre s : Str)
    (h : ∀ k, k < pre.length → r.run ((pre ++ s).drop k) = []) :
    r.search (pre ++ s) = r.search s := by
  induction pre with
  | nil => rfl
  | cons c pre ih =>
    have h0 := h 0 (by simp)
    simp only [List.drop_zero, List.cons_append] at h0
    rw [List.cons_append, Re.search, h0]
    apply ih
    intro k hk
    have := h (k + 1) (by simpa using hk)
    simpa using this

theorem search_of_run (r : Re) (s : Str) (m : List Str × Str) (h : (r.run s).head? = some m) :
    r.search s = some m := by
  cases s with
  | nil => simpa [Re.search] using h
  | cons c t =>
    cases hr : r.run (c :: t) with
    | nil => simp [hr] at h
    | cons x xs =>
      simp only [hr, List.head?_cons, Option.some.injEq] at h
      simp [Re.search, hr, h]

theorem search_eq_none_iff (r : Re) (s : Str) :
    r.search s = none ↔ ∀ k, k ≤ s.length → r.run (s.drop k) = [] := by
  induction s with
  | nil =>
    simp only [Re.search, List.length_nil, Nat.le_zero_eq, forall_eq, List.drop_zero]
    cases r.run [] <;> simp
  | cons c t ih =>
    cases hr : r.run (c :: t) with
    | nil =>
      simp only [Re.search, hr, ih]
      constructor
      · intro h k hk
        cases k with
        | zero => simpa using hr
        | succ k => simpa using h k (by simpa using hk)
      · intro h k hk
        simpa using h (k + 1) (by simpa using hk)
    | cons x xs =>
      simp only [Re.search, hr]
      constructor
      · intro h; cases h
      · intro h
        have := h 0 (by simp)
        simp [hr] at this

theorem run_seq_grp_plus_nil (p : Char → Bool) (k : Re) :
    (Re.seq (.grp (.plus p)) k).run [] = [] := by
  simp [Re.run]

theorem run_seq_plus_nil (p : Char → Bool) (k : Re) :
    (Re.seq (.plus p) k).run [] = [] := by
  simp [Re.run]

theorem isDigit_ne {c d : Char} (h : c.isDigit = true) (hd : d.isDigit = false) : d ≠ c := by
  rintro rfl
  rw [h] at hd
  cases hd

theorem run_lit_cons_of_ne (l : Str) (d c : Char) (t : Str) (k : Re) (hl : l.head? = some d)
    (h : d ≠ c) : (Re.seq (.lit l) k).run (c :: t) = [] := by
  rw [run_seq_lit]
  cases l with
  | nil => simp at hl
  | cons x l =>
    simp only [List.head?_cons, Option.some.injEq] at hl
    subst hl
    simp [dropLit, h]

/-! ### The identifier patterns against their shapes -/

theorem digitsAt_cons (c : Char) (t : Str) :
    digitsAt (c :: t) = if c.isDigit then
      some (c :: t.takeWhile Char.isDigit, t.dropWhile Char.isDigit) else none := rfl

theorem head_run_grp_digits (s : Str) :
    ((Re.grp (.plus Char.isDigit)).run s).head? = (digitsAt s).map (fun a => ([a.1], a.2)) := by
  cases s with
  | nil => simp [Re.run, digitsAt]
  | cons c t =>
    rw [head_run_grp_plus]
    by_cases h : c.isDigit = true <;> simp [digitsAt, h]

theorem dashIRe_head (s : Str) :
    ((dashIRe.run s).head?).map Prod.fst = (dashIAt s).map (fun ab => [ab.1, ab.2]) := by
  unfold dashIRe dashIAt
  rw [run_seq_lit]
  cases dropLit "-i.".toList s with
  | none => simp
  | some r =>
    cases r with
    | nil => simp [run_seq_grp_plus_nil, digitsAt]
    | cons c t =>
      simp only []
      rw [run_seq_grp_plus _ _ (fun c2 t2 h2 =>
        run_lit_cons_of_ne ".".toList '.' c2 t2 _ rfl (isDigit_ne h2 (by decide)))]
      by_cases h : c.isDigit = true
      · simp only [h, if_true, run_seq_lit, Option.some_bind, digitsAt_cons]
        cases dropLit ".".toList (List.dropWhile Char.isDigit t) with
        | none => simp
        | some r2 =>
          simp only [List.head?_map, head_run_grp_digits, Option.map_map, Option.some_bind]
          cases digitsAt r2 <;> simp
      · simp [h, digitsAt_cons]

theorem productPathRe_head (s : Str) :
    ((productPathRe.run s).head?).map Prod.fst = (productPathAt s).map (fun ab => [ab.2]) := by
  unfold productPathRe productPathAt
  rw [run_seq_lit]
  cases dropLit "/product/".toList s with
  | none => simp
  | some r =>
    cases r with
    | nil => simp [run_seq_plus_nil, digitsAt]
    | cons c t =>
      simp only []
      rw [run_seq_plus _ _ (fun c2 t2 h2 =>
        run_lit_cons_of_ne "/".toList '/' c2 t2 _ rfl (isDigit_ne h2 (by decide)))]
      by_cases h : c.isDigit = true
      · simp only [h, if_true, run_seq_lit, Option.some_bind, digitsAt_cons]
        cases dropLit "/".toList (List.dropWhile Char.isDigit t) with
        | none => simp
        | some r2 =>
          simp only [List.head?_map, head_run_grp_digits, Option.map_map, Option.some_bind]
          cases digitsAt r2 <;> simp
      · simp [h, digitsAt_cons]

theorem run_seq_alt (a b k : Re) (s : Str) :
    (Re.seq (.alt a b) k).run s = (Re.seq a k).run s ++ (Re.seq b k).run s := by
  simp [Re.run, List.flatMap_append]

theorem dropLit_itemId_product (s r : Str) (h1 : dropLit "itemId=".toList s = some r) :
    dropLit "/product/".toList s = none := by
  cases s with
  | nil => rfl
  | cons c t =>
    by_cases hc : 'i' = c
    · subst hc; rfl
    · have : dropLit "itemId=".toList (c :: t) = none := by
        show dropLit ('i' :: "temId=".toList) (c :: t) = none
        simp [dropLit, hc]
      rw [this] at h1
      cases h1

theorem genericIdRe_head (s : Str) :
    ((genericIdRe.run s).head?).map Prod.fst = (genericIdAt s).map (fun n => [n]) := by
  unfold genericIdRe genericIdAt
  rw [run_seq_alt, run_seq_lit, run_seq_lit]
  cases h1 : dropLit "itemId=".toList s with
  | some r =>
    rw [dropLit_itemId_product s r h1]
    simp only [List.append_nil, head_run_grp_digits, Option.map_map, Option.orElse,
      Option.some_bind]
    cases digitsAt r <;> simp
  | none =>
    cases h2 : dropLit "/product/".toList s with
    | none => simp [Option.orElse]
    | some r =>
      simp only [List.nil_append, head_run_grp_digits, Option.map_map, Option.orElse,
        Option.some_bind]
      cases digitsAt r <;> simp

theorem lastDigitRe_head (s : Str) :
    ((lastDigitRe.run s).head?).map Prod.fst = (lastDigitAt s).map (fun n => [n]) := by
  unfold lastDigitRe lastDigitAt
  rw [run_seq_lit]
  cases dropLit "/".toList s with
  | none => simp
  | some r =>
    cases r with
    | nil => simp [run_seq_grp_plus_nil, digitsAt]
    | cons c t =>
      have hk : ∀ c2 t2, Char.isDigit c2 = true →
          (Re.alt (.lit "?".toList) .eos).run (c2 :: t2) = [] := by
        intro c2 t2 h2
        have hne : '?' ≠ c2 := isDigit_ne h2 (by decide)
        simp [Re.run, dropLit, hne]
      simp only []
      rw [run_seq_grp_plus _ _ hk]
      by_cases h : c.isDigit = true
      · simp only [h, if_true, Option.some_bind, digitsAt_cons, List.head?_map, Option.map_map]
        cases hr : List.dropWhile Char.isDigit t with
        | nil => simp [Re.run, dropLit]
        | cons x r2 =>
          by_cases hx : '?' = x
          · subst hx
            simp [Re.run, dropLit]
          · have hx2 : ¬ x = '?' := fun e => hx e.symm
            simp [Re.run, dropLit, hx, hx2]
      · simp [h, digitsAt_cons]

/-! ### Leftmost occurrence of a shape -/

theorem search_of_leftmost {α : Type} (r : Re) (f : Str → Option α) (g : α → List Str)
    (hrf : ∀ s, ((r.run s).head?).map Prod.fst = (f s).map g) (pre s : Str) (x : α)
    (hleft : ∀ k, k < pre.length → f ((pre ++ s).drop k) = none) (hx : f s = some x) :
    ∃ m, r.search (pre ++ s) = some m ∧ m.1 = g x := by
  have h1 : r.search (pre ++ s) = r.search s := by
    apply search_append
    intro k hk
    have h2 := hrf ((pre ++ s).drop k)
    rw [hleft k hk] at h2
    cases hrun : r.run ((pre ++ s).drop k) with
    | nil => rfl
    | cons y ys => simp [hrun] at h2
  have h3 := hrf s
  rw [hx] at h3
  cases hrun : (r.run s).head? with
  | none => simp [hrun] at h3
  | some m =>
    refine ⟨m, ?_, ?_⟩
    · rw [h1]; exact search_of_run r s m hrun
    · simpa [hrun] using h3

theorem search_none_of_nowhere {α : Type} (r : Re) (f : Str → Option α) (g : α → List Str)
    (hrf : ∀ s, ((r.run s).head?).map Prod.fst = (f s).map g) (url : Str) :
    r.search url = none ↔ ∀ k, k ≤ url.length → f (url.drop k) = none := by
  rw [search_eq_none_iff]
  constructor
  · intro h k hk
    have h2 := hrf (url.drop k)
    rw [h k hk] at h2
    cases hf : f (url.drop k) with
    | none => rfl
    | some y => simp [hf] at h2
  · intro h k hk
    have h2 := hrf (url.drop k)
    rw [h k hk] at h2
    cases hrun : r.run (url.drop k) with
    | nil => rfl
    | cons y ys => simp [hrun] at h2

theorem search_some_fst {α : Type} (r : Re) (f : Str → Option α) (g : α → List Str)
    (hrf : ∀ s, ((r.run s).head?).map Prod.fst = (f s).map g) (url : Str) (m : List Str × Str)
    (h : r.search url = some m) : ∃ x, m.1 = g x := by
  induction url with
  | nil =>
    have h2 := hrf []
    simp only [Re.search] at h
    rw [h] at h2
    cases hf : f [] with
    | none => simp [hf] at h2
    | some x => exact ⟨x, by simpa [hf] using h2⟩
  | cons c t ih =>
    cases hrun : r.run (c :: t) with
    | nil =>
      simp only [Re.search, hrun] at h
      exact ih h
    | cons y ys =>
      simp only [Re.search, hrun, Option.some.injEq] at h
      subst h
      have h2 := hrf (c :: t)
      cases hf : f (c :: t) with
      | none => simp [hf, hrun] at h2
      | some x => exact ⟨x, by simpa [hf, hrun] using h2⟩

/-! ### Shapes at an explicit decomposition -/

theorem takeWhile_run (p : Char → Bool) (a post : Str) (ha : a.all p = true)
    (hpost : post.head?.all (fun c => !p c) = true) : (a ++ post).takeWhile p = a := by
  induction a with
  | nil =>
    cases post with
    | nil => rfl
    | cons c t =>
      have : p c = false := by simpa using hpost
      simp [this]
  | cons c a ih =>
    simp only [List.all_cons, Bool.and_eq_true] at ha
    simp [ha.1, ih ha.2]

theorem dropWhile_run (p : Char → Bool) (a post : Str) (ha : a.all p = true)
    (hpost : post.head?.all (fun c => !p c) = true) : (a ++ post).dropWhile p = post := by
  induction a with
  | nil =>
    cases post with
    | nil => rfl
    | cons c t =>
      have : p c = false := by simpa using hpost
      simp [this]
  | cons c a ih =>
    simp only [List.all_cons, Bool.and_eq_true] at ha
    simp [ha.1, ih ha.2]

theorem digitsAt_run (a post : Str) (hne : a ≠ []) (ha : a.all Char.isDigit = true)
    (hpost : post.head?.all (fun c => !c.isDigit) = true) : digitsAt (a ++ post) = some (a, post) := by
  cases a with
  | nil => exact absurd rfl hne
  | cons c a =>
    simp only [List.all_cons, Bool.and_eq_true] at ha
    rw [List.cons_append, digitsAt_cons, takeWhile_run _ a post ha.2 hpost,
      dropWhile_run _ a post ha.2 hpost]
    simp [ha.1]

theorem digitsAt_fst (s : Str) (x : Str × Str) (h : digitsAt s = some x) :
    x.1 ≠ [] ∧ x.1.all Char.isDigit = true ∧ s = x.1 ++ x.2 := by
  cases s with
  | nil => simp [digitsAt] at h
  | cons c t =>
    rw [digitsAt_cons] at h
    by_cases hc : c.isDigit = true
    · simp only [hc, if_true, Option.some.injEq] at h
      subst h
      refine ⟨by simp, ?_, by simp⟩
      simp only [List.all_cons, hc, Bool.true_and, List.all_eq_true]
      intro y hy
      exact (List.mem_takeWhile_imp hy)
    · simp [hc] at h

theorem dashIAt_shape (a b post : Str) (ha0 : a ≠ []) (ha : a.all Char.isDigit = true)
    (hb0 : b ≠ []) (hb : b.all Char.isDigit = true)
    (hpost : post.head?.all (fun c => !c.isDigit) = true) :
    dashIAt ("-i.".toList ++ (a ++ (".".toList ++ (b ++ post)))) = some (a, b) := by
  unfold dashIAt
  rw [dropLit_append, Option.some_bind, digitsAt_run a _ ha0 ha (by simp), Option.some_bind]
  simp only []
  rw [dropLit_append, Option.some_bind, digitsAt_run b _ hb0 hb hpost]
  rfl

theorem productPathAt_shape (a b post : Str) (ha0 : a ≠ []) (ha : a.all Char.isDigit = true)
    (hb0 : b ≠ []) (hb : b.all Char.isDigit = true)
    (hpost : post.head?.all (fun c => !c.isDigit) = true) :
    productPathAt ("/product/".toList ++ (a ++ ("/".toList ++ (b ++ post)))) = some (a, b) := by
  unfold productPathAt
  rw [dropLit_append, Option.some_bind, digitsAt_run a _ ha0 ha (by simp), Option.some_bind]
  simp only []
  rw [dropLit_append, Option.some_bind, digitsAt_run b _ hb0 hb hpost]
  rfl

theorem genericIdAt_itemId (n post : Str) (hn0 : n ≠ []) (hn : n.all Char.isDigit = true)
    (hpost : post.head?.all (fun c => !c.isDigit) = true) :
    genericIdAt ("itemId=".toList ++ (n ++ post)) = some n := by
  unfold genericIdAt
  rw [dropLit_append]
  simp only [Option.orElse, Option.some_bind]
  rw [digitsAt_run n _ hn0 hn hpost]
  rfl

theorem genericIdAt_product (n post : Str) (hn0 : n ≠ []) (hn : n.all Char.isDigit = true)
    (hpost : post.head?.all (fun c => !c.isDigit) = true) :
    genericIdAt ("/product/".toList ++ (n ++ post)) = some n := by
  unfold genericIdAt
  have h1 : dropLit "itemId=".toList ("/product/".toList ++ (n ++ post)) = none := rfl
  rw [h1, dropLit_append]
  simp only [Option.orElse, Option.some_bind]
  rw [digitsAt_run n _ hn0 hn hpost]
  rfl

theorem lastDigitAt_shape (n post : Str) (hn0 : n ≠ []) (hn : n.all Char.isDigit = true)
    (hpost : post = [] ∨ post.head? = some '?') :
    lastDigitAt ("/".toList ++ (n ++ post)) = some n := by
  unfold lastDigitAt
  have hp : post.head?.all (fun c => !c.isDigit) = true := by
    rcases hpost with h | h
    · subst h; rfl
    · rw [h]; rfl
  rw [dropLit_append, Option.some_bind, digitsAt_run n _ hn0 hn hp, Option.some_bind]
  simp [hpost]

/-! ### The shapes, declaratively -/

theorem head_dropWhile (p : Char → Bool) (s : Str) :
    (s.dropWhile p).head?.all (fun c => !p c) = true := by
  induction s with
  | nil => rfl
  | cons c t ih =>
    by_cases h : p c = true
    · simp only [List.dropWhile_cons, h, if_true]
      exact ih
    · simp [List.dropWhile_cons, h]

theorem digitsAt_eq_some (s : Str) (x : Str × Str) (h : digitsAt s = some x) :
    x.1 ≠ [] ∧ x.1.all Char.isDigit = true ∧ s = x.1 ++ x.2 ∧
      x.2.head?.all (fun c => !c.isDigit) = true := by
  obtain ⟨h1, h2, h3⟩ := digitsAt_fst s x h
  refine ⟨h1, h2, h3, ?_⟩
  cases s with
  | nil => simp [digitsAt] at h
  | cons c t =>
    rw [digitsAt_cons] at h
    by_cases hc : c.isDigit = true
    · simp only [hc, if_true, Option.some.injEq] at h
      subst h
      exact head_dropWhile _ t
    · simp [hc] at h

theorem digitsAt_isSome_of_run (a post : Str) (hne : a ≠ []) (ha : a.all Char.isDigit = true) :
    ∃ y, digitsAt (a ++ post) = some y := by
  cases a with
  | nil => exact absurd rfl hne
  | cons c a =>
    simp only [List.all_cons, Bool.and_eq_true] at ha
    rw [List.cons_append, digitsAt_cons]
    simp [ha.1]

/-- The shape of rule 1 stands at the start of `s` exactly when `s` is `-i.`, a non-empty
digit run, a dot, a non-empty digit run, and anything. -/
theorem dashIAt_isSome_iff (s : Str) :
    (dashIAt s).isSome = true ↔ ∃ a b post, a ≠ [] ∧ a.all Char.isDigit = true ∧ b ≠ [] ∧
      b.all Char.isDigit = true ∧ s = "-i.".toList ++ (a ++ (".".toList ++ (b ++ post))) := by
  constructor
  · intro h
    obtain ⟨x, hx⟩ := Option.isSome_iff_exists.1 h
    unfold dashIAt at hx
    cases h0 : dropLit "-i.".toList s with
    | none => rw [h0, Option.none_bind] at hx; cases hx
    | some r =>
      rw [h0, Option.some_bind] at hx
      cases h1 : digitsAt r with
      | none => rw [h1, Option.none_bind] at hx; cases hx
      | some a =>
        rw [h1, Option.some_bind] at hx
        cases h2 : dropLit ".".toList a.2 with
        | none => rw [h2, Option.none_bind] at hx; cases hx
        | some r2 =>
          rw [h2, Option.some_bind] at hx
          cases h3 : digitsAt r2 with
          | none => rw [h3] at hx; cases hx
          | some b =>
            obtain ⟨ha0, ha, hra, -⟩ := digitsAt_eq_some r a h1
            obtain ⟨hb0, hb, hrb, -⟩ := digitsAt_eq_some r2 b h3
            refine ⟨a.1, b.1, b.2, ha0, ha, hb0, hb, ?_⟩
            rw [dropLit_eq_some.1 h0, hra, dropLit_eq_some.1 h2, hrb]
  · rintro ⟨a, b, post, ha0, ha, hb0, hb, rfl⟩
    obtain ⟨y, hy⟩ := digitsAt_isSome_of_run b post hb0 hb
    unfold dashIAt
    rw [dropLit_append, Option.some_bind, digitsAt_run a _ ha0 ha (by simp), Option.some_bind]
    simp only []
    rw [dropLit_append, Option.some_bind, hy]
    rfl

/-- The shape of rule 2 stands at the start of `s` exactly when `s` is `/product/`, a
non-empty digit run, a slash, a non-empty digit run, and anything. -/
theorem productPathAt_isSome_iff (s : Str) :
    (productPathAt s).isSome = true ↔ ∃ a b post, a ≠ [] ∧ a.all Char.isDigit = true ∧ b ≠ [] ∧
      b.all Char.isDigit = true ∧
      s = "/product/".toList ++ (a ++ ("/".toList ++ (b ++ post))) := by
  constructor
  · intro h
    obtain ⟨x, hx⟩ := Option.isSome_iff_exists.1 h
    unfold productPathAt at hx
    cases h0 : dropLit "/product/".toList s with
    | none => rw [h0, Option.none_bind] at hx; cases hx
    | some r =>
      rw [h0, Option.some_bind] at hx
      cases h1 : digitsAt r with
      | none => rw [h1, Option.none_bind] at hx; cases hx
      | some a =>
        rw [h1, Option.some_bind] at hx
        cases h2 : dropLit "/".toList a.2 with
        | none => rw [h2, Option.none_bind] at hx; cases hx
        | some r2 =>
          rw [h2, Option.some_bind] at hx
          cases h3 : digitsAt r2 with
          | none => rw [h3] at hx; cases hx
          | some b =>
            obtain ⟨ha0, ha, hra, -⟩ := digitsAt_eq_some r a h1
            obtain ⟨hb0, hb, hrb, -⟩ := digitsAt_eq_some r2 b h3
            refine ⟨a.1, b.1, b.2, ha0, ha, hb0, hb, ?_⟩
            rw [dropLit_eq_some.1 h0, hra, dropLit_eq_some.1 h2, hrb]
  · rintro ⟨a, b, post, ha0, ha, hb0, hb, rfl⟩
    obtain ⟨y, hy⟩ := digitsAt_isSome_of_run b post hb0 hb
    unfold productPathAt
    rw [dropLit_append, Option.some_bind, digitsAt_run a _ ha0 ha (by simp), Option.some_bind]
    simp only []
    rw [dropLit_append, Option.some_bind, hy]
    rfl

/-- The shape of rule 3 stands at the start of `s` exactly when `s` is `itemId=` or
`/product/`, a non-empty digit run, and anything. -/
theorem genericIdAt_isSome_iff (s : Str) :
    (genericIdAt s).isSome = true ↔ ∃ lit n post,
      (lit = "itemId=".toList ∨ lit = "/product/".toList) ∧ n ≠ [] ∧
      n.all Char.isDigit = true ∧ s = lit ++ (n ++ post) := by
  constructor
  · intro h
    obtain ⟨x, hx⟩ := Option.isSome_iff_exists.1 h
    unfold genericIdAt at hx
    cases h0 : dropLit "itemId=".toList s with
    | some r =>
      rw [h0] at hx
      simp only [Option.orElse, Option.some_bind] at hx
      cases h1 : digitsAt r with
      | none => rw [h1] at hx; cases hx
      | some a =>
        obtain ⟨ha0, ha, hra, -⟩ := digitsAt_eq_some r a h1
        refine ⟨_, a.1, a.2, Or.inl rfl, ha0, ha, ?_⟩
        rw [dropLit_eq_some.1 h0, hra]
    | none =>
      rw [h0] at hx
      simp only [Option.orElse] at hx
      cases h0b : dropLit "/product/".toList s with
      | none => rw [h0b, Option.none_bind] at hx; cases hx
      | some r =>
        rw [h0b, Option.some_bind] at hx
        cases h1 : digitsAt r with
        | none => rw [h1] at hx; cases hx
        | some a =>
          obtain ⟨ha0, ha, hra, -⟩ := digitsAt_eq_some r a h1
          refine ⟨_, a.1, a.2, Or.inr rfl, ha0, ha, ?_⟩
          rw [dropLit_eq_some.1 h0b, hra]
  · rintro ⟨lit, n, post, hlit, hn0, hn, rfl⟩
    obtain ⟨y, hy⟩ := digitsAt_isSome_of_run n post hn0 hn
    unfold genericIdAt
    rcases hlit with rfl | rfl
    · rw [dropLit_append]
      simp only [Option.orElse, Option.some_bind]
      rw [hy]
      rfl
    · have h1 : dropLit "itemId=".toList ("/product/".toList ++ (n ++ post)) = none := rfl
      rw [h1, dropLit_append]
      simp only [Option.orElse, Option.some_bind]
      rw [hy]
      rfl

/-- The shape of the fallback rule stands at the start of `s` exactly when `s` is a slash
and a non-empty digit run followed by the end of the string or by `?`. -/
theorem lastDigitAt_isSome_iff (s : Str) :
    (lastDigitAt s).isSome = true ↔ ∃ n post, n ≠ [] ∧ n.all Char.isDigit = true ∧
      (post = [] ∨ post.head? = some '?') ∧ s = "/".toList ++ (n ++ post) := by
  constructor
  · intro h
    obtain ⟨x, hx⟩ := Option.isSome_iff_exists.1 h
    unfold lastDigitAt at hx
    cases h0 : dropLit "/".toList s with
    | none => rw [h0, Option.none_bind] at hx; cases hx
    | some r =>
      rw [h0, Option.some_bind] at hx
      cases h1 : digitsAt r with
      | none => rw [h1, Option.none_bind] at hx; cases hx
      | some a =>
        rw [h1, Option.some_bind] at hx
        obtain ⟨ha0, ha, hra, -⟩ := digitsAt_eq_some r a h1
        by_cases hp : a.2 = [] ∨ a.2.head? = some '?'
        · refine ⟨a.1, a.2, ha0, ha, hp, ?_⟩
          rw [dropLit_eq_some.1 h0, hra]
        · simp only [hp, if_false] at hx
          cases hx
  · rintro ⟨n, post, hn0, hn, hpost, rfl⟩
    rw [lastDigitAt_shape n post hn0 hn hpost]
    rfl

/-! ## Item-id extraction -/

theorem extractItemId_of_dashI (url : Str) (m : List Str × Str) (x : Str × Str)
    (h : dashIRe.search url = some m) (hm : m.1 = [x.1, x.2]) : extractItemId url = some x.2 := by
  simp [extractItemId, h, group, hm]

theorem extractItemId_of_productPath (url : Str) (m : List Str × Str) (x : Str)
    (h1 : dashIRe.search url = none) (h : productPathRe.search url = some m) (hm : m.1 = [x]) :
    extractItemId url = some x := by
  simp [extractItemId, h1, h, group, hm]

theorem extractItemId_of_genericId (url : Str) (m : List Str × Str) (x : Str)
    (h1 : dashIRe.search url = none) (h2 : productPathRe.search url = none)
    (h : genericIdRe.search url = some m) (hm : m.1 = [x]) : extractItemId url = some x := by
  simp [extractItemId, h1, h2, h, group, hm]

theorem extractItemId_of_lastDigit (url : Str) (m : List Str × Str) (x : Str)
    (h1 : dashIRe.search url = none) (h2 : productPathRe.search url = none)
    (h3 : genericIdRe.search url = none) (h : lastDigitRe.search url = some m) (hm : m.1 = [x]) :
    extractItemId url = some x := by
  simp [extractItemId, h1, h2, h3, h, group, hm]

theorem dashI_search_none (url : Str)
    (h : ∀ k, k ≤ url.length → dashIAt (url.drop k) = none) : dashIRe.search url = none :=
  (search_none_of_nowhere dashIRe dashIAt _ dashIRe_head url).2 h

theorem productPath_search_none (url : Str)
    (h : ∀ k, k ≤ url.length → productPathAt (url.drop k) = none) :
    productPathRe.search url = none :=
  (search_none_of_nowhere productPathRe productPathAt _ productPathRe_head url).2 h

theorem genericId_search_none (url : Str)
    (h : ∀ k, k ≤ url.length → genericIdAt (url.drop k) = none) :
    genericIdRe.search url = none :=
  (search_none_of_nowhere genericIdRe genericIdAt _ genericIdRe_head url).2 h

/-- C5. Rule 1 of the extractor: when the leftmost occurrence of `-i.<A>.<B>` in the URL
(`A`, `B` non-empty digit runs, `B` maximal) is the one displayed, the extracted item id is
`B`, whatever else the URL contains. -/
theorem extractItemId_dashI (pre a b post : Str)
    (ha0 : a ≠ []) (ha : a.all Char.isDigit = true)
    (hb0 : b ≠ []) (hb : b.all Char.isDigit = true)
    (hpost : post.head?.all (fun c => !c.isDigit) = true)
    (hleft : ∀ k, k < pre.length →
      dashIAt ((pre ++ ("-i.".toList ++ (a ++ (".".toList ++ (b ++ post))))).drop k) = none) :
    extractItemId (pre ++ ("-i.".toList ++ (a ++ (".".toList ++ (b ++ post))))) = some b := by
  obtain ⟨m, hm, hm1⟩ := search_of_leftmost dashIRe dashIAt (fun ab => [ab.1, ab.2])
    dashIRe_head pre _ (a, b) hleft (dashIAt_shape a b post ha0 ha hb0 hb hpost)
  exact extractItemId_of_dashI _ m (a, b) hm hm1

theorem extractItemId_dashI_witness :
    extractItemId ("https://shopee.vn/product/7/8/ao-thun".toList ++ ("-i.".toList ++
      ("123".toList ++ (".".toList ++ ("4567".toList ++ "?itemId=9".toList))))) =
      some "4567".toList :=
  extractItemId_dashI "https://shopee.vn/product/7/8/ao-thun".toList "123".toList "4567".toList
    "?itemId=9".toList (by decide) (by decide) (by decide) (by decide) (by decide) (by decide)

/-- C6. Rule 2 of the extractor: when `-i.<digits>.<digits>` occurs nowhere in the URL and
the leftmost occurrence of `/product/<A>/<B>` (`A`, `B` non-empty digit runs, `B` maximal) is
the one displayed, the extracted item id is `B`. -/
theorem extractItemId_productPath (pre a b post : Str)
    (ha0 : a ≠ []) (ha : a.all Char.isDigit = true)
    (hb0 : b ≠ []) (hb : b.all Char.isDigit = true)
    (hpost : post.head?.all (fun c => !c.isDigit) = true)
    (hno1 : ∀ k, k ≤ (pre ++ ("/product/".toList ++ (a ++ ("/".toList ++ (b ++ post))))).length →
      dashIAt ((pre ++ ("/product/".toList ++ (a ++ ("/".toList ++ (b ++ post))))).drop k) = none)
    (hleft : ∀ k, k < pre.length →
      productPathAt ((pre ++ ("/product/".toList ++ (a ++ ("/".toList ++ (b ++ post))))).drop k)
        = none) :
    extractItemId (pre ++ ("/product/".toList ++ (a ++ ("/".toList ++ (b ++ post))))) = some b := by
  obtain ⟨m, hm, hm1⟩ := search_of_leftmost productPathRe productPathAt (fun ab => [ab.2])
    productPathRe_head pre _ (a, b) hleft (productPathAt_shape a b post ha0 ha hb0 hb hpost)
  exact extractItemId_of_productPath _ m b (dashI_search_none _ hno1) hm hm1

theorem extractItemId_productPath_witness :
    extractItemId ("https://shopee.vn".toList ++ ("/product/".toList ++
      ("111".toList ++ ("/".toList ++ ("222".toList ++ "?itemId=9".toList))))) =
      some "222".toList :=
  extractItemId_productPath "https://shopee.vn".toList "111".toList "222".toList
    "?itemId=9".toList (by decide) (by decide) (by decide) (by decide) (by decide) (by decide)
    (by decide)

/-- C7. Rule 3 of the extractor: when neither `-i.<digits>.<digits>` nor
`/product/<digits>/<digits>` occurs in the URL and the leftmost occurrence of `itemId=<N>` or
`/product/<N>` (`N` a non-empty maximal digit run) is the one displayed, the extracted item
id is `N`. -/
theorem extractItemId_genericId (pre lit n post : Str)
    (hlit : lit = "itemId=".toList ∨ lit = "/product/".toList)
    (hn0 : n ≠ []) (hn : n.all Char.isDigit = true)
    (hpost : post.head?.all (fun c => !c.isDigit) = true)
    (hno1 : ∀ k, k ≤ (pre ++ (lit ++ (n ++ post))).length →
      dashIAt ((pre ++ (lit ++ (n ++ post))).drop k) = none)
    (hno2 : ∀ k, k ≤ (pre ++ (lit ++ (n ++ post))).length →
      productPathAt ((pre ++ (lit ++ (n ++ post))).drop k) = none)
    (hleft : ∀ k, k < pre.length → genericIdAt ((pre ++ (lit ++ (n ++ post))).drop k) = none) :
    extractItemId (pre ++ (lit ++ (n ++ post))) = some n := by
  have hshape : genericIdAt (lit ++ (n ++ post)) = some n := by
    rcases hlit with h | h
    · subst h; exact genericIdAt_itemId n post hn0 hn hpost
    · subst h; exact genericIdAt_product n post hn0 hn hpost
  obtain ⟨m, hm, hm1⟩ := search_of_leftmost genericIdRe genericIdAt (fun x => [x])
    genericIdRe_head pre _ n hleft hshape
  exact extractItemId_of_genericId _ m n (dashI_search_none _ hno1)
    (productPath_search_none _ hno2) hm hm1

theorem extractItemId_genericId_witness :
    extractItemId ("https://shopee.vn/x/77?a=1&".toList ++ ("itemId=".toList ++
      ("345".toList ++ "&b=/product/9".toList))) = some "345".toList :=
  extractItemId_genericId "https://shopee.vn/x/77?a=1&".toList "itemId=".toList "345".toList
    "&b=/product/9".toList (Or.inl rfl) (by decide) (by decide) (by decide) (by decide)
    (by decide) (by decide)

/-- C8. Fallback of the extractor: when none of the shapes of rules 1 to 3 occurs in the
URL, the extracted id is the `N` of the leftmost `/<N>` (a non-empty digit run) that is
followed by `?` or by the end of the string, and it is absent when there is no such
occurrence; and for every URL the id is absent exactly when none of the four shapes occurs. -/
theorem extractItemId_fallback (url : Str)
    (hno1 : ∀ k, k ≤ url.length → dashIAt (url.drop k) = none)
    (hno2 : ∀ k, k ≤ url.length → productPathAt (url.drop k) = none)
    (hno3 : ∀ k, k ≤ url.length → genericIdAt (url.drop k) = none) :
    (∀ pre n post, url = pre ++ ("/".toList ++ (n ++ post)) → n ≠ [] →
        n.all Char.isDigit = true → (post = [] ∨ post.head? = some '?') →
        (∀ k, k < pre.length → lastDigitAt (url.drop k) = none) →
        extractItemId url = some n) ∧
      ((∀ k, k ≤ url.length → lastDigitAt (url.drop k) = none) → extractItemId url = none) ∧
      ∀ u : Str, extractItemId u = none ↔
        ∀ k, k ≤ u.length → dashIAt (u.drop k) = none ∧ productPathAt (u.drop k) = none ∧
          genericIdAt (u.drop k) = none ∧ lastDigitAt (u.drop k) = none := by
  refine ⟨?_, ?_, ?_⟩
  · intro pre n post hurl hn0 hn hpost hleft
    subst hurl
    obtain ⟨m, hm, hm1⟩ := search_of_leftmost lastDigitRe lastDigitAt (fun x => [x])
      lastDigitRe_head pre _ n hleft (lastDigitAt_shape n post hn0 hn hpost)
    exact extractItemId_of_lastDigit _ m n (dashI_search_none _ hno1)
      (productPath_search_none _ hno2) (genericId_search_none _ hno3) hm hm1
  · intro h4
    have := (search_none_of_nowhere lastDigitRe lastDigitAt _ lastDigitRe_head url).2 h4
    simp [extractItemId, dashI_search_none _ hno1, productPath_search_none _ hno2,
      genericId_search_none _ hno3, this]
  · intro u
    constructor
    · intro h
      unfold extractItemId at h
      cases h1 : dashIRe.search u with
      | some m =>
        obtain ⟨x, hx⟩ := search_some_fst dashIRe dashIAt _ dashIRe_head u m h1
        simp [h1, group, hx] at h
      | none =>
        cases h2 : productPathRe.search u with
        | some m =>
          obtain ⟨x, hx⟩ := search_some_fst productPathRe productPathAt _ productPathRe_head u m h2
          simp [h1, h2, group, hx] at h
        | none =>
          cases h3 : genericIdRe.search u with
          | some m =>
            obtain ⟨x, hx⟩ := search_some_fst genericIdRe genericIdAt _ genericIdRe_head u m h3
            simp [h1, h2, h3, group, hx] at h
          | none =>
            cases h4 : lastDigitRe.search u with
            | some m =>
              obtain ⟨x, hx⟩ := search_some_fst lastDigitRe lastDigitAt _ lastDigitRe_head u m h4
              simp [h1, h2, h3, h4, group, hx] at h
            | none =>
              intro k hk
              exact ⟨(search_none_of_nowhere _ _ _ dashIRe_head u).1 h1 k hk,
                (search_none_of_nowhere _ _ _ productPathRe_head u).1 h2 k hk,
                (search_none_of_nowhere _ _ _ genericIdRe_head u).1 h3 k hk,
                (search_none_of_nowhere _ _ _ lastDigitRe_head u).1 h4 k hk⟩
    · intro h
      have h1 := dashI_search_none u (fun k hk => (h k hk).1)
      have h2 := productPath_search_none u (fun k hk => (h k hk).2.1)
      have h3 := genericId_search_none u (fun k hk => (h k hk).2.2.1)
      have h4 := (search_none_of_nowhere lastDigitRe lastDigitAt _ lastDigitRe_head u).2
        (fun k hk => (h k hk).2.2.2)
      simp [extractItemId, h1, h2, h3, h4]

theorem extractItemId_fallback_witness :
    extractItemId "https://shopee.vn/x/12?a=/34".toList = some "12".toList :=
  (extractItemId_fallback "https://shopee.vn/x/12?a=/34".toList (by decide) (by decide)
    (by decide)).1 "https://shopee.vn/x".toList "12".toList "?a=/34".toList (by decide)
    (by decide) (by decide) (by decide) (by decide)

/-! ## Link cleaning: the shop-page rewrite -/

theorem segmentAt_cons (c : Char) (t : Str) :
    segmentAt (c :: t) = if c != '/' then
      some (c :: t.takeWhile (fun x => x != '/'), t.dropWhile (fun x => x != '/')) else none := rfl

theorem segmentAt_run (g post : Str) (hne : g ≠ []) (hg : g.all (fun x => x != '/') = true)
    (hpost : post.head?.all (fun c => !(c != '/')) = true) :
    segmentAt (g ++ post) = some (g, post) := by
  cases g with
  | nil => exact absurd rfl hne
  | cons c g =>
    simp only [List.all_cons, Bool.and_eq_true] at hg
    rw [List.cons_append, segmentAt_cons, takeWhile_run _ g post hg.2 hpost,
      dropWhile_run _ g post hg.2 hpost]
    simp only [hg.1, if_true]

theorem shopProductRe_head (s : Str) :
    ((shopProductRe.run s).head?).map Prod.fst =
      (shopProductAt s).map (fun x => [x.1, x.2.1, x.2.2]) := by
  unfold shopProductRe shopProductAt
  rw [run_seq_lit]
  cases dropLit "shopee.vn/".toList s with
  | none => simp
  | some r =>
    cases r with
    | nil => simp [run_seq_grp_plus_nil, segmentAt]
    | cons c t =>
      simp only []
      rw [run_seq_grp_plus _ _ (fun c2 t2 h2 =>
        run_lit_cons_of_ne "/".toList '/' c2 t2 _ rfl (by
          intro h; subst h; simp at h2))]
      by_cases h : (c != '/') = true
      · simp only [h, if_true, run_seq_lit, Option.some_bind, segmentAt_cons]
        cases dropLit "/".toList (List.dropWhile (fun x => x != '/') t) with
        | none => simp
        | some r1 =>
          cases r1 with
          | nil => simp [run_seq_grp_plus_nil, digitsAt]
          | cons c1 t1 =>
            simp only []
            rw [run_seq_grp_plus _ _ (fun c2 t2 h2 =>
              run_lit_cons_of_ne "/".toList '/' c2 t2 _ rfl (isDigit_ne h2 (by decide)))]
            by_cases h1 : c1.isDigit = true
            · simp only [h1, if_true, run_seq_lit, Option.some_bind, digitsAt_cons]
              cases dropLit "/".toList (List.dropWhile Char.isDigit t1) with
              | none => simp
              | some r2 =>
                simp only [List.head?_map, head_run_grp_digits, Option.map_map, Option.some_bind]
                cases digitsAt r2 <;> simp
            · simp [h1, digitsAt_cons]
      · simp [h, segmentAt_cons]

theorem shopProductAt_shape (slug a b post : Str)
    (hs0 : slug ≠ []) (hs : slug.all (fun x => x != '/') = true)
    (ha0 : a ≠ []) (ha : a.all Char.isDigit = true)
    (hb0 : b ≠ []) (hb : b.all Char.isDigit = true)
    (hpost : post.head?.all (fun c => !c.isDigit) = true) :
    shopProductAt ("shopee.vn/".toList ++ (slug ++ ("/".toList ++ (a ++ ("/".toList ++ (b ++ post))))))
      = some (slug, a, b) := by
  unfold shopProductAt
  rw [dropLit_append, Option.some_bind, segmentAt_run slug _ hs0 hs (by simp), Option.some_bind]
  simp only []
  rw [dropLit_append, Option.some_bind, digitsAt_run a _ ha0 ha (by simp), Option.some_bind]
  simp only []
  rw [dropLit_append, Option.some_bind, digitsAt_run b _ hb0 hb hpost]
  rfl

theorem cleanUrl_of_search (sp : Str → Option Params) (u : Str)
    (h : includes "/search".toList (baseOf u) = true) :
    cleanUrl sp u = match sp u with
      | none => baseOf u
      | some ps =>
        if serialize (whitelist ps) != [] then baseOf u ++ '?' :: serialize (whitelist ps)
        else baseOf u := by
  unfold cleanUrl
  simp only [h, if_true]

theorem cleanUrl_of_shop (sp : Str → Option Params) (u : Str) (m : List Str × Str)
    (h : includes "/search".toList (baseOf u) = false)
    (hm : shopProductRe.search (baseOf u) = some m) :
    cleanUrl sp u =
      "https://shopee.vn/product/".toList ++ (group m 2).getD [] ++ '/' :: (group m 3).getD [] := by
  unfold cleanUrl
  simp only [h, hm, Bool.false_eq_true, if_false]

theorem cleanUrl_of_standard (sp : Str → Option Params) (u : Str)
    (h : includes "/search".toList (baseOf u) = false)
    (hm : shopProductRe.search (baseOf u) = none)
    (hstd : (includes "/m/".toList (baseOf u) || includes "/product/".toList (baseOf u)
      || splitCount '/' (baseOf u) = 4) = true) :
    cleanUrl sp u = baseOf u := by
  unfold cleanUrl
  simp only [h, hm, Bool.false_eq_true, if_false]
  rw [if_pos hstd]

theorem cleanUrl_of_fallback (sp : Str → Option Params) (u : Str)
    (h : includes "/search".toList (baseOf u) = false)
    (hm : shopProductRe.search (baseOf u) = none)
    (hstd : (includes "/m/".toList (baseOf u) || includes "/product/".toList (baseOf u)
      || splitCount '/' (baseOf u) = 4) = false) :
    cleanUrl sp u = stripTracking u := by
  unfold cleanUrl
  simp only [h, hm, Bool.false_eq_true, if_false]
  rw [if_neg (by rw [hstd]; exact Bool.false_ne_true)]

/-- C2. Shop-page rewrite: when the base of the URL (the part before the first `?`) does not
contain `/search` and the leftmost occurrence of `shopee.vn/<slug>/<shopId>/<itemId>` in it
(slug a non-empty run without `/`, the two ids non-empty digit runs, the second maximal) is the
one displayed, the cleaned URL is exactly `https://shopee.vn/product/<shopId>/<itemId>`. -/
theorem cleanUrl_shopProduct (sp : Str → Option Params) (u pre slug a b post : Str)
    (hbase : baseOf u = pre ++ ("shopee.vn/".toList ++ (slug ++ ("/".toList ++
      (a ++ ("/".toList ++ (b ++ post)))))))
    (hsearch : includes "/search".toList (baseOf u) = false)
    (hs0 : slug ≠ []) (hs : slug.all (fun x => x != '/') = true)
    (ha0 : a ≠ []) (ha : a.all Char.isDigit = true)
    (hb0 : b ≠ []) (hb : b.all Char.isDigit = true)
    (hpost : post.head?.all (fun c => !c.isDigit) = true)
    (hleft : ∀ k, k < pre.length → shopProductAt ((baseOf u).drop k) = none) :
    cleanUrl sp u = "https://shopee.vn/product/".toList ++ (a ++ ("/".toList ++ b)) := by
  rw [hbase] at hleft
  obtain ⟨m, hm, hm1⟩ := search_of_leftmost shopProductRe shopProductAt
    (fun x => [x.1, x.2.1, x.2.2]) shopProductRe_head pre _ (slug, a, b) hleft
    (shopProductAt_shape slug a b post hs0 hs ha0 ha hb0 hb hpost)
  rw [← hbase] at hm
  rw [cleanUrl_of_shop sp u m hsearch hm]
  simp [group, hm1]

theorem cleanUrl_shopProduct_witness :
    cleanUrl whatwgSearchParams "https://shopee.vn/some-shop/111/222?utm_source=fb".toList =
      "https://shopee.vn/product/".toList ++ ("111".toList ++ ("/".toList ++ "222".toList)) :=
  cleanUrl_shopProduct whatwgSearchParams "https://shopee.vn/some-shop/111/222?utm_source=fb".toList
    "https://".toList "some-shop".toList "111".toList "222".toList [] (by decide) (by decide)
    (by decide) (by decide) (by decide) (by decide) (by decide) (by decide) (by decide)
    (by decide)

/-! ## Link cleaning: the search branch -/

theorem foldl_append_if {α β : Type} (c : α → Bool) (f : α → β) (ks : List α) (acc : List β) :
    ks.foldl (fun a k => if c k then a ++ [f k] else a) acc = acc ++ (ks.filter c).map f := by
  induction ks generalizing acc with
  | nil => simp
  | cons k ks ih =>
    by_cases h : c k = true
    · simp [List.foldl_cons, h, ih]
    · simp [List.foldl_cons, h, ih]

theorem whitelist_eq (ps : Params) :
    whitelist ps = (allowedKeys.filter (fun k => ps.has k)).map
      (fun k => (k, (ps.get k).getD [])) := by
  unfold whitelist
  rw [foldl_append_if (fun k => ps.has k) (fun k => (k, (ps.get k).getD []))]
  rfl

theorem whitelist_fst_mem (ps : Params) (p : Str × Str) (hp : p ∈ whitelist ps) :
    p.1 ∈ allowedKeys := by
  rw [whitelist_eq] at hp
  obtain ⟨k, hk, rfl⟩ := List.mem_map.1 hp
  exact (List.mem_filter.1 hk).1

theorem baseOf_all (u : Str) : (baseOf u).all (fun c => c != '?') = true := by
  rw [List.all_eq_true]
  intro x hx
  exact @List.mem_takeWhile_imp _ (fun c => c != '?') u x hx

theorem baseOf_append_query (u q : Str) : baseOf (baseOf u ++ '?' :: q) = baseOf u :=
  takeWhile_run _ (baseOf u) ('?' :: q) (baseOf_all u) (by simp)

theorem baseOf_baseOf (u : Str) : baseOf (baseOf u) = baseOf u := by
  have := takeWhile_run (fun c => c != '?') (baseOf u) [] (baseOf_all u) rfl
  rw [List.append_nil] at this
  exact this

theorem queryOf_append_query (u q : Str) : queryOf (baseOf u ++ '?' :: q) = q := by
  unfold queryOf
  rw [dropWhile_run _ (baseOf u) ('?' :: q) (baseOf_all u) (by simp)]
  rfl

theorem queryOf_baseOf (u : Str) : queryOf (baseOf u) = [] := by
  unfold queryOf
  have := dropWhile_run (fun c => c != '?') (baseOf u) [] (baseOf_all u) rfl
  rw [List.append_nil] at this
  rw [this]
  rfl

/-! ### The serializer against the undecoded reading of a query string -/

theorem toNat_ofNat_cases (n : Nat) : (Char.ofNat n).toNat = n ∨ (Char.ofNat n).toNat = 0 := by
  by_cases h : n.isValidChar
  · left
    simp [Char.ofNat, h, Char.ofNatAux, Char.toNat, UInt32.toNat]
  · right
    simp [Char.ofNat, h, Char.toNat, UInt32.toNat]

theorem hexDigit_plain (n : Nat) : hexDigit n ≠ '&' ∧ hexDigit n ≠ '=' := by
  have h38 : ('&' : Char).toNat = 38 := rfl
  have h61 : ('=' : Char).toNat = 61 := rfl
  unfold hexDigit
  by_cases h : n < 10
  · simp only [h, if_true]
    constructor <;>
    · intro he
      have h2 := congrArg Char.toNat he
      simp only [h38, h61] at h2
      rcases toNat_ofNat_cases (48 + n) with h3 | h3 <;> omega
  · simp only [h, if_false]
    constructor <;>
    · intro he
      have h2 := congrArg Char.toNat he
      simp only [h38, h61] at h2
      rcases toNat_ofNat_cases (55 + n) with h3 | h3 <;> omega

theorem formEncodeChar_plain (c x : Char) (hx : x ∈ formEncodeChar c) : x ≠ '&' ∧ x ≠ '=' := by
  unfold formEncodeChar at hx
  by_cases h1 : c = ' '
  · simp only [h1, if_true, List.mem_singleton] at hx
    subst hx
    exact ⟨by decide, by decide⟩
  · simp only [h1, if_false] at hx
    by_cases h2 : formSafe c = true
    · simp only [h2, if_true, List.mem_singleton] at hx
      subst hx
      constructor
      · rintro rfl
        exact absurd h2 (by decide)
      · rintro rfl
        exact absurd h2 (by decide)
    · simp only [h2, Bool.false_eq_true, if_false, List.mem_flatMap] at hx
      obtain ⟨b, -, hb⟩ := hx
      simp only [pctByte, List.mem_cons, List.mem_singleton, List.not_mem_nil, or_false] at hb
      rcases hb with rfl | rfl | rfl
      · exact ⟨by decide, by decide⟩
      · exact hexDigit_plain _
      · exact hexDigit_plain _

theorem formEncode_plain (s : Str) (x : Char) (hx : x ∈ formEncode s) : x ≠ '&' ∧ x ≠ '=' := by
  unfold formEncode at hx
  obtain ⟨c, -, hc⟩ := List.mem_flatMap.1 hx
  exact formEncodeChar_plain c x hc

theorem splitChar_append (sep : Char) (x rest : Str) (h : ∀ c ∈ x, c ≠ sep) :
    splitChar sep (x ++ sep :: rest) = x :: splitChar sep rest := by
  induction x with
  | nil => simp [splitChar]
  | cons c x ih =>
    have hc : c ≠ sep := h c (List.mem_cons_self _ _)
    have ih2 := ih (fun d hd => h d (List.mem_cons_of_mem _ hd))
    simp [splitChar, hc, ih2]

theorem splitChar_plain (sep : Char) (x : Str) (h : ∀ c ∈ x, c ≠ sep) :
    splitChar sep x = [x] := by
  induction x with
  | nil => simp [splitChar]
  | cons c x ih =>
    have hc : c ≠ sep := h c (List.mem_cons_self _ _)
    have ih2 := ih (fun d hd => h d (List.mem_cons_of_mem _ hd))
    simp [splitChar, hc, ih2]

theorem rawPair_encoded (k v : Str) (hk : ∀ c ∈ k, c ≠ '=') :
    rawPair (k ++ '=' :: v) = (k, v) := by
  unfold rawPair
  have hall : k.all (fun c => c != '=') = true := by
    rw [List.all_eq_true]
    intro c hc
    simpa using hk c hc
  rw [takeWhile_run _ k ('=' :: v) hall (by simp), dropWhile_run _ k ('=' :: v) hall (by simp)]
  rfl

theorem encodedPair_plain (p : Str × Str) (c : Char)
    (hc : c ∈ formEncode p.1 ++ '=' :: formEncode p.2) : c ≠ '&' := by
  rcases List.mem_append.1 hc with h | h
  · exact (formEncode_plain _ c h).1
  · rcases List.mem_cons.1 h with h | h
    · subst h; decide
    · exact (formEncode_plain _ c h).1

theorem rawParams_serialize (ps : Params) :
    rawParams (serialize ps) = ps.map (fun p => (formEncode p.1, formEncode p.2)) := by
  induction ps with
  | nil => rfl
  | cons p ps ih =>
    have hpair : rawPair (formEncode p.1 ++ '=' :: formEncode p.2) =
        (formEncode p.1, formEncode p.2) :=
      rawPair_encoded _ _ (fun c hc => (formEncode_plain _ c hc).2)
    cases ps with
    | nil =>
      unfold rawParams serialize
      have hone : "&".toList.intercalate
          (List.map (fun p => formEncode p.1 ++ '=' :: formEncode p.2) [p]) =
          formEncode p.1 ++ '=' :: formEncode p.2 := by
        simp [List.intercalate]
      rw [hone, splitChar_plain '&' _ (encodedPair_plain p)]
      simp [hpair]
    | cons q ps =>
      unfold rawParams serialize at ih ⊢
      have hstep : "&".toList.intercalate
          (List.map (fun p => formEncode p.1 ++ '=' :: formEncode p.2) (p :: q :: ps)) =
          (formEncode p.1 ++ '=' :: formEncode p.2) ++ '&' ::
            "&".toList.intercalate
              (List.map (fun p => formEncode p.1 ++ '=' :: formEncode p.2) (q :: ps)) := by
        simp [List.intercalate]
      rw [hstep, splitChar_append '&' _ _ (encodedPair_plain p)]
      simp only [List.map_cons] at ih ⊢
      rw [List.filter_cons_of_pos (by simp), List.map_cons, ih, hpair]

theorem formEncode_allowed : ∀ k ∈ allowedKeys, formEncode k = k := by decide

theorem serialize_eq_nil (ps : Params) : serialize ps = [] ↔ ps = [] := by
  constructor
  · intro h
    have h2 := rawParams_serialize ps
    rw [h] at h2
    cases ps with
    | nil => rfl
    | cons p ps => simp [rawParams, splitChar] at h2
  · rintro rfl
    rfl

theorem cleanUrl_search_eq (sp : Str → Option Params) (u : Str)
    (h : includes "/search".toList (baseOf u) = true) :
    cleanUrl sp u =
      if ((sp u).map whitelist).getD [] = [] then baseOf u
      else baseOf u ++ '?' :: serialize (((sp u).map whitelist).getD []) := by
  rw [cleanUrl_of_search sp u h]
  cases sp u with
  | none => simp
  | some ps =>
    by_cases hw : whitelist ps = []
    · simp [hw, (serialize_eq_nil []).2 rfl]
    · have hs : serialize (whitelist ps) ≠ [] := fun e => hw ((serialize_eq_nil _).1 e)
      simp [hw, hs]

theorem rawParams_whitelist (input : Params) :
    rawParams (serialize (whitelist input)) =
      (allowedKeys.filter (fun k => input.has k)).map
        (fun k => (k, formEncode ((input.get k).getD []))) := by
  rw [rawParams_serialize, whitelist_eq, List.map_map]
  apply List.map_congr_left
  intro k hk
  simp only [Function.comp]
  rw [formEncode_allowed k (List.mem_filter.1 hk).1]

/-- C3. Search allow-list: when the base of the URL contains `/search`, the cleaned URL is
the base alone or the base, `?` and the serialisation of a non-empty parameter list; every
parameter name read off the cleaned URL's query string is in the allow-list; and the cleaned
URL is the bare base when the input URL carries no allow-listed parameter. -/
theorem cleanUrl_search (sp : Str → Option Params) (u : Str)
    (h : includes "/search".toList (baseOf u) = true) :
    ∃ ps : Params, (∀ p ∈ ps, p.1 ∈ allowedKeys) ∧
      cleanUrl sp u = (if ps = [] then baseOf u else baseOf u ++ '?' :: serialize ps) ∧
      (∀ p ∈ rawParams (queryOf (cleanUrl sp u)), p.1 ∈ allowedKeys) ∧
      ((∀ input, sp u = some input → ∀ key ∈ allowedKeys, input.has key = false) →
        cleanUrl sp u = baseOf u) := by
  have heq := cleanUrl_search_eq sp u h
  have hmem : ∀ p ∈ ((sp u).map whitelist).getD [], p.1 ∈ allowedKeys := by
    intro p hp
    cases hsp : sp u with
    | none => simp [hsp] at hp
    | some input =>
      simp only [hsp, Option.map_some', Option.getD_some] at hp
      exact whitelist_fst_mem input p hp
  refine ⟨((sp u).map whitelist).getD [], hmem, heq, ?_, ?_⟩
  · intro p hp
    by_cases hw : ((sp u).map whitelist).getD [] = []
    · rw [heq, if_pos hw, queryOf_baseOf] at hp
      simp [rawParams, splitChar] at hp
    · rw [heq, if_neg hw, queryOf_append_query, rawParams_serialize] at hp
      obtain ⟨q, hq, rfl⟩ := List.mem_map.1 hp
      have hk := hmem q hq
      simp only []
      rw [formEncode_allowed _ hk]
      exact hk
  · intro hnone
    rw [heq]
    have hw : ((sp u).map whitelist).getD [] = [] := by
      cases hsp : sp u with
      | none => rfl
      | some input =>
        simp only [Option.map_some', Option.getD_some, whitelist_eq]
        have : allowedKeys.filter (fun k => input.has k) = [] := by
          rw [List.filter_eq_nil_iff]
          intro k hk
          simp [hnone input hsp k hk]
        rw [this]
        rfl
    rw [if_pos hw]

theorem cleanUrl_search_witness :
    ∃ ps : Params, (∀ p ∈ ps, p.1 ∈ allowedKeys) ∧
      cleanUrl whatwgSearchParams "https://shopee.vn/search?x=2&shop=1&keyword=a%20b".toList =
        (if ps = [] then baseOf "https://shopee.vn/search?x=2&shop=1&keyword=a%20b".toList
          else baseOf "https://shopee.vn/search?x=2&shop=1&keyword=a%20b".toList ++
            '?' :: serialize ps) ∧
      (∀ p ∈ rawParams (queryOf (cleanUrl whatwgSearchParams
        "https://shopee.vn/search?x=2&shop=1&keyword=a%20b".toList)), p.1 ∈ allowedKeys) ∧
      ((∀ input, whatwgSearchParams "https://shopee.vn/search?x=2&shop=1&keyword=a%20b".toList =
          some input → ∀ key ∈ allowedKeys, input.has key = false) →
        cleanUrl whatwgSearchParams "https://shopee.vn/search?x=2&shop=1&keyword=a%20b".toList =
          baseOf "https://shopee.vn/search?x=2&shop=1&keyword=a%20b".toList) :=
  cleanUrl_search whatwgSearchParams "https://shopee.vn/search?x=2&shop=1&keyword=a%20b".toList
    (by decide)

/-- C4 (amended). Search parameters: when the base of the URL contains `/search` and the
platform parses the URL, the parameters of the cleaned URL's query string are, for each
allow-listed name that the input URL carries, taken in the order of the allow-list, that name
with the serialised first value it has in the input. -/
theorem cleanUrl_search_order (sp : Str → Option Params) (u : Str) (input : Params)
    (h : includes "/search".toList (baseOf u) = true) (hin : sp u = some input) :
    rawParams (queryOf (cleanUrl sp u)) =
      (allowedKeys.filter (fun k => input.has k)).map
        (fun k => (k, formEncode ((input.get k).getD []))) := by
  rw [cleanUrl_search_eq sp u h, hin]
  simp only [Option.map_some', Option.getD_some]
  by_cases hw : whitelist input = []
  · rw [if_pos hw, queryOf_baseOf, ← rawParams_whitelist, hw]
    rfl
  · rw [if_neg hw, queryOf_append_query, rawParams_whitelist]

theorem cleanUrl_search_order_witness :
    rawParams (queryOf (cleanUrl whatwgSearchParams
      "https://shopee.vn/search?shop=1&x=2&keyword=a&keyword=b".toList)) =
      [("keyword".toList, "a".toList), ("shop".toList, "1".toList)] :=
  cleanUrl_search_order whatwgSearchParams
    "https://shopee.vn/search?shop=1&x=2&keyword=a&keyword=b".toList
    [("shop".toList, "1".toList), ("x".toList, "2".toList), ("keyword".toList, "a".toList),
      ("keyword".toList, "b".toList)] (by decide) (by decide)

/-- C4, as stated, fails: for `https://shopee.vn/search?shop=1&keyword=a` both parameters are
allow-listed and the input order is `shop`, `keyword`, but the cleaned URL lists `keyword`
before `shop`. -/
theorem cleanUrl_search_order_counterexample :
    includes "/search".toList (baseOf "https://shopee.vn/search?shop=1&keyword=a".toList) = true ∧
      whatwgSearchParams "https://shopee.vn/search?shop=1&keyword=a".toList =
        some [("shop".toList, "1".toList), ("keyword".toList, "a".toList)] ∧
      cleanUrl whatwgSearchParams "https://shopee.vn/search?shop=1&keyword=a".toList =
        "https://shopee.vn/search?keyword=a&shop=1".toList ∧
      rawParams (queryOf (cleanUrl whatwgSearchParams
        "https://shopee.vn/search?shop=1&keyword=a".toList)) ≠
        ([("shop".toList, "1".toList), ("keyword".toList, "a".toList)].filter
          (fun p => p.1 ∈ allowedKeys)).map (fun p => (p.1, formEncode p.2)) := by
  decide

/-! ## Link cleaning: the fallback branch -/

theorem includes_mono (p a b : Str) (hab : a <+: b) (h : includes p a = true) :
    includes p b = true := by
  obtain ⟨x, y, hxy⟩ := includes_iff.1 h
  obtain ⟨z, hz⟩ := hab
  exact includes_iff.2 ⟨x, y ++ z, by rw [← hz, hxy]; simp⟩

theorem includes_false_of_prefix (p a b : Str) (hab : a <+: b) (h : includes p b = false) :
    includes p a = false := by
  cases ha : includes p a with
  | false => rfl
  | true => rw [includes_mono p a b hab ha] at h; cases h

theorem before_isPrefix (p s : Str) : before p s <+: s := by
  induction s with
  | nil => exact List.prefix_refl _
  | cons c t ih =>
    unfold before
    by_cases h : (dropLit p (c :: t)).isSome = true
    · simp [h]
    · simp only [h, Bool.false_eq_true, if_false]
      exact (List.prefix_cons_inj c).2 ih

theorem dropLit_isSome_mono (p a b : Str) (hab : a <+: b) (h : (dropLit p a).isSome = true) :
    (dropLit p b).isSome = true := by
  obtain ⟨r, hr⟩ := Option.isSome_iff_exists.1 h
  obtain ⟨z, hz⟩ := hab
  rw [dropLit_eq_some] at hr
  apply Option.isSome_iff_exists.2
  exact ⟨r ++ z, dropLit_eq_some.2 (by rw [← hz, hr]; simp)⟩

theorem includes_before (p s : Str) (hp : p ≠ []) : includes p (before p s) = false := by
  induction s with
  | nil =>
    cases p with
    | nil => exact absurd rfl hp
    | cons a p => rfl
  | cons c t ih =>
    unfold before
    by_cases h : (dropLit p (c :: t)).isSome = true
    · simp only [h, if_true]
      cases p with
      | nil => exact absurd rfl hp
      | cons a p => rfl
    · simp only [h, Bool.false_eq_true, if_false, includes, ih, Bool.or_false]
      cases h2 : (dropLit p (c :: before p t)).isSome with
      | false => rfl
      | true =>
        exact absurd (dropLit_isSome_mono p _ (c :: t)
          ((List.prefix_cons_inj c).2 (before_isPrefix p t)) h2) h

/-- One step of the `forEach` over the tracking markers. -/
theorem cut_isPrefix (p s : Str) : (if includes p s then before p s else s) <+: s := by
  by_cases h : includes p s = true
  · simp only [h, if_true]; exact before_isPrefix p s
  · simp only [h, Bool.false_eq_true, if_false]; exact List.prefix_refl _

theorem cut_not_includes (p s : Str) (hp : p ≠ []) :
    includes p (if includes p s then before p s else s) = false := by
  by_cases h : includes p s = true
  · simp only [h, if_true]; exact includes_before p s hp
  · have h2 : includes p s = false := by simpa using h
    simp only [h2, Bool.false_eq_true, if_false]

theorem cutAll_isPrefix (ms : List Str) (s : Str) :
    ms.foldl (fun t p => if includes p t then before p t else t) s <+: s := by
  induction ms generalizing s with
  | nil => exact List.prefix_refl _
  | cons m ms ih =>
    rw [List.foldl_cons]
    exact (ih _).trans (cut_isPrefix m s)

theorem cutAll_not_includes (ms : List Str) (s : Str) (hms : ∀ p ∈ ms, p ≠ []) (p : Str)
    (hp : p ∈ ms) :
    includes p (ms.foldl (fun t p => if includes p t then before p t else t) s) = false := by
  induction ms generalizing s with
  | nil => cases hp
  | cons m ms ih =>
    rw [List.foldl_cons]
    rcases List.mem_cons.1 hp with rfl | hp2
    · exact includes_false_of_prefix _ _ _ (cutAll_isPrefix ms _)
        (cut_not_includes p s (hms p (List.mem_cons_self _ _)))
    · exact ih _ (fun q hq => hms q (List.mem_cons_of_mem _ hq)) hp2

theorem cutAll_of_not_includes (ms : List Str) (s : Str) (h : ∀ p ∈ ms, includes p s = false) :
    ms.foldl (fun t p => if includes p t then before p t else t) s = s := by
  induction ms with
  | nil => rfl
  | cons m ms ih =>
    rw [List.foldl_cons]
    have hm := h m (List.mem_cons_self _ _)
    simp only [hm, Bool.false_eq_true, if_false]
    exact ih (fun q hq => h q (List.mem_cons_of_mem _ hq))

theorem stripTracking_eq (u : Str) :
    stripTracking u =
      if dangling (trackingMarkers.foldl (fun t p => if includes p t then before p t else t) u)
      then (trackingMarkers.foldl (fun t p => if includes p t then before p t else t) u).dropLast
      else trackingMarkers.foldl (fun t p => if includes p t then before p t else t) u := rfl

theorem trim_isPrefix (t : Str) : (if dangling t then t.dropLast else t) <+: t := by
  split
  · exact List.dropLast_prefix _
  · exact List.prefix_refl _

theorem stripTracking_isPrefix (u : Str) : stripTracking u <+: u := by
  rw [stripTracking_eq]
  exact (trim_isPrefix _).trans (cutAll_isPrefix trackingMarkers u)

theorem stripTracking_no_marker (u p : Str) (hp : p ∈ trackingMarkers) :
    includes p (stripTracking u) = false := by
  rw [stripTracking_eq]
  exact includes_false_of_prefix _ _ _ (trim_isPrefix _)
    (cutAll_not_includes trackingMarkers u (by decide) p hp)

theorem stripTracking_of_no_marker (v : Str)
    (h : ∀ p ∈ trackingMarkers, includes p v = false) :
    stripTracking v = if dangling v then v.dropLast else v := by
  rw [stripTracking_eq, cutAll_of_not_includes trackingMarkers v h]

/-! ### Bases and shapes of a prefix -/

theorem baseOf_eq_self (a : Str) (h : '?' ∉ a) : baseOf a = a := by
  have hall : a.all (fun c => c != '?') = true := by
    rw [List.all_eq_true]
    intro c hc
    have : c ≠ '?' := fun e => h (e ▸ hc)
    simpa using this
  have := takeWhile_run (fun c => c != '?') a [] hall rfl
  rw [List.append_nil] at this
  exact this

theorem baseOf_mono (a z : Str) : baseOf a <+: baseOf (a ++ z) := by
  induction a with
  | nil => exact List.nil_prefix
  | cons c a ih =>
    unfold baseOf at ih ⊢
    by_cases h : (c != '?') = true
    · simp only [List.cons_append, List.takeWhile_cons, h, if_true]
      exact (List.prefix_cons_inj c).2 ih
    · simp only [List.cons_append, List.takeWhile_cons, h, Bool.false_eq_true, if_false]
      exact List.prefix_refl _

theorem baseOf_append_of_mem (a z : Str) (h : '?' ∈ a) : baseOf (a ++ z) = baseOf a := by
  induction a with
  | nil => cases h
  | cons c a ih =>
    unfold baseOf at ih ⊢
    by_cases hc : (c != '?') = true
    · have hne : '?' ≠ c := by
        intro e; subst e; simp at hc
      have h2 : '?' ∈ a := by
        rcases List.mem_cons.1 h with e | e
        · exact absurd e hne
        · exact e
      simp only [List.cons_append, List.takeWhile_cons, hc, if_true, ih h2]
    · simp only [List.cons_append, List.takeWhile_cons, hc, Bool.false_eq_true, if_false]

theorem dropLit_append_right (p s r z : Str) (h : dropLit p s = some r) :
    dropLit p (s ++ z) = some (r ++ z) := by
  rw [dropLit_eq_some] at h ⊢
  rw [h, List.append_assoc]

theorem segmentAt_fst (s : Str) (x : Str × Str) (h : segmentAt s = some x) :
    x.1 ≠ [] ∧ x.1.all (fun c => c != '/') = true ∧ s = x.1 ++ x.2 := by
  cases s with
  | nil => simp [segmentAt] at h
  | cons c t =>
    rw [segmentAt_cons] at h
    by_cases hc : (c != '/') = true
    · simp only [hc, if_true, Option.some.injEq] at h
      subst h
      refine ⟨by simp, ?_, by simp⟩
      simp only [List.all_cons, hc, Bool.true_and, List.all_eq_true]
      intro y hy
      exact @List.mem_takeWhile_imp _ (fun c => c != '/') t y hy
    · simp [hc] at h

theorem segmentAt_append (r z r1 : Str) (g : Str × Str) (h : segmentAt r = some g)
    (h2 : dropLit "/".toList g.2 = some r1) : segmentAt (r ++ z) = some (g.1, g.2 ++ z) := by
  obtain ⟨h0, hall, hr⟩ := segmentAt_fst r g h
  rw [dropLit_eq_some] at h2
  rw [hr, List.append_assoc]
  apply segmentAt_run g.1 (g.2 ++ z) h0 hall
  rw [h2]
  rfl

theorem digitsAt_append (r z r1 : Str) (a : Str × Str) (h : digitsAt r = some a)
    (h2 : dropLit "/".toList a.2 = some r1) : digitsAt (r ++ z) = some (a.1, a.2 ++ z) := by
  obtain ⟨h0, hall, hr⟩ := digitsAt_fst r a h
  rw [dropLit_eq_some] at h2
  rw [hr, List.append_assoc]
  apply digitsAt_run a.1 (a.2 ++ z) h0 hall
  rw [h2]
  rfl

theorem digitsAt_append_isSome (r z : Str) (b : Str × Str) (h : digitsAt r = some b) :
    ∃ y, digitsAt (r ++ z) = some y := by
  cases r with
  | nil => simp [digitsAt] at h
  | cons c t =>
    rw [digitsAt_cons] at h
    rw [List.cons_append, digitsAt_cons]
    by_cases hc : c.isDigit = true
    · simp [hc]
    · simp [hc] at h

theorem shopProductAt_append (s z : Str) (x : Str × Str × Str) (h : shopProductAt s = some x) :
    ∃ y, shopProductAt (s ++ z) = some y := by
  unfold shopProductAt at h ⊢
  cases h0 : dropLit "shopee.vn/".toList s with
  | none => rw [h0, Option.none_bind] at h; cases h
  | some r =>
    rw [h0, Option.some_bind] at h
    cases h1 : segmentAt r with
    | none => rw [h1, Option.none_bind] at h; cases h
    | some g =>
      rw [h1, Option.some_bind] at h
      cases h2 : dropLit "/".toList g.2 with
      | none => rw [h2, Option.none_bind] at h; cases h
      | some r1 =>
        rw [h2, Option.some_bind] at h
        cases h3 : digitsAt r1 with
        | none => rw [h3, Option.none_bind] at h; cases h
        | some a =>
          rw [h3, Option.some_bind] at h
          cases h4 : dropLit "/".toList a.2 with
          | none => rw [h4, Option.none_bind] at h; cases h
          | some r2 =>
            rw [h4, Option.some_bind] at h
            cases h5 : digitsAt r2 with
            | none => rw [h5] at h; cases h
            | some b =>
              obtain ⟨y, hy⟩ := digitsAt_append_isSome r2 z b h5
              refine ⟨(g.1, a.1, y.1), ?_⟩
              rw [dropLit_append_right _ _ _ z h0, Option.some_bind,
                segmentAt_append r z r1 g h1 h2, Option.some_bind]
              simp only []
              rw [dropLit_append_right _ _ _ z h2, Option.some_bind,
                digitsAt_append r1 z r2 a h3 h4, Option.some_bind]
              simp only []
              rw [dropLit_append_right _ _ _ z h4, Option.some_bind, hy]
              rfl

/-- The shop-page shape stands at the start of `s` exactly when `s` is `shopee.vn/`, a
non-empty slug without `/`, a slash, a non-empty digit run, a slash, a non-empty digit run,
and anything. -/
theorem shopProductAt_isSome_iff (s : Str) :
    (shopProductAt s).isSome = true ↔ ∃ slug a b post, slug ≠ [] ∧
      slug.all (fun x => x != '/') = true ∧ a ≠ [] ∧ a.all Char.isDigit = true ∧ b ≠ [] ∧
      b.all Char.isDigit = true ∧
      s = "shopee.vn/".toList ++ (slug ++ ("/".toList ++ (a ++ ("/".toList ++ (b ++ post))))) := by
  constructor
  · intro h
    obtain ⟨x, hx⟩ := Option.isSome_iff_exists.1 h
    unfold shopProductAt at hx
    cases h0 : dropLit "shopee.vn/".toList s with
    | none => rw [h0, Option.none_bind] at hx; cases hx
    | some r =>
      rw [h0, Option.some_bind] at hx
      cases h1 : segmentAt r with
      | none => rw [h1, Option.none_bind] at hx; cases hx
      | some g =>
        rw [h1, Option.some_bind] at hx
        cases h2 : dropLit "/".toList g.2 with
        | none => rw [h2, Option.none_bind] at hx; cases hx
        | some r1 =>
          rw [h2, Option.some_bind] at hx
          cases h3 : digitsAt r1 with
          | none => rw [h3, Option.none_bind] at hx; cases hx
          | some a =>
            rw [h3, Option.some_bind] at hx
            cases h4 : dropLit "/".toList a.2 with
            | none => rw [h4, Option.none_bind] at hx; cases hx
            | some r2 =>
              rw [h4, Option.some_bind] at hx
              cases h5 : digitsAt r2 with
              | none => rw [h5] at hx; cases hx
              | some b =>
                obtain ⟨hg0, hg, hrg⟩ := segmentAt_fst r g h1
                obtain ⟨ha0, ha, hra, -⟩ := digitsAt_eq_some r1 a h3
                obtain ⟨hb0, hb, hrb, -⟩ := digitsAt_eq_some r2 b h5
                refine ⟨g.1, a.1, b.1, b.2, hg0, hg, ha0, ha, hb0, hb, ?_⟩
                rw [dropLit_eq_some.1 h0, hrg, dropLit_eq_some.1 h2, hra, dropLit_eq_some.1 h4,
                  hrb]
  · rintro ⟨slug, a, b, post, hs0, hs, ha0, ha, hb0, hb, rfl⟩
    obtain ⟨y, hy⟩ := digitsAt_isSome_of_run b post hb0 hb
    unfold shopProductAt
    rw [dropLit_append, Option.some_bind, segmentAt_run slug _ hs0 hs (by simp),
      Option.some_bind]
    simp only []
    rw [dropLit_append, Option.some_bind, digitsAt_run a _ ha0 ha (by simp), Option.some_bind]
    simp only []
    rw [dropLit_append, Option.some_bind, hy]
    rfl

theorem shopSearch_none_of_prefix (a b : Str) (hab : a <+: b)
    (h : shopProductRe.search b = none) : shopProductRe.search a = none := by
  obtain ⟨z, hz⟩ := hab
  rw [search_none_of_nowhere shopProductRe shopProductAt _ shopProductRe_head] at h ⊢
  intro k hk
  have h2 := h k (by rw [← hz, List.length_append]; omega)
  rw [← hz, List.drop_append_of_le_length hk] at h2
  cases h3 : shopProductAt (List.drop k a) with
  | none => rfl
  | some x =>
    obtain ⟨y, hy⟩ := shopProductAt_append _ z x h3
    rw [hy] at h2
    cases h2

/-! ## Link cleaning: a second pass -/

theorem search_some_at {α : Type} (r : Re) (f : Str → Option α) (g : α → List Str)
    (hrf : ∀ s, ((r.run s).head?).map Prod.fst = (f s).map g) (url : Str) (m : List Str × Str)
    (h : r.search url = some m) : ∃ s x, f s = some x ∧ m.1 = g x := by
  induction url with
  | nil =>
    have h2 := hrf []
    simp only [Re.search] at h
    rw [h] at h2
    cases hf : f [] with
    | none => simp [hf] at h2
    | some x => exact ⟨[], x, hf, by simpa [hf] using h2⟩
  | cons c t ih =>
    cases hrun : r.run (c :: t) with
    | nil =>
      simp only [Re.search, hrun] at h
      exact ih h
    | cons y ys =>
      simp only [Re.search, hrun, Option.some.injEq] at h
      subst h
      have h2 := hrf (c :: t)
      cases hf : f (c :: t) with
      | none => simp [hf, hrun] at h2
      | some x => exact ⟨c :: t, x, hf, by simpa [hf, hrun] using h2⟩

theorem shopProductAt_parts (s : Str) (x : Str × Str × Str) (h : shopProductAt s = some x) :
    (x.2.1 ≠ [] ∧ x.2.1.all Char.isDigit = true) ∧ x.2.2 ≠ [] ∧ x.2.2.all Char.isDigit = true := by
  unfold shopProductAt at h
  cases h0 : dropLit "shopee.vn/".toList s with
  | none => rw [h0, Option.none_bind] at h; cases h
  | some r =>
    rw [h0, Option.some_bind] at h
    cases h1 : segmentAt r with
    | none => rw [h1, Option.none_bind] at h; cases h
    | some g =>
      rw [h1, Option.some_bind] at h
      cases h2 : dropLit "/".toList g.2 with
      | none => rw [h2, Option.none_bind] at h; cases h
      | some r1 =>
        rw [h2, Option.some_bind] at h
        cases h3 : digitsAt r1 with
        | none => rw [h3, Option.none_bind] at h; cases h
        | some a =>
          rw [h3, Option.some_bind] at h
          cases h4 : dropLit "/".toList a.2 with
          | none => rw [h4, Option.none_bind] at h; cases h
          | some r2 =>
            rw [h4, Option.some_bind] at h
            cases h5 : digitsAt r2 with
            | none => rw [h5] at h; cases h
            | some b =>
              rw [h5] at h
              simp only [Option.map_some', Option.some.injEq] at h
              subst h
              obtain ⟨ha0, ha, -⟩ := digitsAt_fst r1 a h3
              obtain ⟨hb0, hb, -⟩ := digitsAt_fst r2 b h5
              exact ⟨⟨ha0, ha⟩, hb0, hb⟩

theorem isDigit_ne_of (c d : Char) (hc : c.isDigit = true) (hd : d.isDigit = false) : c ≠ d := by
  rintro rfl
  rw [hc] at hd
  cases hd

theorem productUrl_chars (a b : Str) (ha : a.all Char.isDigit = true)
    (hb : b.all Char.isDigit = true) (c : Char)
    (hc : c ∈ "https://shopee.vn/product/".toList ++ a ++ '/' :: b) : c ≠ '?' ∧ c ≠ 'a' := by
  rw [List.all_eq_true] at ha hb
  rcases List.mem_append.1 hc with h | h
  · rcases List.mem_append.1 h with h | h
    · have hall : ∀ d ∈ "https://shopee.vn/product/".toList, d ≠ '?' ∧ d ≠ 'a' := by decide
      exact hall c h
    · exact ⟨isDigit_ne_of c _ (ha c h) (by decide), isDigit_ne_of c _ (ha c h) (by decide)⟩
  · rcases List.mem_cons.1 h with h | h
    · subst h; exact ⟨by decide, by decide⟩
    · exact ⟨isDigit_ne_of c _ (hb c h) (by decide), isDigit_ne_of c _ (hb c h) (by decide)⟩

theorem cleanUrl_productUrl (sp : Str → Option Params) (a b : Str)
    (ha0 : a ≠ []) (ha : a.all Char.isDigit = true)
    (hb0 : b ≠ []) (hb : b.all Char.isDigit = true) :
    cleanUrl sp ("https://shopee.vn/product/".toList ++ a ++ '/' :: b) =
      "https://shopee.vn/product/".toList ++ a ++ '/' :: b := by
  have hchars := productUrl_chars a b ha hb
  have hbase : baseOf ("https://shopee.vn/product/".toList ++ a ++ '/' :: b) =
      "https://shopee.vn/product/".toList ++ a ++ '/' :: b :=
    baseOf_eq_self _ (fun h => (hchars _ h).1 rfl)
  have hS : includes "/search".toList
      (baseOf ("https://shopee.vn/product/".toList ++ a ++ '/' :: b)) = false := by
    rw [hbase]
    cases hi : includes "/search".toList ("https://shopee.vn/product/".toList ++ a ++ '/' :: b) with
    | false => rfl
    | true =>
      obtain ⟨x, y, hxy⟩ := includes_iff.1 hi
      have hmem : 'a' ∈ "https://shopee.vn/product/".toList ++ a ++ '/' :: b := by
        rw [hxy]
        simp
      exact absurd rfl (hchars _ hmem).2
  have hsplit : "https://shopee.vn/product/".toList ++ a ++ '/' :: b =
      "https://".toList ++ ("shopee.vn/".toList ++ ("product".toList ++ ("/".toList ++
        (a ++ ("/".toList ++ (b ++ [])))))) := by
    simp
  obtain ⟨m, hm, hm1⟩ := search_of_leftmost shopProductRe shopProductAt
    (fun x => [x.1, x.2.1, x.2.2]) shopProductRe_head "https://".toList _
    ("product".toList, a, b)
    (by intro k hk
        have hk8 : k < 8 := hk
        interval_cases k <;> rfl)
    (shopProductAt_shape "product".toList a b [] (by decide) (by decide) ha0 ha hb0 hb rfl)
  rw [← hsplit, ← hbase] at hm
  rw [cleanUrl_of_shop sp _ m hS hm]
  simp [group, hm1]

theorem isFallback_eq_true (v : Str) (hS : includes "/search".toList (baseOf v) = false)
    (hM : shopProductRe.search (baseOf v) = none)
    (hStd : (includes "/m/".toList (baseOf v) || includes "/product/".toList (baseOf v)
      || splitCount '/' (baseOf v) = 4) = false) : isFallback v = true := by
  unfold isFallback
  rw [hS, hM, hStd]
  rfl

theorem isFallback_false_of_search (v : Str)
    (hS : includes "/search".toList (baseOf v) = true) : isFallback v = false := by
  unfold isFallback
  rw [hS]
  rfl

theorem isFallback_false_of_shop (v : Str) (m : List Str × Str)
    (hM : shopProductRe.search (baseOf v) = some m) : isFallback v = false := by
  unfold isFallback
  rw [hM]
  simp

theorem isFallback_false_of_standard (v : Str)
    (hStd : (includes "/m/".toList (baseOf v) || includes "/product/".toList (baseOf v)
      || splitCount '/' (baseOf v) = 4) = true) : isFallback v = false := by
  unfold isFallback
  rw [hStd]
  simp

theorem dropLast_ne_of_dangling (v : Str) (h : dangling v = true) : v.dropLast ≠ v := by
  intro e
  have hl := congrArg List.length e
  rw [List.length_dropLast] at hl
  cases v with
  | nil => simp [dangling, endsWithChar] at h
  | cons c t => simp at hl

/-! ### The allow-list applied twice -/

theorem find_keyed (g : Str → Str) (k : Str) (L : List Str) :
    (L.map (fun x => (x, g x))).find? (fun p => decide (p.1 = k)) =
      if k ∈ L then some (k, g k) else none := by
  induction L with
  | nil => simp
  | cons a L ih =>
    by_cases ha : a = k
    · subst ha
      simp [List.find?]
    · have hk : ¬ k = a := fun e => ha e.symm
      simp only [List.map_cons, List.find?, ha, decide_False, ih, List.mem_cons, hk, false_or]

theorem has_keyed (g : Str → Str) (k : Str) (L : List Str) :
    Params.has (L.map (fun x => (x, g x))) k = decide (k ∈ L) := by
  unfold Params.has
  induction L with
  | nil => simp
  | cons a L ih =>
    by_cases ha : a = k
    · subst ha
      simp
    · have hk : ¬ k = a := fun e => ha e.symm
      simp only [List.map_cons, List.any_cons, ha, decide_False, Bool.false_or, ih,
        List.mem_cons, hk, false_or]

/-- The allow-list step keeps what an earlier allow-list step has built. -/
theorem whitelist_whitelist (ps : Params) : whitelist (whitelist ps) = whitelist ps := by
  have hL : ∀ k, k ∈ allowedKeys.filter (fun k => ps.has k) ↔ k ∈ allowedKeys ∧ ps.has k = true := by
    intro k
    exact List.mem_filter
  rw [whitelist_eq (whitelist ps)]
  have hfilter : allowedKeys.filter (fun k => (whitelist ps).has k) =
      allowedKeys.filter (fun k => ps.has k) := by
    apply List.filter_congr
    intro k hk
    rw [whitelist_eq ps, has_keyed]
    by_cases hp : ps.has k = true
    · rw [hp]; exact decide_eq_true ((hL k).2 ⟨hk, hp⟩)
    · have hp2 : ps.has k = false := by simpa using hp
      rw [hp2]
      exact decide_eq_false (fun h => hp ((hL k).1 h).2)
  rw [hfilter]
  conv => rhs; rw [whitelist_eq ps]
  apply List.map_congr_left
  intro k hk
  have hget : (whitelist ps).get k = some ((ps.get k).getD []) := by
    unfold Params.get
    rw [whitelist_eq ps, find_keyed, if_pos hk]
    rfl
  rw [hget]
  rfl

/-- Every parameter the allow-list step keeps is a parameter of the input. -/
theorem whitelist_subset (ps : Params) (q : Str × Str) (hq : q ∈ whitelist ps) : q ∈ ps := by
  rw [whitelist_eq] at hq
  obtain ⟨k, hk, rfl⟩ := List.mem_map.1 hq
  have hhas : ps.has k = true := (List.mem_filter.1 hk).2
  unfold Params.has at hhas
  obtain ⟨p, hp, hpk⟩ := List.any_eq_true.1 hhas
  unfold Params.get
  cases hf : ps.find? (fun p => decide (p.1 = k)) with
  | none =>
    rw [List.find?_eq_none] at hf
    exact absurd hpk (hf p hp)
  | some r =>
    have hr : r ∈ ps := List.mem_of_find?_eq_some hf
    have hrk : r.1 = k := by simpa using List.find?_some hf
    simp only [Option.map_some', Option.getD_some]
    rw [← hrk]
    exact hr

theorem not_mem_baseOf (u : Str) : '?' ∉ baseOf u := by
  intro h
  have := List.all_eq_true.1 (baseOf_all u) '?' h
  simp at this

/-- A second pass over a cleaned search URL, for a parser that reads no parameter from a URL
without `?` and reads back parameters of `v` serialised behind the base of `v`. -/
theorem cleanUrl_search_idem (sp : Str → Option Params) (u : Str)
    (hS : includes "/search".toList (baseOf u) = true)
    (hbare : ∀ b ps, '?' ∉ b → sp b = some ps → ps = [])
    (hround : ∀ v ps qs, sp v = some ps → qs ≠ [] → (∀ q ∈ qs, q ∈ ps) →
      sp (baseOf v ++ '?' :: serialize qs) = some qs) :
    cleanUrl sp (cleanUrl sp u) = cleanUrl sp u := by
  have heq := cleanUrl_search_eq sp u hS
  have hbare2 : ((sp (baseOf u)).map whitelist).getD [] = [] := by
    cases hb : sp (baseOf u) with
    | none => rfl
    | some ps' =>
      rw [hbare (baseOf u) ps' (not_mem_baseOf u) hb]
      rfl
  by_cases hW : ((sp u).map whitelist).getD [] = []
  · rw [if_pos hW] at heq
    rw [heq, cleanUrl_search_eq sp (baseOf u) (by rw [baseOf_baseOf]; exact hS), if_pos hbare2,
      baseOf_baseOf]
  · rw [if_neg hW] at heq
    cases hsp : sp u with
    | none => rw [hsp] at hW; exact absurd rfl hW
    | some ps =>
      rw [hsp] at hW heq
      simp only [Option.map_some', Option.getD_some] at hW heq
      have hback := hround u ps (whitelist ps) hsp hW (whitelist_subset ps)
      have hbase : baseOf (baseOf u ++ '?' :: serialize (whitelist ps)) = baseOf u :=
        baseOf_append_query u _
      rw [heq, cleanUrl_search_eq sp _ (by rw [hbase]; exact hS), hback]
      simp only [Option.map_some', Option.getD_some]
      rw [whitelist_whitelist, if_neg hW, hbase]

/-! ### The reference parser reads back what the serializer writes -/

set_option maxRecDepth 100000 in
theorem formEncodeChar_ascii : ∀ n, n < 128 →
    (formEncodeChar (Char.ofNat n) = ['+'] ∧ Char.ofNat n = ' ') ∨
    (formEncodeChar (Char.ofNat n) = [Char.ofNat n] ∧ Char.ofNat n ≠ '+' ∧ Char.ofNat n ≠ '%') ∨
    (formEncodeChar (Char.ofNat n) = ['%', hexDigit (n / 16), hexDigit (n % 16)] ∧
      hexVal (hexDigit (n / 16)) = some (n / 16) ∧ hexVal (hexDigit (n % 16)) = some (n % 16)) := by
  decide

set_option maxRecDepth 100000 in
theorem formEncodeChar_printable : ∀ n, n < 128 →
    (formEncodeChar (Char.ofNat n)).all
      (fun x => decide (33 ≤ x.toNat) && decide (x.toNat ≤ 126) && x != '#') = true := by
  decide

theorem char_ofNat_toNat (c : Char) : Char.ofNat c.toNat = c := Char.ofNat_toNat c

theorem formDecode_encodeChar (c : Char) (hc : c.toNat < 128) (t : Str) :
    formDecode (formEncodeChar c ++ t) = (formDecode t).map (fun r => c :: r) := by
  have hcase := formEncodeChar_ascii c.toNat hc
  rw [char_ofNat_toNat] at hcase
  rcases hcase with ⟨h1, h2⟩ | ⟨h1, h2, h3⟩ | ⟨h1, h2, h3⟩
  · rw [h1, h2]
    simp [formDecode]
  · rw [h1]
    simp only [List.singleton_append]
    rw [formDecode]
    all_goals (intros; first | exact h2 ‹_› | exact h3 ‹_›)
  · rw [h1]
    simp only [List.cons_append, List.nil_append]
    rw [formDecode]
    simp only [h2, h3]
    have hn : 16 * (c.toNat / 16) + c.toNat % 16 = c.toNat := Nat.div_add_mod _ _
    rw [hn, if_pos hc, char_ofNat_toNat]

theorem formDecode_encode (s : Str) (hs : ∀ c ∈ s, c.toNat < 128) (t : Str) :
    formDecode (formEncode s ++ t) = (formDecode t).map (fun r => s ++ r) := by
  induction s with
  | nil =>
    have he : formEncode [] ++ t = t := rfl
    rw [he]
    cases formDecode t <;> rfl
  | cons c s ih =>
    have hc := hs c (List.mem_cons_self _ _)
    have ih2 := ih (fun d hd => hs d (List.mem_cons_of_mem _ hd))
    have he : formEncode (c :: s) = formEncodeChar c ++ formEncode s := by
      simp [formEncode]
    rw [he, List.append_assoc, formDecode_encodeChar c hc, ih2]
    cases formDecode t <;> rfl

theorem formDecode_formEncode (s : Str) (hs : ∀ c ∈ s, c.toNat < 128) :
    formDecode (formEncode s) = some s := by
  have := formDecode_encode s hs []
  rw [List.append_nil] at this
  rw [this]
  simp [formDecode]

theorem map_cons_eq_some (o : Option Str) (x : Char) (r : Str)
    (h : o.map (fun r => x :: r) = some r) : ∃ r2, o = some r2 ∧ r = x :: r2 := by
  cases o with
  | none => cases h
  | some r2 =>
    simp only [Option.map_some', Option.some.injEq] at h
    exact ⟨r2, rfl, h.symm⟩

theorem formDecode_ascii (s : Str) :
    (∀ c ∈ s, c.toNat < 128) → ∀ r, formDecode s = some r → ∀ c ∈ r, c.toNat < 128 := by
  induction s using formDecode.induct with
  | case1 =>
    intro _ r h c hc
    rw [formDecode] at h
    cases h
    cases hc
  | case2 t ih =>
    intro hs r h c hc
    rw [formDecode] at h
    obtain ⟨r2, h2, rfl⟩ := map_cons_eq_some _ _ _ h
    rcases List.mem_cons.1 hc with e | e
    · subst e; decide
    · exact ih (fun d hd => hs d (List.mem_cons_of_mem _ hd)) r2 h2 c e
  | case3 a b t x y hy hx hlt ih =>
    intro hs r h c hc
    rw [formDecode] at h
    simp only [hx, hy, if_pos hlt] at h
    obtain ⟨r2, h2, rfl⟩ := map_cons_eq_some _ _ _ h
    rcases List.mem_cons.1 hc with e | e
    · subst e
      rcases toNat_ofNat_cases (16 * x + y) with h3 | h3 <;> omega
    · exact ih (fun d hd => hs d (List.mem_cons_of_mem _ (List.mem_cons_of_mem _
        (List.mem_cons_of_mem _ hd)))) r2 h2 c e
  | case4 a b t x y hy hx hlt =>
    intro hs r h c hc
    rw [formDecode] at h
    simp only [hx, hy, if_neg hlt] at h
    cases h
  | case5 a b t hno ih =>
    intro hs r h c hc
    rw [formDecode] at h
    have h2 : (formDecode (a :: b :: t)).map (fun r => '%' :: r) = some r := by
      cases hxa : hexVal a with
      | none => simpa [hxa] using h
      | some x =>
        cases hyb : hexVal b with
        | none => simpa [hxa, hyb] using h
        | some y => exact absurd hyb (fun e => hno x y hxa e)
    obtain ⟨r2, h3, rfl⟩ := map_cons_eq_some _ _ _ h2
    rcases List.mem_cons.1 hc with e | e
    · subst e; decide
    · exact ih (fun d hd => hs d (List.mem_cons_of_mem _ hd)) r2 h3 c e
  | case6 c0 t h1 h2 ih =>
    intro hs r h c hc
    rw [formDecode.eq_4 c0 t h1 h2] at h
    obtain ⟨r2, h3, rfl⟩ := map_cons_eq_some _ _ _ h
    rcases List.mem_cons.1 hc with e | e
    · subst e; exact hs c (List.mem_cons_self _ _)
    · exact ih (fun d hd => hs d (List.mem_cons_of_mem _ hd)) r2 h3 c e

theorem mapM_option_map {α β : Type} (f : α → Option β) (g : β → α) (l : List β)
    (h : ∀ x ∈ l, f (g x) = some x) : (l.map g).mapM f = some l := by
  induction l with
  | nil => rfl
  | cons x l ih =>
    rw [List.map_cons, List.mapM_cons, h x (List.mem_cons_self _ _),
      ih (fun y hy => h y (List.mem_cons_of_mem _ hy))]
    rfl

theorem mapM_option_mem {α β : Type} (f : α → Option β) (l : List α) :
    ∀ r, l.mapM f = some r → ∀ y ∈ r, ∃ x ∈ l, f x = some y := by
  induction l with
  | nil =>
    intro r h y hy
    rw [List.mapM_nil] at h
    cases h
    cases hy
  | cons a l ih =>
    intro r h y hy
    rw [List.mapM_cons] at h
    cases hfa : f a with
    | none => rw [hfa] at h; cases h
    | some b =>
      cases hl : l.mapM f with
      | none => rw [hfa, hl] at h; cases h
      | some r2 =>
        rw [hfa, hl] at h
        have hr : r = b :: r2 := by
          have : some (b :: r2) = some r := h
          exact (Option.some.inj this).symm
        subst hr
        rcases List.mem_cons.1 hy with e | e
        · subst e
          exact ⟨a, List.mem_cons_self _ _, hfa⟩
        · obtain ⟨x, hx, hfx⟩ := ih r2 hl y e
          exact ⟨x, List.mem_cons_of_mem _ hx, hfx⟩

theorem splitChar_mem (sep : Char) (q : Str) :
    ∀ s ∈ splitChar sep q, ∀ c ∈ s, c ∈ q := by
  induction q with
  | nil =>
    intro s hs c hc
    simp only [splitChar, List.mem_singleton] at hs
    subst hs
    cases hc
  | cons a t ih =>
    intro s hs c hc
    by_cases ha : a = sep
    · simp only [splitChar, ha, if_true, List.mem_cons] at hs
      rcases hs with e | e
      · subst e; cases hc
      · exact List.mem_cons_of_mem _ (ih s e c hc)
    · simp only [splitChar, ha, if_false] at hs
      cases hsp : splitChar sep t with
      | nil =>
        rw [hsp] at hs
        simp only [List.mem_singleton] at hs
        subst hs
        rcases List.mem_cons.1 hc with e2 | e2
        · subst e2; exact List.mem_cons_self _ _
        · cases e2
      | cons p ps =>
        rw [hsp] at hs ih
        simp only [List.mem_cons] at hs
        rcases hs with e | e
        · subst e
          rcases List.mem_cons.1 hc with e2 | e2
          · subst e2; exact List.mem_cons_self _ _
          · exact List.mem_cons_of_mem _ (ih p (List.mem_cons_self _ _) c e2)
        · exact List.mem_cons_of_mem _ (ih s (List.mem_cons_of_mem _ e) c hc)

theorem rawParams_mem (q : Str) (p : Str × Str) (hp : p ∈ rawParams q) :
    (∀ c ∈ p.1, c ∈ q) ∧ (∀ c ∈ p.2, c ∈ q) := by
  unfold rawParams at hp
  obtain ⟨s, hs, rfl⟩ := List.mem_map.1 hp
  have hs2 := splitChar_mem '&' q s (List.mem_filter.1 hs).1
  unfold rawPair
  constructor
  · intro c hc
    exact hs2 c ((List.takeWhile_prefix _).subset hc)
  · intro c hc
    exact hs2 c ((List.dropWhile_suffix _).subset ((List.drop_suffix _ _).subset hc))

/-- The query parser reads back a serialised list of ASCII names and values. -/
theorem parseQuery_serialize (qs : Params)
    (hq : ∀ q ∈ qs, (∀ c ∈ q.1, c.toNat < 128) ∧ (∀ c ∈ q.2, c.toNat < 128)) :
    parseQuery (serialize qs) = some qs := by
  unfold parseQuery
  rw [rawParams_serialize]
  apply mapM_option_map
  intro x hx
  simp only []
  rw [formDecode_formEncode x.1 (hq x hx).1, formDecode_formEncode x.2 (hq x hx).2]

/-- The names and values the query parser yields from an ASCII query are ASCII. -/
theorem parseQuery_ascii (q : Str) (ps : Params) (hq : ∀ c ∈ q, c.toNat < 128)
    (h : parseQuery q = some ps) :
    ∀ p ∈ ps, (∀ c ∈ p.1, c.toNat < 128) ∧ (∀ c ∈ p.2, c.toNat < 128) := by
  intro p hp
  unfold parseQuery at h
  obtain ⟨x, hx, hfx⟩ := mapM_option_mem _ _ ps h p hp
  obtain ⟨h1, h2⟩ := rawParams_mem q x hx
  cases hk : formDecode x.1 with
  | none => simp [hk] at hfx
  | some k =>
    cases hv : formDecode x.2 with
    | none => simp [hk, hv] at hfx
    | some v =>
      simp only [hk, hv, Option.some.injEq] at hfx
      subst hfx
      exact ⟨formDecode_ascii x.1 (fun c hc => hq c (h1 c hc)) k hk,
        formDecode_ascii x.2 (fun c hc => hq c (h2 c hc)) v hv⟩

theorem takeWhile_append_stop (p : Char → Bool) (a x : Str) (c : Char) (hc : p c = false) :
    (a ++ c :: x).takeWhile p = a.takeWhile p := by
  induction a with
  | nil => simp [List.takeWhile, hc]
  | cons d a ih =>
    by_cases hd : p d = true
    · simp [List.takeWhile, hd, ih]
    · simp [List.takeWhile, hd]

theorem serialize_chars (P : Char → Prop) (hamp : P '&') (heq : P '=') (qs : Params)
    (henc : ∀ q ∈ qs, (∀ c ∈ formEncode q.1, P c) ∧ (∀ c ∈ formEncode q.2, P c)) :
    ∀ c ∈ serialize qs, P c := by
  induction qs with
  | nil => intro c hc; cases hc
  | cons p qs ih =>
    have hp := henc p (List.mem_cons_self _ _)
    have hpair : ∀ c ∈ formEncode p.1 ++ '=' :: formEncode p.2, P c := by
      intro c hc
      rcases List.mem_append.1 hc with h | h
      · exact hp.1 c h
      · rcases List.mem_cons.1 h with h | h
        · subst h; exact heq
        · exact hp.2 c h
    cases qs with
    | nil =>
      have hone : serialize [p] = formEncode p.1 ++ '=' :: formEncode p.2 := by
        simp [serialize, List.intercalate]
      rw [hone]
      exact hpair
    | cons q qs =>
      have hstep : serialize (p :: q :: qs) =
          (formEncode p.1 ++ '=' :: formEncode p.2) ++ '&' :: serialize (q :: qs) := by
        simp [serialize, List.intercalate]
      rw [hstep]
      intro c hc
      rcases List.mem_append.1 hc with h | h
      · exact hpair c h
      · rcases List.mem_cons.1 h with h | h
        · subst h; exact hamp
        · exact ih (fun x hx => henc x (List.mem_cons_of_mem _ hx)) c h

theorem formEncode_chars (s : Str) (hs : ∀ c ∈ s, c.toNat < 128) :
    ∀ c ∈ formEncode s, (33 ≤ c.toNat ∧ c.toNat ≤ 126) ∧ c ≠ '#' := by
  intro c hc
  unfold formEncode at hc
  obtain ⟨d, hd, hcd⟩ := List.mem_flatMap.1 hc
  have h := formEncodeChar_printable d.toNat (hs d hd)
  rw [char_ofNat_toNat] at h
  have h2 := List.all_eq_true.1 h c hcd
  simpa using h2

/-- What an answer of the reference parser tells about the URL. -/
theorem whatwg_some (u : Str) (ps : Params) (h : whatwgSearchParams u = some ps) :
    ∃ rest, (∀ c ∈ u, 33 ≤ c.toNat ∧ c.toNat ≤ 126) ∧
      (u = "https://".toList ++ rest ∨ u = "http://".toList ++ rest) ∧
      hostOk false (rest.takeWhile (fun c => c != '/' && c != '?' && c != '#')) = true ∧
      parseQuery (((rest.takeWhile (fun c => c != '#')).dropWhile (fun c => c != '?')).drop 1) =
        some ps := by
  unfold whatwgSearchParams at h
  by_cases hall : u.all (fun c => decide (33 ≤ c.toNat) && decide (c.toNat ≤ 126)) = true
  · rw [if_pos hall] at h
    have hall2 : ∀ c ∈ u, 33 ≤ c.toNat ∧ c.toNat ≤ 126 := by
      intro c hc
      simpa using List.all_eq_true.1 hall c hc
    cases hd : (dropLit "https://".toList u).orElse (fun _ => dropLit "http://".toList u) with
    | none => rw [hd] at h; cases h
    | some rest =>
      rw [hd] at h
      simp only at h
      by_cases hh : hostOk false (rest.takeWhile (fun c => c != '/' && c != '?' && c != '#')) = true
      · rw [if_pos hh] at h
        refine ⟨rest, hall2, ?_, hh, h⟩
        cases h1 : dropLit "https://".toList u with
        | some r =>
          rw [h1] at hd
          simp only [Option.orElse, Option.some.injEq] at hd
          subst hd
          exact Or.inl (dropLit_eq_some.1 h1)
        | none =>
          rw [h1] at hd
          simp only [Option.orElse] at hd
          exact Or.inr (dropLit_eq_some.1 hd)
      · rw [if_neg hh] at h; cases h
  · rw [if_neg hall] at h; cases h

/-- The answer of the reference parser on a URL given by its parts. -/
theorem whatwg_of_parts (u rest : Str) (hall : ∀ c ∈ u, 33 ≤ c.toNat ∧ c.toNat ≤ 126)
    (hu : u = "https://".toList ++ rest ∨ u = "http://".toList ++ rest)
    (hh : hostOk false (rest.takeWhile (fun c => c != '/' && c != '?' && c != '#')) = true) :
    whatwgSearchParams u =
      parseQuery (((rest.takeWhile (fun c => c != '#')).dropWhile (fun c => c != '?')).drop 1) := by
  have hall2 : u.all (fun c => decide (33 ≤ c.toNat) && decide (c.toNat ≤ 126)) = true := by
    rw [List.all_eq_true]
    intro c hc
    simpa using hall c hc
  have hd : (dropLit "https://".toList u).orElse (fun _ => dropLit "http://".toList u) =
      some rest := by
    rcases hu with e | e
    · rw [e, dropLit_append]
      rfl
    · have hnone : dropLit "https://".toList ("http://".toList ++ rest) = none := rfl
      rw [e, hnone, dropLit_append]
      rfl
  unfold whatwgSearchParams
  rw [if_pos hall2, hd]
  simp only
  rw [if_pos hh]

/-- The reference parser reads no parameter from a URL without `?`. -/
theorem whatwg_bare (b : Str) (ps : Params) (hb : '?' ∉ b)
    (h : whatwgSearchParams b = some ps) : ps = [] := by
  obtain ⟨rest, -, hu, -, hparse⟩ := whatwg_some b ps h
  have hrest : ∀ c ∈ rest, c ∈ b := by
    intro c hc
    rcases hu with e | e <;> rw [e] <;> exact List.mem_append_right _ hc
  have hdw : (rest.takeWhile (fun c => c != '#')).dropWhile (fun c => c != '?') = [] := by
    rw [List.dropWhile_eq_nil_iff]
    intro c hc
    have hcb := hrest c ((List.takeWhile_prefix _).subset hc)
    have : c ≠ '?' := fun e => hb (e ▸ hcb)
    simpa using this
  rw [hdw] at hparse
  have hnil : parseQuery (List.drop 1 []) = some [] := rfl
  rw [hnil] at hparse
  exact (Option.some.inj hparse).symm

/-- The reference parser reads back parameters of `v` serialised behind the base of `v`. -/
theorem whatwg_round (v : Str) (ps qs : Params) (h : whatwgSearchParams v = some ps)
    (hne : qs ≠ []) (hsub : ∀ q ∈ qs, q ∈ ps) :
    whatwgSearchParams (baseOf v ++ '?' :: serialize qs) = some qs := by
  obtain ⟨rest, hall, hu, hhost, hparse⟩ := whatwg_some v ps h
  have hrestv : ∀ c ∈ rest, c ∈ v := by
    intro c hc
    rcases hu with e | e <;> rw [e] <;> exact List.mem_append_right _ hc
  have hps : ps ≠ [] := by
    intro e
    cases qs with
    | nil => exact hne rfl
    | cons q qs =>
      have := hsub q (List.mem_cons_self _ _)
      rw [e] at this
      cases this
  -- the query of `v` starts at a `?` that no `#` precedes
  cases hdw : (rest.takeWhile (fun c => c != '#')).dropWhile (fun c => c != '?') with
  | nil =>
    rw [hdw] at hparse
    have hnil : parseQuery (List.drop 1 []) = some [] := rfl
    rw [hnil] at hparse
    exact absurd (Option.some.inj hparse).symm hps
  | cons d q2 =>
    have hd : d = '?' := by
      have := List.head_dropWhile_not (fun c => c != '?') (rest.takeWhile (fun c => c != '#'))
        (by rw [hdw]; simp)
      simp only [hdw, List.head_cons] at this
      simpa using this
    subst hd
    have hT : rest.takeWhile (fun c => c != '#') =
        (rest.takeWhile (fun c => c != '#')).takeWhile (fun c => c != '?') ++ '?' :: q2 := by
      rw [← hdw, List.takeWhile_append_dropWhile]
    have hrest : rest = (rest.takeWhile (fun c => c != '#')).takeWhile (fun c => c != '?')
        ++ '?' :: (q2 ++ rest.dropWhile (fun c => c != '#')) := by
      conv => lhs; rw [← List.takeWhile_append_dropWhile (fun c => c != '#') rest, hT]
      simp
    generalize hrb : (rest.takeWhile (fun c => c != '#')).takeWhile (fun c => c != '?') = rbase
      at hT hrest
    have hrbq : rbase.all (fun c => c != '?') = true := by
      rw [← hrb, List.all_eq_true]
      intro x hx
      exact @List.mem_takeWhile_imp _ (fun c => c != '?') _ x hx
    have hrbh : ∀ c ∈ rbase, c ≠ '#' := by
      intro c hc
      rw [← hrb] at hc
      have h2 : c ∈ rest.takeWhile (fun c => c != '#') := (List.takeWhile_prefix _).subset hc
      simpa using @List.mem_takeWhile_imp _ (fun c => c != '#') _ c h2
    have hrbv : ∀ c ∈ rbase, c ∈ v := by
      intro c hc
      apply hrestv
      rw [hrest]
      exact List.mem_append_left _ hc
    -- the ASCII content of the parameters
    have hq128 : ∀ c ∈ ((rest.takeWhile (fun c => c != '#')).dropWhile
        (fun c => c != '?')).drop 1, c.toNat < 128 := by
      intro c hc
      have h1 : c ∈ rest := (List.takeWhile_prefix _).subset
        ((List.dropWhile_suffix _).subset ((List.drop_suffix _ _).subset hc))
      have := hall c (hrestv c h1)
      omega
    rw [hdw] at hq128 hparse
    have hascii := parseQuery_ascii _ ps hq128 hparse
    have hqs : ∀ q ∈ qs, (∀ c ∈ q.1, c.toNat < 128) ∧ (∀ c ∈ q.2, c.toNat < 128) :=
      fun q hq => hascii q (hsub q hq)
    have hser : ∀ c ∈ serialize qs, (33 ≤ c.toNat ∧ c.toNat ≤ 126) ∧ c ≠ '#' :=
      serialize_chars (fun c => (33 ≤ c.toNat ∧ c.toNat ≤ 126) ∧ c ≠ '#')
        (by decide) (by decide) qs
        (fun q hq => ⟨formEncode_chars q.1 (hqs q hq).1, formEncode_chars q.2 (hqs q hq).2⟩)
    -- the base of `v` and the new URL
    have hbase : ∀ scheme : Str, scheme.all (fun c => c != '?') = true → v = scheme ++ rest →
        baseOf v = scheme ++ rbase := by
      intro scheme hs hv
      have hv2 : v = (scheme ++ rbase) ++ '?' :: (q2 ++ rest.dropWhile (fun c => c != '#')) := by
        rw [hv, List.append_assoc]
        congr 1
      unfold baseOf
      rw [hv2]
      apply takeWhile_run
      · rw [List.all_append, hs, hrbq]
        rfl
      · simp
    have hnew : ∃ scheme : Str, baseOf v = scheme ++ rbase ∧
        (scheme = "https://".toList ∨ scheme = "http://".toList) ∧ v = scheme ++ rest := by
      rcases hu with e | e
      · exact ⟨_, hbase _ (by decide) e, Or.inl rfl, e⟩
      · exact ⟨_, hbase _ (by decide) e, Or.inr rfl, e⟩
    obtain ⟨scheme, hbv, hsch, hv⟩ := hnew
    have hallnew : ∀ c ∈ baseOf v ++ '?' :: serialize qs, 33 ≤ c.toNat ∧ c.toNat ≤ 126 := by
      intro c hc
      rcases List.mem_append.1 hc with h1 | h1
      · exact hall c ((List.takeWhile_prefix _).subset h1)
      · rcases List.mem_cons.1 h1 with h2 | h2
        · subst h2; decide
        · exact (hser c h2).1
    have hunew : baseOf v ++ '?' :: serialize qs = "https://".toList ++ (rbase ++ '?' :: serialize qs)
        ∨ baseOf v ++ '?' :: serialize qs = "http://".toList ++ (rbase ++ '?' :: serialize qs) := by
      rcases hsch with e | e
      · left; rw [hbv, e, List.append_assoc]
      · right; rw [hbv, e, List.append_assoc]
    have hhostnew : hostOk false ((rbase ++ '?' :: serialize qs).takeWhile
        (fun c => c != '/' && c != '?' && c != '#')) = true := by
      rw [takeWhile_append_stop _ rbase _ '?' (by decide)]
      rw [hrest, takeWhile_append_stop _ rbase _ '?' (by decide)] at hhost
      exact hhost
    rw [whatwg_of_parts _ _ hallnew hunew hhostnew]
    have htw : (rbase ++ '?' :: serialize qs).takeWhile (fun c => c != '#') =
        rbase ++ '?' :: serialize qs := by
      rw [List.takeWhile_eq_self_iff]
      intro c hc
      rcases List.mem_append.1 hc with h1 | h1
      · simpa using hrbh c h1
      · rcases List.mem_cons.1 h1 with h2 | h2
        · subst h2; decide
        · simpa using (hser c h2).2
    rw [htw, dropWhile_run _ rbase _ hrbq (by simp)]
    exact parseQuery_serialize qs hqs

theorem cleanUrl_shop_idem (sp : Str → Option Params) (u : Str) (m : List Str × Str)
    (hS : includes "/search".toList (baseOf u) = false)
    (hM : shopProductRe.search (baseOf u) = some m) :
    cleanUrl sp (cleanUrl sp u) = cleanUrl sp u := by
  obtain ⟨s, x, hx, hm1⟩ := search_some_at shopProductRe shopProductAt
    (fun x => [x.1, x.2.1, x.2.2]) shopProductRe_head (baseOf u) m hM
  obtain ⟨⟨ha0, ha⟩, hb0, hb⟩ := shopProductAt_parts s x hx
  have hout : cleanUrl sp u = "https://shopee.vn/product/".toList ++ x.2.1 ++ '/' :: x.2.2 := by
    rw [cleanUrl_of_shop sp u m hS hM]
    simp [group, hm1]
  rw [hout]
  exact cleanUrl_productUrl sp x.2.1 x.2.2 ha0 ha hb0 hb

theorem cleanUrl_standard_idem (sp : Str → Option Params) (u : Str)
    (hS : includes "/search".toList (baseOf u) = false)
    (hM : shopProductRe.search (baseOf u) = none)
    (hStd : (includes "/m/".toList (baseOf u) || includes "/product/".toList (baseOf u)
      || splitCount '/' (baseOf u) = 4) = true) :
    cleanUrl sp (cleanUrl sp u) = cleanUrl sp u := by
  rw [cleanUrl_of_standard sp u hS hM hStd]
  have hb := baseOf_baseOf u
  rw [cleanUrl_of_standard sp (baseOf u) (by rw [hb]; exact hS) (by rw [hb]; exact hM)
    (by rw [hb]; exact hStd)]
  exact hb

theorem cleanUrl_fallback_idem (sp : Str → Option Params) (u : Str)
    (hS : includes "/search".toList (baseOf u) = false)
    (hM : shopProductRe.search (baseOf u) = none)
    (hStd : (includes "/m/".toList (baseOf u) || includes "/product/".toList (baseOf u)
      || splitCount '/' (baseOf u) = 4) = false) :
    cleanUrl sp (stripTracking u) = stripTracking u ↔
      ¬ (isFallback (stripTracking u) = true ∧ dangling (stripTracking u) = true) := by
  obtain ⟨z, hz⟩ := stripTracking_isPrefix u
  have hbp : baseOf (stripTracking u) <+: baseOf u := by
    have := baseOf_mono (stripTracking u) z
    rwa [hz] at this
  have hS2 := includes_false_of_prefix _ _ _ hbp hS
  have hM2 := shopSearch_none_of_prefix _ _ hbp hM
  cases hStd2 : (includes "/m/".toList (baseOf (stripTracking u))
      || includes "/product/".toList (baseOf (stripTracking u))
      || splitCount '/' (baseOf (stripTracking u)) = 4) with
  | true =>
    rw [cleanUrl_of_standard sp _ hS2 hM2 hStd2, isFallback_false_of_standard _ hStd2]
    have hself : baseOf (stripTracking u) = stripTracking u := by
      by_cases hq : '?' ∈ stripTracking u
      · have hsame := baseOf_append_of_mem (stripTracking u) z hq
        rw [hz] at hsame
        rw [← hsame, hStd] at hStd2
        cases hStd2
      · exact baseOf_eq_self _ hq
    simp [hself]
  | false =>
    rw [cleanUrl_of_fallback sp _ hS2 hM2 hStd2, isFallback_eq_true _ hS2 hM2 hStd2,
      stripTracking_of_no_marker _ (fun p hp => stripTracking_no_marker u p hp)]
    cases hd : dangling (stripTracking u) with
    | true =>
      simp only [if_true, and_self, not_true_eq_false, iff_false]
      exact dropLast_ne_of_dangling _ hd
    | false => simp

/-- C1 (amended). A second pass of the cleaning step changes nothing, except exactly for
the URLs that reach the fallback branch and whose cleaned form reaches the fallback branch
again and still ends in `?` or `&` (one trailing character is trimmed per pass).  The
platform's parser enters through two of its laws: it reads no parameter from a URL without
`?`, and when it reads the parameters `ps` from `v`, it reads any non-empty list of
parameters taken from `ps`, serialised behind the base of `v`, back as that list. -/
theorem cleanUrl_idempotent (sp : Str → Option Params) (u : Str)
    (hbare : ∀ b ps, '?' ∉ b → sp b = some ps → ps = [])
    (hround : ∀ v ps qs, sp v = some ps → qs ≠ [] → (∀ q ∈ qs, q ∈ ps) →
      sp (baseOf v ++ '?' :: serialize qs) = some qs) :
    cleanUrl sp (cleanUrl sp u) = cleanUrl sp u ↔
      ¬ (isFallback u = true ∧ isFallback (cleanUrl sp u) = true ∧
        dangling (cleanUrl sp u) = true) := by
  cases hS : includes "/search".toList (baseOf u) with
  | true =>
    have h1 := cleanUrl_search_idem sp u hS hbare hround
    simp [h1, isFallback_false_of_search u hS]
  | false =>
    cases hM : shopProductRe.search (baseOf u) with
    | some m =>
      have h1 := cleanUrl_shop_idem sp u m hS hM
      simp [h1, isFallback_false_of_shop u m hM]
    | none =>
      cases hStd : (includes "/m/".toList (baseOf u) || includes "/product/".toList (baseOf u)
          || splitCount '/' (baseOf u) = 4) with
      | true =>
        have h1 := cleanUrl_standard_idem sp u hS hM hStd
        simp [h1, isFallback_false_of_standard u hStd]
      | false =>
        rw [cleanUrl_of_fallback sp u hS hM hStd, isFallback_eq_true u hS hM hStd]
        simpa using cleanUrl_fallback_idem sp u hS hM hStd

theorem cleanUrl_idempotent_witness :
    cleanUrl whatwgSearchParams (cleanUrl whatwgSearchParams
        "https://shopee.vn/search?shop=1&x=2&keyword=a%20b".toList) =
      cleanUrl whatwgSearchParams "https://shopee.vn/search?shop=1&x=2&keyword=a%20b".toList :=
  (cleanUrl_idempotent whatwgSearchParams
    "https://shopee.vn/search?shop=1&x=2&keyword=a%20b".toList whatwg_bare whatwg_round).2
    (by decide)

/-- The cleaned form of the search URL of the witness, and its second pass. -/
theorem cleanUrl_idempotent_example :
    cleanUrl whatwgSearchParams "https://shopee.vn/search?shop=1&x=2&keyword=a%20b".toList =
        "https://shopee.vn/search?keyword=a+b&shop=1".toList ∧
      cleanUrl whatwgSearchParams "https://shopee.vn/search?keyword=a+b&shop=1".toList =
        "https://shopee.vn/search?keyword=a+b&shop=1".toList := by
  decide

/-- C1, as stated, fails: the fallback branch cuts `https://shopee.vn/a/b/c?&utm_source=fb`
at the marker and trims one character, which leaves `https://shopee.vn/a/b/c?`; a second
pass trims the `?` as well. -/
theorem cleanUrl_idempotent_counterexample :
    cleanUrl whatwgSearchParams "https://shopee.vn/a/b/c?&utm_source=fb".toList =
        "https://shopee.vn/a/b/c?".toList ∧
      cleanUrl whatwgSearchParams (cleanUrl whatwgSearchParams
        "https://shopee.vn/a/b/c?&utm_source=fb".toList) = "https://shopee.vn/a/b/c".toList ∧
      cleanUrl whatwgSearchParams (cleanUrl whatwgSearchParams
        "https://shopee.vn/a/b/c?&utm_source=fb".toList) ≠
        cleanUrl whatwgSearchParams "https://shopee.vn/a/b/c?&utm_source=fb".toList := by
  decide

/-! ## The scan of the text -/

theorem dropLitI_length (l s r : Str) (h : dropLitI l s = some r) :
    s.length = l.length + r.length := by
  induction l generalizing s with
  | nil =>
    simp only [dropLitI, Option.some.injEq] at h
    subst h
    simp
  | cons a l ih =>
    cases s with
    | nil => simp [dropLitI] at h
    | cons b s =>
      by_cases hab : foldCase a = foldCase b
      · simp only [dropLitI, hab, if_true] at h
        have := ih s h
        simp only [List.length_cons]
        omega
      · simp [dropLitI, hab] at h

theorem greedy_length (p : Char → Bool) (s x : Str) (hx : x ∈ greedy p s) :
    x.length ≤ s.length := by
  induction s with
  | nil =>
    simp only [greedy, List.mem_singleton] at hx
    subst hx
    exact Nat.le_refl _
  | cons c t ih =>
    unfold greedy at hx
    by_cases hc : p c = true
    · simp only [hc, if_true, List.mem_append, List.mem_singleton] at hx
      rcases hx with h | h
      · exact Nat.le_succ_of_le (ih h)
      · subst h; exact Nat.le_refl _
    · simp only [hc, Bool.false_eq_true, if_false, List.mem_singleton] at hx
      subst hx
      exact Nat.le_refl _

theorem run_length (r : Re) (s : Str) (m : List Str × Str) (hm : m ∈ r.run s) :
    m.2.length + r.minLen ≤ s.length := by
  induction r generalizing s m with
  | lit l =>
    simp only [Re.run] at hm
    cases hd : dropLit l s with
    | none => simp [hd] at hm
    | some x =>
      simp only [hd, List.mem_singleton] at hm
      subst hm
      rw [dropLit_eq_some] at hd
      subst hd
      simp [Re.minLen]
      omega
  | litI l =>
    simp only [Re.run] at hm
    cases hd : dropLitI l s with
    | none => simp [hd] at hm
    | some x =>
      simp only [hd, List.mem_singleton] at hm
      subst hm
      have := dropLitI_length l s x hd
      simp only [Re.minLen]
      omega
  | plus p =>
    cases s with
    | nil => simp [Re.run] at hm
    | cons c t =>
      simp only [Re.run] at hm
      by_cases hc : p c = true
      · simp only [hc, if_true, List.mem_map] at hm
        obtain ⟨x, hx, rfl⟩ := hm
        have := greedy_length p t x hx
        simp only [Re.minLen, List.length_cons]
        omega
      · simp [hc] at hm
  | star p =>
    simp only [Re.run, List.mem_map] at hm
    obtain ⟨x, hx, rfl⟩ := hm
    have := greedy_length p s x hx
    simp only [Re.minLen]
    omega
  | opt r ih =>
    simp only [Re.run, List.mem_append, List.mem_singleton] at hm
    rcases hm with h | h
    · have := ih s m h
      simp only [Re.minLen]
      omega
    · subst h
      simp [Re.minLen]
  | alt a b iha ihb =>
    simp only [Re.run, List.mem_append] at hm
    rcases hm with h | h
    · have := iha s m h
      simp only [Re.minLen]
      omega
    · have := ihb s m h
      simp only [Re.minLen]
      omega
  | seq a b iha ihb =>
    simp only [Re.run, List.mem_flatMap, List.mem_map] at hm
    obtain ⟨m1, h1, n, hn, rfl⟩ := hm
    have ha := iha s m1 h1
    have hb := ihb m1.2 n hn
    simp only [Re.minLen]
    omega
  | grp r ih =>
    simp only [Re.run, List.mem_map] at hm
    obtain ⟨m1, h1, rfl⟩ := hm
    have := ih s m1 h1
    simp only [Re.minLen]
    omega
  | eos =>
    simp only [Re.run] at hm
    by_cases hs : s = []
    · simp only [hs, if_true, List.mem_singleton] at hm
      subst hm
      simp [Re.minLen, hs]
    · simp [hs] at hm

theorem scan_infix (r : Re) (s : Str) : ∀ k x, x ∈ r.scan k s → x <:+: s := by
  induction s with
  | nil =>
    intro k x hx
    cases hrun : r.run [] with
    | nil => simp [Re.scan, hrun] at hx
    | cons y ys =>
      simp only [Re.scan, hrun, List.mem_singleton] at hx
      subst hx
      exact List.infix_refl _
  | cons c t ih =>
    intro k x hx
    cases k with
    | succ k =>
      simp only [Re.scan] at hx
      exact (ih k x hx).trans (List.suffix_cons c t).isInfix
    | zero =>
      cases hrun : r.run (c :: t) with
      | nil =>
        simp only [Re.scan, hrun] at hx
        exact (ih 0 x hx).trans (List.suffix_cons c t).isInfix
      | cons m ms =>
        simp only [Re.scan, hrun, List.mem_cons] at hx
        rcases hx with h | h
        · subst h
          exact (List.take_prefix _ _).isInfix
        · exact (ih _ x h).trans (List.suffix_cons c t).isInfix

theorem scan_ne_nil (r : Re) (hmin : 0 < r.minLen) (s : Str) :
    ∀ k x, x ∈ r.scan k s → x ≠ [] := by
  induction s with
  | nil =>
    intro k x hx
    cases hrun : r.run [] with
    | nil => simp [Re.scan, hrun] at hx
    | cons y ys =>
      have := run_length r [] y (by rw [hrun]; exact List.mem_cons_self _ _)
      simp at this
      omega
  | cons c t ih =>
    intro k x hx
    cases k with
    | succ k =>
      simp only [Re.scan] at hx
      exact ih k x hx
    | zero =>
      cases hrun : r.run (c :: t) with
      | nil =>
        simp only [Re.scan, hrun] at hx
        exact ih 0 x hx
      | cons m ms =>
        simp only [Re.scan, hrun, List.mem_cons] at hx
        rcases hx with h | h
        · have hl := run_length r (c :: t) m (by rw [hrun]; exact List.mem_cons_self _ _)
          intro he
          rw [he] at h
          have h2 := congrArg List.length h
          simp only [List.length_nil, List.length_take, List.length_cons] at h2 hl
          omega
        · exact ih _ x h

theorem weave_cons_head (c : Char) (g : Str) (gs ms : List Str)
    (hlen : (g :: gs).length = ms.length + 1) :
    weave ((c :: g) :: gs) ms = c :: weave (g :: gs) ms := by
  cases ms with
  | cons m ms => simp [weave]
  | nil =>
    cases gs with
    | nil => simp [weave]
    | cons g1 gs => simp at hlen

/-- The matches of a scan stand in the text from left to right, in the order of the list:
the text is made of gaps and the matches in turn. -/
theorem scan_weave (r : Re) (hmin : 0 < r.minLen) (s : Str) :
    ∀ k, k ≤ s.length →
      ∃ gaps, gaps.length = (r.scan k s).length + 1 ∧ weave gaps (r.scan k s) = s.drop k := by
  induction s with
  | nil =>
    intro k hk
    have hk0 : k = 0 := by simpa using hk
    subst hk0
    cases hrun : r.run [] with
    | nil => exact ⟨[[]], by simp [Re.scan, hrun], by simp [Re.scan, hrun, weave]⟩
    | cons y ys =>
      have := run_length r [] y (by rw [hrun]; exact List.mem_cons_self _ _)
      simp at this
      omega
  | cons c t ih =>
    intro k hk
    cases k with
    | succ k =>
      obtain ⟨gaps, h1, h2⟩ := ih k (by simpa using hk)
      exact ⟨gaps, by simpa [Re.scan] using h1, by simpa [Re.scan] using h2⟩
    | zero =>
      cases hrun : r.run (c :: t) with
      | nil =>
        obtain ⟨gaps, h1, h2⟩ := ih 0 (Nat.zero_le _)
        cases gaps with
        | nil => simp at h1
        | cons g gs =>
          refine ⟨(c :: g) :: gs, by simpa [Re.scan, hrun] using h1, ?_⟩
          simp only [Re.scan, hrun, List.drop_zero]
          rw [weave_cons_head c g gs _ h1, h2, List.drop_zero]
      | cons m ms =>
        have hl := run_length r (c :: t) m (by rw [hrun]; exact List.mem_cons_self _ _)
        simp only [List.length_cons] at hl
        have hpos : 0 < t.length + 1 - m.2.length := by omega
        obtain ⟨gaps, h1, h2⟩ := ih (t.length + 1 - m.2.length - 1) (by omega)
        refine ⟨[] :: gaps, by simp [Re.scan, hrun, h1], ?_⟩
        simp only [Re.scan, hrun, List.drop_zero, weave, List.length_cons, List.nil_append]
        rw [h2]
        have hdrop : List.drop (t.length + 1 - m.2.length - 1) t =
            List.drop (t.length + 1 - m.2.length) (c :: t) := by
          obtain ⟨n, hn⟩ : ∃ n, t.length + 1 - m.2.length = n + 1 := ⟨_, (Nat.succ_pred_eq_of_pos hpos).symm⟩
          rw [hn]
          rfl
        rw [hdrop]
        exact List.take_append_drop _ _

/-! ## Deduplication -/

theorem mem_foldl_setAdd (xs acc : List Str) (x : Str) :
    x ∈ xs.foldl setAdd acc ↔ x ∈ acc ∨ x ∈ xs := by
  induction xs generalizing acc with
  | nil => simp
  | cons y ys ih =>
    rw [List.foldl_cons, ih]
    unfold setAdd
    by_cases hy : y ∈ acc
    · simp only [hy, if_true, List.mem_cons]
      constructor
      · rintro (h | h)
        · exact Or.inl h
        · exact Or.inr (Or.inr h)
      · rintro (h | h | h)
        · exact Or.inl h
        · exact Or.inl (h ▸ hy)
        · exact Or.inr h
    · simp only [hy, if_false, List.mem_append, List.mem_singleton, List.mem_cons]
      tauto

theorem nodup_foldl_setAdd (xs acc : List Str) (h : acc.Nodup) :
    (xs.foldl setAdd acc).Nodup := by
  induction xs generalizing acc with
  | nil => exact h
  | cons y ys ih =>
    rw [List.foldl_cons]
    apply ih
    unfold setAdd
    by_cases hy : y ∈ acc
    · simp only [hy, if_true]; exact h
    · simp only [hy, if_false]
      rw [List.nodup_append]
      refine ⟨h, List.nodup_singleton y, ?_⟩
      intro a ha hb
      rw [List.mem_singleton] at hb
      exact hy (hb ▸ ha)

theorem mem_uniq (xs : List Str) (x : Str) : x ∈ uniq xs ↔ x ∈ xs := by
  unfold uniq
  rw [mem_foldl_setAdd]
  simp

theorem nodup_uniq (xs : List Str) : (uniq xs).Nodup :=
  nodup_foldl_setAdd xs [] List.nodup_nil

theorem uniq_append_singleton (xs : List Str) (x : Str) :
    uniq (xs ++ [x]) = setAdd (uniq xs) x := by
  unfold uniq
  rw [List.foldl_append]
  rfl

theorem firstIndex_append_of_mem (a : Str) (l1 l2 : List Str) (h : a ∈ l1) :
    firstIndex a (l1 ++ l2) = firstIndex a l1 := by
  induction l1 with
  | nil => cases h
  | cons y ys ih =>
    by_cases hy : y = a
    · simp [firstIndex, hy]
    · have h2 : a ∈ ys := by
        rcases List.mem_cons.1 h with e | e
        · exact absurd e.symm hy
        · exact e
      simp [firstIndex, hy, ih h2]

theorem firstIndex_append_of_not_mem (a : Str) (l1 l2 : List Str) (h : a ∉ l1) :
    firstIndex a (l1 ++ l2) = l1.length + firstIndex a l2 := by
  induction l1 with
  | nil => simp
  | cons y ys ih =>
    have hy : ¬ y = a := fun e => h (e ▸ List.mem_cons_self _ _)
    have h2 : a ∉ ys := fun e => h (List.mem_cons_of_mem _ e)
    simp [firstIndex, hy, ih h2]
    omega

theorem firstIndex_lt_length (a : Str) (l : List Str) (h : a ∈ l) : firstIndex a l < l.length := by
  induction l with
  | nil => cases h
  | cons y ys ih =>
    by_cases hy : y = a
    · simp [firstIndex, hy]
    · have h2 : a ∈ ys := by
        rcases List.mem_cons.1 h with e | e
        · exact absurd e.symm hy
        · exact e
      simp [firstIndex, hy, ih h2]

theorem uniq_order (xs : List Str) : ∀ a ∈ xs, ∀ b ∈ xs,
    (firstIndex a (uniq xs) < firstIndex b (uniq xs) ↔ firstIndex a xs < firstIndex b xs) := by
  induction xs using List.reverseRecOn with
  | nil => intro a ha; cases ha
  | append_singleton xs x ih =>
    intro a ha b hb
    rw [uniq_append_singleton]
    unfold setAdd
    by_cases hx : x ∈ uniq xs
    · have hx2 : x ∈ xs := (mem_uniq xs x).1 hx
      have ha2 : a ∈ xs := by
        rcases List.mem_append.1 ha with h | h
        · exact h
        · rw [List.mem_singleton] at h; exact h ▸ hx2
      have hb2 : b ∈ xs := by
        rcases List.mem_append.1 hb with h | h
        · exact h
        · rw [List.mem_singleton] at h; exact h ▸ hx2
      simp only [hx, if_true]
      rw [firstIndex_append_of_mem _ _ _ ha2, firstIndex_append_of_mem _ _ _ hb2]
      exact ih a ha2 b hb2
    · have hx2 : x ∉ xs := fun h => hx ((mem_uniq xs x).2 h)
      simp only [hx, if_false]
      by_cases ha2 : a ∈ xs
      · have ha3 : a ∈ uniq xs := (mem_uniq xs a).2 ha2
        rw [firstIndex_append_of_mem _ _ _ ha2, firstIndex_append_of_mem _ _ _ ha3]
        by_cases hb2 : b ∈ xs
        · have hb3 : b ∈ uniq xs := (mem_uniq xs b).2 hb2
          rw [firstIndex_append_of_mem _ _ _ hb2, firstIndex_append_of_mem _ _ _ hb3]
          exact ih a ha2 b hb2
        · have hb3 : b ∉ uniq xs := fun h => hb2 ((mem_uniq xs b).1 h)
          rw [firstIndex_append_of_not_mem _ _ _ hb2, firstIndex_append_of_not_mem _ _ _ hb3]
          have h1 := firstIndex_lt_length _ _ ha2
          have h2 := firstIndex_lt_length _ _ ha3
          constructor
          · intro _; omega
          · intro _; omega
      · have ha3 : a ∉ uniq xs := fun h => ha2 ((mem_uniq xs a).1 h)
        have hax : a = x := by
          rcases List.mem_append.1 ha with h | h
          · exact absurd h ha2
          · exact List.mem_singleton.1 h
        rw [firstIndex_append_of_not_mem _ _ _ ha2, firstIndex_append_of_not_mem _ _ _ ha3]
        by_cases hb2 : b ∈ xs
        · have hb3 : b ∈ uniq xs := (mem_uniq xs b).2 hb2
          rw [firstIndex_append_of_mem _ _ _ hb2, firstIndex_append_of_mem _ _ _ hb3]
          have h1 := firstIndex_lt_length _ _ hb2
          have h2 := firstIndex_lt_length _ _ hb3
          constructor
          · intro _; omega
          · intro _; omega
        · have hb3 : b ∉ uniq xs := fun h => hb2 ((mem_uniq xs b).1 h)
          have hbx : b = x := by
            rcases List.mem_append.1 hb with h | h
            · exact absurd h hb2
            · exact List.mem_singleton.1 h
          rw [firstIndex_append_of_not_mem _ _ _ hb2, firstIndex_append_of_not_mem _ _ _ hb3]
          subst hax
          subst hbx
          constructor
          · intro h; omega
          · intro h; omega

theorem eq_singleton_of_nodup (l : List Str) (c : Str) (hnd : l.Nodup) (hne : l ≠ [])
    (hall : ∀ x ∈ l, x = c) : l = [c] := by
  cases l with
  | nil => exact absurd rfl hne
  | cons a t =>
    have ha : a = c := hall a (List.mem_cons_self _ _)
    subst ha
    cases t with
    | nil => rfl
    | cons b t =>
      have hb : b = a := hall b (List.mem_cons_of_mem _ (List.mem_cons_self _ _))
      subst hb
      simp at hnd

/-! ## Splitting and joining -/

theorem splitOn_skip (sep : Str) (s : Str) :
    ∀ k, k ≤ s.length → splitOn sep k s = splitOn sep 0 (s.drop k) := by
  induction s with
  | nil =>
    intro k hk
    have : k = 0 := by simpa using hk
    subst this
    rfl
  | cons c t ih =>
    intro k hk
    cases k with
    | zero => rfl
    | succ k =>
      simp only [splitOn, List.drop_succ_cons]
      exact ih k (by simpa using hk)

theorem intercalate_cons_cons (sep x y : Str) (ys : List Str) :
    sep.intercalate (x :: y :: ys) = x ++ sep ++ sep.intercalate (y :: ys) := by
  simp [List.intercalate]

theorem intercalate_singleton (sep x : Str) : sep.intercalate [x] = x := by
  simp [List.intercalate]

theorem intercalate_cons_head (sep p : Str) (c : Char) (ps : List Str) :
    sep.intercalate ((c :: p) :: ps) = c :: sep.intercalate (p :: ps) := by
  cases ps with
  | nil => simp [List.intercalate]
  | cons q qs => simp [List.intercalate]

theorem includes_nil_right (sep : Str) (h : sep ≠ []) : includes sep [] = false := by
  cases sep with
  | nil => exact absurd rfl h
  | cons a l => rfl

/-- The pieces of `splitOn`: joined by the separator they give the string back, and none of
them contains the separator. -/
theorem splitOn_spec (sep : Str) (hsep : sep ≠ []) : ∀ n (s : Str), s.length ≤ n →
    ∃ p ps, splitOn sep 0 s = p :: ps ∧ p <+: s ∧ sep.intercalate (p :: ps) = s ∧
      ∀ q ∈ p :: ps, includes sep q = false := by
  intro n
  induction n with
  | zero =>
    intro s hs
    have : s = [] := List.length_eq_zero.1 (Nat.le_zero.1 hs)
    subst this
    refine ⟨[], [], rfl, List.prefix_refl _, rfl, ?_⟩
    intro q hq
    rw [List.mem_singleton] at hq
    subst hq
    exact includes_nil_right sep hsep
  | succ n ih =>
    intro s hs
    cases s with
    | nil =>
      refine ⟨[], [], rfl, List.prefix_refl _, rfl, ?_⟩
      intro q hq
      rw [List.mem_singleton] at hq
      subst hq
      exact includes_nil_right sep hsep
    | cons c t =>
      have ht : t.length ≤ n := by simpa using hs
      cases hd : dropLit sep (c :: t) with
      | some r =>
        have hr := dropLit_eq_some.1 hd
        cases sep with
        | nil => exact absurd rfl hsep
        | cons a l =>
          simp only [List.cons_append, List.cons.injEq] at hr
          obtain ⟨hac, htl⟩ := hr
          have hrlen : r.length ≤ n := by
            rw [htl, List.length_append] at ht
            omega
          obtain ⟨p, ps, h1, h2, h3, h4⟩ := ih r hrlen
          have hsplit : splitOn (a :: l) 0 (c :: t) = [] :: p :: ps := by
            simp only [splitOn, hd, Option.isSome_some, if_true, List.length_cons,
              Nat.add_sub_cancel]
            rw [splitOn_skip (a :: l) t l.length (by rw [htl, List.length_append]; omega)]
            rw [htl, List.drop_left, h1]
          refine ⟨[], p :: ps, hsplit, List.nil_prefix, ?_, ?_⟩
          · rw [intercalate_cons_cons, h3, htl, hac]
            simp
          · intro q hq
            rcases List.mem_cons.1 hq with e | e
            · subst e; rfl
            · exact h4 q e
      | none =>
        obtain ⟨p, ps, h1, h2, h3, h4⟩ := ih t ht
        have hsplit : splitOn sep 0 (c :: t) = (c :: p) :: ps := by
          simp only [splitOn, hd, Option.isSome_none, Bool.false_eq_true, if_false, h1]
        refine ⟨c :: p, ps, hsplit, (List.prefix_cons_inj c).2 h2, ?_, ?_⟩
        · rw [intercalate_cons_head, h3]
        · intro q hq
          rcases List.mem_cons.1 hq with e | e
          · subst e
            have hp := h4 p (List.mem_cons_self _ _)
            simp only [includes, hp, Bool.or_false]
            cases h5 : (dropLit sep (c :: p)).isSome with
            | false => rfl
            | true =>
              have := dropLit_isSome_mono sep _ (c :: t) ((List.prefix_cons_inj c).2 h2) h5
              rw [hd] at this
              cases this
          · exact h4 q (List.mem_cons_of_mem _ e)

/-! ## The route `/convert-text` -/

theorem truthy_eq_some (v : Option Str) (s : Str) (h : truthy v = some s) :
    v = some s ∧ s ≠ [] := by
  cases v with
  | none => simp [truthy] at h
  | some x =>
    unfold truthy at h
    rw [Option.filter] at h
    by_cases hx : (x != []) = true
    · simp only [hx, if_true, Option.some.injEq] at h
      subst h
      exact ⟨rfl, by simpa using hx⟩
    · simp [hx] at h

theorem truthy_truthy (v : Option Str) : truthy (truthy v) = truthy v := by
  cases v with
  | none => rfl
  | some x =>
    unfold truthy
    rw [Option.filter]
    by_cases hx : (x != []) = true
    · simp only [hx, if_true, Option.filter]
    · simp only [hx, Bool.false_eq_true, if_false]
      rfl

theorem convertOne_short_truthy (sp : Str → Option Params) (remote : Remote)
    (subIds : Option (List Str)) (url : Str) :
    truthy (convertOne sp remote subIds url).short = (convertOne sp remote subIds url).short := by
  unfold convertOne getShopeeShortLink
  exact truthy_truthy _

theorem text_ne_nil_of_scan (text : Str) (h : urlRegex.scan 0 text ≠ []) : text ≠ [] := by
  rintro rfl
  exact h rfl

theorem uniq_ne_nil (xs : List Str) (h : xs ≠ []) : uniq xs ≠ [] := by
  cases xs with
  | nil => exact absurd rfl h
  | cons x xs =>
    intro e
    have := (mem_uniq (x :: xs) x).2 (List.mem_cons_self _ _)
    rw [e] at this
    cases this

theorem convertText_eq (sp : Str → Option Params) (remote : Remote) (text : Str)
    (subIds : Option (List Str)) (h : urlRegex.scan 0 text ≠ []) :
    convertText sp remote text subIds =
      .ok (replaceLinks text ((uniq (urlRegex.scan 0 text)).map (convertOne sp remote subIds)))
        (((uniq (urlRegex.scan 0 text)).map (convertOne sp remote subIds)).filter
          (fun c => (truthy c.short).isSome)).length
        ((uniq (urlRegex.scan 0 text)).map (convertOne sp remote subIds)) := by
  unfold convertText
  have h1 := text_ne_nil_of_scan text h
  have h2 : ¬ (uniq (urlRegex.scan 0 text)).length = 0 := by
    intro e
    exact uniq_ne_nil _ h (List.length_eq_zero.1 e)
  simp only [h1, h2, if_false]

theorem map_original_convertOne (sp : Str → Option Params) (remote : Remote)
    (subIds : Option (List Str)) (xs : List Str) :
    (xs.map (convertOne sp remote subIds)).map Conversion.original = xs := by
  rw [List.map_map]
  have : (Conversion.original ∘ convertOne sp remote subIds) = id := by
    funext x
    rfl
  rw [this, List.map_id]

/-- C9. Duplicate occurrences: when every match of the scan is the same candidate `c` and
its short-link call answers `s`, the answer has one `details` entry (for `c`, with short link
`s`), `converted` is 1, and `newText` is the text with every occurrence of `c` replaced by
`s`: the text is the pieces joined by `c`, no piece contains `c`, and `newText` is the same
pieces joined by `s`. -/
theorem convertText_single (sp : Str → Option Params) (remote : Remote) (text : Str)
    (subIds : Option (List Str)) (c s : Str)
    (hne : urlRegex.scan 0 text ≠ []) (hall : ∀ x ∈ urlRegex.scan 0 text, x = c)
    (hshort : (convertOne sp remote subIds c).short = some s) :
    ∃ d pieces, convertText sp remote text subIds = .ok (s.intercalate pieces) 1 [d] ∧
      d.original = c ∧ d.short = some s ∧ 2 ≤ pieces.length ∧ c.intercalate pieces = text ∧
      ∀ p ∈ pieces, includes c p = false := by
  have huniq : uniq (urlRegex.scan 0 text) = [c] :=
    eq_singleton_of_nodup _ c (nodup_uniq _) (uniq_ne_nil _ hne)
      (fun x hx => hall x ((mem_uniq _ x).1 hx))
  have hc : c ∈ urlRegex.scan 0 text := by
    rw [← mem_uniq, huniq]
    exact List.mem_singleton_self c
  have hc0 : c ≠ [] := scan_ne_nil urlRegex (by decide) text 0 c hc
  have hinc : includes c text = true := by
    obtain ⟨a, b, hab⟩ := scan_infix urlRegex text 0 c hc
    exact includes_iff.2 ⟨a, b, hab.symm⟩
  have htr : truthy (convertOne sp remote subIds c).short = some s := by
    rw [convertOne_short_truthy, hshort]
  obtain ⟨p, ps, h1, -, h3, h4⟩ := splitOn_spec c hc0 text.length text (Nat.le_refl _)
  refine ⟨convertOne sp remote subIds c, p :: ps, ?_, rfl, hshort, ?_, h3, h4⟩
  · rw [convertText_eq sp remote text subIds hne, huniq]
    have horig : (convertOne sp remote subIds c).original = c := rfl
    simp only [List.map_cons, List.map_nil, replaceLinks, List.foldl_cons, List.foldl_nil, htr,
      horig, jsSplit, hc0, if_false, h1, List.filter_cons, Option.isSome_some, if_true,
      List.filter_nil, List.length_singleton]
  · cases ps with
    | cons q qs => simp
    | nil =>
      rw [intercalate_singleton] at h3
      have := h4 p (List.mem_cons_self _ _)
      rw [h3, hinc] at this
      cases this

theorem convertText_single_witness :
    ∃ d pieces, convertText whatwgSearchParams (remoteShort "https://s.shopee.vn/9".toList)
        duplicateText none = .ok ("https://s.shopee.vn/9".toList.intercalate pieces) 1 [d] ∧
      d.original = "https://shopee.vn/product/1/2".toList ∧
      d.short = some "https://s.shopee.vn/9".toList ∧ 2 ≤ pieces.length ∧
      "https://shopee.vn/product/1/2".toList.intercalate pieces = duplicateText ∧
      ∀ p ∈ pieces, includes "https://shopee.vn/product/1/2".toList p = false :=
  convertText_single whatwgSearchParams (remoteShort "https://s.shopee.vn/9".toList)
    duplicateText none "https://shopee.vn/product/1/2".toList "https://s.shopee.vn/9".toList
    (by decide) (by decide) (by decide)

/-- The example of C9 evaluated: both occurrences are replaced and there is one entry. -/
theorem convertText_duplicate_example :
    convertText whatwgSearchParams (remoteShort "https://s.shopee.vn/9".toList) duplicateText none
      = .ok "x https://s.shopee.vn/9 and https://s.shopee.vn/9".toList 1
        [⟨"https://shopee.vn/product/1/2".toList, some "https://s.shopee.vn/9".toList,
          "Sản phẩm Shopee".toList, []⟩] := by
  decide

/-- C10. Deduplication order: when the scan finds at least one match, the `original` fields
of `details` are pairwise distinct, they are exactly the matched strings, each is a substring
of the text, and they stand in the order in which the candidates first occur among the
matches, which the scan lists from left to right in the text. -/
theorem convertText_details (sp : Str → Option Params) (remote : Remote) (text : Str)
    (subIds : Option (List Str)) (h : urlRegex.scan 0 text ≠ []) :
    ∃ newText converted details,
      convertText sp remote text subIds = .ok newText converted details ∧
      (details.map Conversion.original).Nodup ∧
      (∀ c, c ∈ details.map Conversion.original ↔ c ∈ urlRegex.scan 0 text) ∧
      (∀ c ∈ details.map Conversion.original, c <:+: text) ∧
      (∃ gaps, gaps.length = (urlRegex.scan 0 text).length + 1 ∧
        weave gaps (urlRegex.scan 0 text) = text) ∧
      ∀ a ∈ urlRegex.scan 0 text, ∀ b ∈ urlRegex.scan 0 text,
        (firstIndex a (details.map Conversion.original) <
            firstIndex b (details.map Conversion.original) ↔
          firstIndex a (urlRegex.scan 0 text) < firstIndex b (urlRegex.scan 0 text)) := by
  refine ⟨_, _, _, convertText_eq sp remote text subIds h, ?_, ?_, ?_, ?_, ?_⟩
  · rw [map_original_convertOne]
    exact nodup_uniq _
  · intro c
    rw [map_original_convertOne]
    exact mem_uniq _ c
  · intro c hc
    rw [map_original_convertOne, mem_uniq] at hc
    exact scan_infix urlRegex text 0 c hc
  · exact scan_weave urlRegex (by decide) text 0 (Nat.zero_le _)
  · intro a ha b hb
    rw [map_original_convertOne]
    exact uniq_order _ a ha b hb

theorem convertText_details_witness :
    ∃ newText converted details,
      convertText whatwgSearchParams (remoteShort "https://s.shopee.vn/9".toList)
        threeLinksText none = .ok newText converted details ∧
      (details.map Conversion.original).Nodup ∧
      (∀ c, c ∈ details.map Conversion.original ↔ c ∈ urlRegex.scan 0 threeLinksText) ∧
      (∀ c ∈ details.map Conversion.original, c <:+: threeLinksText) ∧
      (∃ gaps, gaps.length = (urlRegex.scan 0 threeLinksText).length + 1 ∧
        weave gaps (urlRegex.scan 0 threeLinksText) = threeLinksText) ∧
      ∀ a ∈ urlRegex.scan 0 threeLinksText, ∀ b ∈ urlRegex.scan 0 threeLinksText,
        (firstIndex a (details.map Conversion.original) <
            firstIndex b (details.map Conversion.original) ↔
          firstIndex a (urlRegex.scan 0 threeLinksText) <
            firstIndex b (urlRegex.scan 0 threeLinksText)) :=
  convertText_details whatwgSearchParams (remoteShort "https://s.shopee.vn/9".toList)
    threeLinksText none (by decide)

/-- The `details` of the three-link text: two entries, in the order of first occurrence. -/
theorem convertText_details_example :
    (uniq (urlRegex.scan 0 threeLinksText)) =
      ["shopee.vn/x".toList, "https://shp.ee/y".toList] := by
  decide

/-! ## The route when every short-link call fails -/

theorem replaceLinks_of_no_short (text : Str) (convs : List Conversion)
    (h : ∀ d ∈ convs, d.short = none) : replaceLinks text convs = text := by
  unfold replaceLinks
  induction convs generalizing text with
  | nil => rfl
  | cons d ds ih =>
    have hd : d.short = none := h d (List.mem_cons_self _ _)
    rw [List.foldl_cons]
    simp only [hd, truthy, Option.filter]
    exact ih text (fun x hx => h x (List.mem_cons_of_mem _ hx))

theorem filter_short_of_no_short (convs : List Conversion) (h : ∀ d ∈ convs, d.short = none) :
    (convs.filter (fun c => (truthy c.short).isSome)).length = 0 := by
  rw [List.length_eq_zero, List.filter_eq_nil_iff]
  intro d hd
  rw [h d hd]
  simp [truthy, Option.filter]

theorem convertOne_defaults (sp : Str → Option Params) (remote : Remote)
    (subIds : Option (List Str)) (url : Str) (h : productLookup sp remote url = none) :
    (convertOne sp remote subIds url).productName = "Sản phẩm Shopee".toList ∧
      (convertOne sp remote subIds url).imageUrl = [] := by
  have h2 : getShopeeProductInfo remote url
      (resolveAndProcessUrl sp remote url
        (if (dropLit "http".toList url).isSome then url else "https://".toList ++ url)).2 = none := h
  unfold convertOne
  simp only [h2]
  exact ⟨rfl, rfl⟩

/-- C11. Failure leaves the text untouched: when the scan finds a candidate and no
candidate's short-link call yields a link, `newText` is the input text, `converted` is 0,
every `details` entry has no short link, and an entry whose product lookup yields nothing
too carries the placeholder name and an empty image URL. -/
theorem convertText_all_fail (sp : Str → Option Params) (remote : Remote) (text : Str)
    (subIds : Option (List Str)) (hne : urlRegex.scan 0 text ≠ [])
    (hfail : ∀ c ∈ urlRegex.scan 0 text, (convertOne sp remote subIds c).short = none) :
    ∃ details, convertText sp remote text subIds = .ok text 0 details ∧ details ≠ [] ∧
      ∀ d ∈ details, d.short = none ∧
        (productLookup sp remote d.original = none →
          d.productName = "Sản phẩm Shopee".toList ∧ d.imageUrl = []) := by
  have hall : ∀ d ∈ (uniq (urlRegex.scan 0 text)).map (convertOne sp remote subIds),
      d.short = none := by
    intro d hd
    obtain ⟨c, hc, rfl⟩ := List.mem_map.1 hd
    exact hfail c ((mem_uniq _ c).1 hc)
  refine ⟨(uniq (urlRegex.scan 0 text)).map (convertOne sp remote subIds), ?_, ?_, ?_⟩
  · rw [convertText_eq sp remote text subIds hne, replaceLinks_of_no_short _ _ hall,
      filter_short_of_no_short _ hall]
  · intro e
    exact uniq_ne_nil _ hne (List.map_eq_nil_iff.1 e)
  · intro d hd
    refine ⟨hall d hd, ?_⟩
    obtain ⟨c, -, rfl⟩ := List.mem_map.1 hd
    intro hl
    exact convertOne_defaults sp remote subIds c hl

theorem convertText_all_fail_witness :
    ∃ details, convertText whatwgSearchParams remoteFail "check https://shp.ee/abc123".toList none
        = .ok "check https://shp.ee/abc123".toList 0 details ∧ details ≠ [] ∧
      ∀ d ∈ details, d.short = none ∧
        (productLookup whatwgSearchParams remoteFail d.original = none →
          d.productName = "Sản phẩm Shopee".toList ∧ d.imageUrl = []) :=
  convertText_all_fail whatwgSearchParams remoteFail "check https://shp.ee/abc123".toList none
    (by decide) (by decide)

/-- The example of C11 evaluated. -/
theorem convertText_all_fail_example :
    convertText whatwgSearchParams remoteFail "check https://shp.ee/abc123".toList none
      = .ok "check https://shp.ee/abc123".toList 0
        [⟨"https://shp.ee/abc123".toList, none, "Sản phẩm Shopee".toList, []⟩] := by
  decide

/-! ## Sub-identifiers -/

theorem filter_valid_eq (ids : List Str) :
    ids.filter (fun id => id != [] && jsTrim id != []) =
      ids.filter (fun id => jsTrim id != []) := by
  apply List.filter_congr
  intro id _
  cases id with
  | nil => rfl
  | cons c t => simp

/-- C12. Default sub-identifier: when `subIds` is absent, empty, or holds only entries that
are empty after trimming, the list put into the short-link request is exactly
`["webchuyendoi"]`. -/
theorem finalSubIds_default (subIds : Option (List Str))
    (h : subIds = none ∨ ∃ ids, subIds = some ids ∧ ∀ id ∈ ids, jsTrim id = []) :
    finalSubIds subIds = ["webchuyendoi".toList] ∧
      ∀ (remote : Remote) (cand url : Str), getShopeeShortLink remote cand url subIds =
        truthy (remote.shortLink cand (shortLinkQuery url ["webchuyendoi".toList])) := by
  have h1 : finalSubIds subIds = ["webchuyendoi".toList] := by
    rcases h with rfl | ⟨ids, rfl, hall⟩
    · rfl
    · unfold finalSubIds
      have hf : ids.filter (fun id => id != [] && jsTrim id != []) = [] := by
        rw [List.filter_eq_nil_iff]
        intro id hid
        simp [hall id hid]
      simp only [hf]
      split <;> rfl
  refine ⟨h1, ?_⟩
  intro remote cand url
  unfold getShopeeShortLink
  rw [h1]

theorem finalSubIds_default_witness :
    finalSubIds (some ["".toList, "  ".toList]) = ["webchuyendoi".toList] ∧
      ∀ (remote : Remote) (cand url : Str),
        getShopeeShortLink remote cand url (some ["".toList, "  ".toList]) =
          truthy (remote.shortLink cand (shortLinkQuery url ["webchuyendoi".toList])) :=
  finalSubIds_default (some ["".toList, "  ".toList])
    (Or.inr ⟨["".toList, "  ".toList], rfl, by decide⟩)

/-- C13 (amended). Sub-identifiers in the request: when at least one entry of the caller's
list is not blank, the list put into the short-link request is the caller's list without
its blank entries and with every remaining entry trimmed, in the caller's order, each
entry between double quotes and the entries joined by commas; it is the caller's list
itself when no entry is blank and trimming changes no entry. -/
theorem finalSubIds_supplied (ids : List Str) (h : ∃ id ∈ ids, jsTrim id ≠ []) :
    finalSubIds (some ids) = (ids.filter (fun id => jsTrim id != [])).map jsTrim ∧
      (∀ url, shortLinkQuery url (finalSubIds (some ids)) =
        "mutation \x7b generateShortLink(input: \x7b originUrl: \"".toList ++ url
          ++ "\", subIds: [".toList
          ++ ",".toList.intercalate (((ids.filter (fun id => jsTrim id != [])).map jsTrim).map
              (fun id => '"' :: id ++ ['"']))
          ++ "] \x7d) \x7b shortLink \x7d \x7d".toList) ∧
      ((∀ id ∈ ids, jsTrim id = id ∧ id ≠ []) → finalSubIds (some ids) = ids) := by
  obtain ⟨id0, hid0, hne0⟩ := h
  have hmem : id0 ∈ ids.filter (fun id => jsTrim id != []) := by
    rw [List.mem_filter]
    exact ⟨hid0, by simpa using hne0⟩
  have hlen : 0 < ids.length := List.length_pos_of_mem hid0
  have hlen2 : 0 < (ids.filter (fun id => jsTrim id != [])).length := List.length_pos_of_mem hmem
  have h1 : finalSubIds (some ids) = (ids.filter (fun id => jsTrim id != [])).map jsTrim := by
    unfold finalSubIds
    simp only [filter_valid_eq, gt_iff_lt, hlen, hlen2, if_true]
  refine ⟨h1, ?_, ?_⟩
  · intro url
    rw [h1]
    rfl
  · intro hall
    rw [h1]
    have hf : ids.filter (fun id => jsTrim id != []) = ids := by
      rw [List.filter_eq_self]
      intro id hid
      obtain ⟨e1, e2⟩ := hall id hid
      rw [e1]
      simpa using e2
    rw [hf]
    conv_rhs => rw [← List.map_id ids]
    apply List.map_congr_left
    intro id hid
    exact (hall id hid).1

theorem finalSubIds_supplied_witness :
    finalSubIds (some [" a ".toList, "".toList, "b".toList]) = ["a".toList, "b".toList] :=
  (finalSubIds_supplied [" a ".toList, "".toList, "b".toList]
    ⟨"b".toList, by decide, by decide⟩).1

/-- C13, as stated, fails: the caller's list `[" a ", "", "b"]` has non-blank entries, and
the request carries `["a", "b"]`: the blank entry is dropped and the first one is trimmed. -/
theorem finalSubIds_supplied_counterexample :
    (∃ id ∈ [" a ".toList, "".toList, "b".toList], jsTrim id ≠ []) ∧
      finalSubIds (some [" a ".toList, "".toList, "b".toList]) = ["a".toList, "b".toList] ∧
      finalSubIds (some [" a ".toList, "".toList, "b".toList]) ≠
        [" a ".toList, "".toList, "b".toList] ∧
      formattedIds (finalSubIds (some [" a ".toList, "".toList, "b".toList])) =
        "\"a\",\"b\"".toList := by
  refine ⟨⟨"b".toList, by decide, by decide⟩, by decide, by decide, by decide⟩

/-! ## Nothing to convert -/

/-- C14. Nothing to convert: for a non-empty text in which the scan finds no match, the
handler answers `success: false, converted: 0` (without `newText` or `details`) and issues
no network call. -/
theorem convertText_nothing (sp : Str → Option Params) (remote : Remote) (text : Str)
    (subIds : Option (List Str)) (htext : text ≠ []) (hscan : urlRegex.scan 0 text = []) :
    convertText sp remote text subIds = .nothing ∧
      convertTextCalls sp remote text subIds = [] := by
  constructor
  · unfold convertText
    simp only [htext, hscan, if_false]
    rfl
  · unfold convertTextCalls
    simp only [htext, hscan, if_false]
    rfl

theorem convertText_nothing_witness :
    convertText whatwgSearchParams remoteFail "no links here".toList none = .nothing ∧
      convertTextCalls whatwgSearchParams remoteFail "no links here".toList none = [] :=
  convertText_nothing whatwgSearchParams remoteFail "no links here".toList none (by decide)
    (by decide)

/-! ## Redirect resolution -/

/-- C15. Resolver fallback: when the redirect-following request fails, the resolved URL is
the input URL unchanged, and the item id and the cleaned URL are those computed from the
input URL itself. -/
theorem resolve_fallback (sp : Str → Option Params) (remote : Remote) (cand inputUrl : Str)
    (h : remote.get cand inputUrl = none) :
    resolveUrl remote cand inputUrl = inputUrl ∧
      resolveAndProcessUrl sp remote cand inputUrl =
        (cleanUrl sp inputUrl, extractItemId inputUrl) := by
  have h1 : resolveUrl remote cand inputUrl = inputUrl := by
    unfold resolveUrl
    split
    · rw [h]
    · rfl
  refine ⟨h1, ?_⟩
  unfold resolveAndProcessUrl
  simp only [h1]

theorem resolve_fallback_witness :
    resolveUrl remoteFail "shp.ee/abc123".toList "https://shp.ee/abc123".toList =
        "https://shp.ee/abc123".toList ∧
      resolveAndProcessUrl whatwgSearchParams remoteFail "shp.ee/abc123".toList
          "https://shp.ee/abc123".toList =
        (cleanUrl whatwgSearchParams "https://shp.ee/abc123".toList,
          extractItemId "https://shp.ee/abc123".toList) :=
  resolve_fallback whatwgSearchParams remoteFail "shp.ee/abc123".toList
    "https://shp.ee/abc123".toList rfl

theorem hostOf_isInfix (u : Str) : hostOf u <:+: u := by
  unfold hostOf
  have hsuf : ((dropLit "https://".toList u).orElse
      (fun _ => dropLit "http://".toList u)).getD u <:+ u := by
    cases h1 : dropLit "https://".toList u with
    | some r =>
      simp only [Option.orElse, Option.getD_some]
      exact ⟨_, (dropLit_eq_some.1 h1).symm⟩
    | none =>
      cases h2 : dropLit "http://".toList u with
      | some r =>
        simp only [Option.orElse, Option.getD_some]
        exact ⟨_, (dropLit_eq_some.1 h2).symm⟩
      | none =>
        simp only [Option.orElse, Option.getD_none]
        exact List.suffix_refl _
  exact (List.takeWhile_prefix _).isInfix.trans hsuf.isInfix

/-- C16 (amended). The resolver is skipped when the input URL contains none of
`s.shopee.vn`, `shp.ee`, `vn.shp.ee` anywhere (host, path or query): no request is issued
and the resolved URL is the input URL.  Such a URL has a host that is none of the three. -/
theorem resolve_skipped (remote : Remote) (cand inputUrl : Str)
    (h : ∀ d ∈ shortenerDomains, includes d inputUrl = false) :
    resolveCalls cand inputUrl = [] ∧ resolveUrl remote cand inputUrl = inputUrl ∧
      hostOf inputUrl ∉ shortenerDomains := by
  have h1 : includes "s.shopee.vn".toList inputUrl = false := h _ (by decide)
  have h2 : includes "shp.ee".toList inputUrl = false := h _ (by decide)
  have h3 : includes "vn.shp.ee".toList inputUrl = false := h _ (by decide)
  have hs : isShortener inputUrl = false := by
    unfold isShortener
    rw [h1, h2, h3]
    rfl
  refine ⟨?_, ?_, ?_⟩
  · unfold resolveCalls
    simp only [hs, Bool.false_eq_true, if_false]
  · unfold resolveUrl
    simp only [hs, Bool.false_eq_true, if_false]
  · intro hmem
    obtain ⟨a, b, hab⟩ := hostOf_isInfix inputUrl
    have := includes_iff.2 ⟨a, b, hab.symm⟩
    rw [h _ hmem] at this
    cases this

theorem resolve_skipped_witness :
    resolveCalls "shopee.vn/product/1/2".toList "https://shopee.vn/product/1/2".toList = [] ∧
      resolveUrl (remoteRedirect "https://shopee.vn/other".toList)
        "shopee.vn/product/1/2".toList "https://shopee.vn/product/1/2".toList =
        "https://shopee.vn/product/1/2".toList ∧
      hostOf "https://shopee.vn/product/1/2".toList ∉ shortenerDomains :=
  resolve_skipped (remoteRedirect "https://shopee.vn/other".toList)
    "shopee.vn/product/1/2".toList "https://shopee.vn/product/1/2".toList (by decide)

/-- C16, as stated, fails: the host of `https://shopee.vn/product/1/2?ref=shp.ee` is
`shopee.vn`, which is no shortener domain, yet the URL contains `shp.ee`, so a request is
issued and the resolved URL is the one the request reports. -/
theorem resolve_skipped_counterexample :
    hostOf "https://shopee.vn/product/1/2?ref=shp.ee".toList = "shopee.vn".toList ∧
      hostOf "https://shopee.vn/product/1/2?ref=shp.ee".toList ∉ shortenerDomains ∧
      resolveCalls "shopee.vn/product/1/2?ref=shp.ee".toList
          "https://shopee.vn/product/1/2?ref=shp.ee".toList =
        [.get "shopee.vn/product/1/2?ref=shp.ee".toList
          "https://shopee.vn/product/1/2?ref=shp.ee".toList] ∧
      resolveUrl (remoteRedirect "https://shopee.vn/other".toList)
          "shopee.vn/product/1/2?ref=shp.ee".toList
          "https://shopee.vn/product/1/2?ref=shp.ee".toList =
        "https://shopee.vn/other".toList := by
  decide

/-! ## Link cleaning: the standard-link rule -/

theorem splitChar_ne_nil (sep : Char) (s : Str) : splitChar sep s ≠ [] := by
  cases s with
  | nil => simp [splitChar]
  | cons c t =>
    unfold splitChar
    by_cases h : c = sep
    · simp [h]
    · simp only [h, if_false]
      split <;> simp

theorem splitChar_length (sep : Char) (s : Str) :
    (splitChar sep s).length = s.count sep + 1 := by
  induction s with
  | nil => rfl
  | cons c t ih =>
    unfold splitChar
    by_cases h : c = sep
    · subst h
      simp [ih]
    · have hne : ¬ (c == sep) = true := by simpa using h
      simp only [h, if_false]
      cases hs : splitChar sep t with
      | nil => exact absurd hs (splitChar_ne_nil sep t)
      | cons p ps =>
        rw [hs] at ih
        rw [List.count_cons, if_neg hne]
        simpa using ih

/-- C17 (amended). Standard-link rule: for a URL whose base does not contain `/search` and
holds no shop-page shape, when the base contains `/m/` or `/product/` or has exactly three
`/` characters (so that splitting it at `/` gives four pieces, as for
`https://shopee.vn/shopname`), the cleaned URL is the base, the input cut before its first
`?`. -/
theorem cleanUrl_standard (sp : Str → Option Params) (u : Str)
    (hsearch : includes "/search".toList (baseOf u) = false)
    (hshop : ∀ k, k ≤ (baseOf u).length → shopProductAt ((baseOf u).drop k) = none)
    (hstd : includes "/m/".toList (baseOf u) = true ∨
      includes "/product/".toList (baseOf u) = true ∨ (baseOf u).count '/' = 3) :
    cleanUrl sp u = baseOf u ∧
      ((splitChar '/' (baseOf u)).length = 4 ↔ (baseOf u).count '/' = 3) ∧
      ∃ query, u = baseOf u ++ query ∧ (query = [] ∨ query.head? = some '?') := by
  have hM : shopProductRe.search (baseOf u) = none :=
    (search_none_of_nowhere shopProductRe shopProductAt _ shopProductRe_head _).2 hshop
  refine ⟨?_, ?_, ?_⟩
  · apply cleanUrl_of_standard sp u hsearch hM
    rcases hstd with h | h | h
    · rw [h]; rfl
    · rw [h]; simp
    · simp [splitCount, h]
  · rw [splitChar_length]
    omega
  · refine ⟨u.dropWhile (fun c => c != '?'), (List.takeWhile_append_dropWhile _ u).symm, ?_⟩
    have hd := head_dropWhile (fun c => c != '?') u
    cases hq : u.dropWhile (fun c => c != '?') with
    | nil => exact Or.inl rfl
    | cons c t =>
      right
      rw [hq] at hd
      simpa using hd

theorem cleanUrl_standard_witness :
    cleanUrl whatwgSearchParams "https://shopee.vn/shopname?x=1".toList =
      baseOf "https://shopee.vn/shopname?x=1".toList :=
  (cleanUrl_standard whatwgSearchParams "https://shopee.vn/shopname?x=1".toList (by decide)
    (by decide) (Or.inr (Or.inr (by decide)))).1

/-- C17, as stated, fails: the base of `https://shopee.vn/shopname/?x=1` is neither a search
nor a shop-page URL and has exactly three non-empty pieces between slashes, but splitting it
gives five pieces, so the URL falls to the fallback and keeps its query. -/
theorem cleanUrl_standard_counterexample :
    includes "/search".toList (baseOf "https://shopee.vn/shopname/?x=1".toList) = false ∧
      (∀ k, k ≤ (baseOf "https://shopee.vn/shopname/?x=1".toList).length →
        shopProductAt ((baseOf "https://shopee.vn/shopname/?x=1".toList).drop k) = none) ∧
      segmentCount (baseOf "https://shopee.vn/shopname/?x=1".toList) = 3 ∧
      cleanUrl whatwgSearchParams "https://shopee.vn/shopname/?x=1".toList =
        "https://shopee.vn/shopname/?x=1".toList ∧
      cleanUrl whatwgSearchParams "https://shopee.vn/shopname/?x=1".toList ≠
        baseOf "https://shopee.vn/shopname/?x=1".toList := by
  decide

/-! ## Link cleaning: what the fallback cuts -/

theorem before_of_not_includes (p s : Str) (h : includes p s = false) : before p s = s := by
  induction s with
  | nil => rfl
  | cons c t ih =>
    simp only [includes, Bool.or_eq_false_iff] at h
    unfold before
    simp only [h.1, Bool.false_eq_true, if_false, ih h.2]

theorem cut_eq_before (p s : Str) : (if includes p s then before p s else s) = before p s := by
  by_cases h : includes p s = true
  · simp only [h, if_true]
  · have h2 : includes p s = false := by simpa using h
    simp only [h2, Bool.false_eq_true, if_false]
    exact (before_of_not_includes p s h2).symm

theorem before_eq_cutWhen (m s : Str) :
    before m s = cutWhen (fun x => (dropLit m x).isSome) s := by
  induction s with
  | nil => rfl
  | cons c t ih =>
    unfold before cutWhen
    rw [ih]

theorem cutWhen_isPrefix (P : Str → Bool) (s : Str) : cutWhen P s <+: s := by
  induction s with
  | nil => exact List.prefix_refl _
  | cons c t ih =>
    unfold cutWhen
    by_cases h : P (c :: t) = true
    · simp only [h, if_true]; exact List.nil_prefix
    · simp only [h, Bool.false_eq_true, if_false]
      exact (List.prefix_cons_inj c).2 ih

theorem cutWhen_comp (P Q : Str → Bool)
    (hmono : ∀ a b : Str, a <+: b → Q a = true → Q b = true)
    (hkeep : ∀ s, Q s = true → P s = false → Q (cutWhen P s) = true) (s : Str) :
    cutWhen Q (cutWhen P s) = cutWhen (fun x => P x || Q x) s := by
  induction s with
  | nil => rfl
  | cons c t ih =>
    by_cases hP : P (c :: t) = true
    · have h1 : cutWhen P (c :: t) = [] := by simp [cutWhen, hP]
      have h2 : cutWhen (fun x => P x || Q x) (c :: t) = [] := by simp [cutWhen, hP]
      rw [h1, h2]
      rfl
    · have hP2 : P (c :: t) = false := by simpa using hP
      have h1 : cutWhen P (c :: t) = c :: cutWhen P t := by simp [cutWhen, hP2]
      by_cases hQ : Q (c :: t) = true
      · have h3 := hkeep (c :: t) hQ hP2
        rw [h1] at h3
        have h2 : cutWhen (fun x => P x || Q x) (c :: t) = [] := by simp [cutWhen, hQ]
        rw [h1, h2]
        simp [cutWhen, h3]
      · have hQ2 : Q (c :: t) = false := by simpa using hQ
        have h3 : Q (c :: cutWhen P t) = false := by
          cases h4 : Q (c :: cutWhen P t) with
          | false => rfl
          | true =>
            have := hmono _ (c :: t) ((List.prefix_cons_inj c).2 (cutWhen_isPrefix P t)) h4
            rw [hQ2] at this
            cases this
        have h2 : cutWhen (fun x => P x || Q x) (c :: t) =
            c :: cutWhen (fun x => P x || Q x) t := by
          simp [cutWhen, hP2, hQ2]
        rw [h1, h2]
        simp [cutWhen, h3, ih]

theorem cutWhen_spec (P : Str → Bool) (s : Str) :
    ∃ rest, s = cutWhen P s ++ rest ∧ (rest = [] ∨ P rest = true) ∧
      ∀ k, k < (cutWhen P s).length → P (s.drop k) = false := by
  induction s with
  | nil => exact ⟨[], rfl, Or.inl rfl, fun k hk => by simp [cutWhen] at hk⟩
  | cons c t ih =>
    by_cases hP : P (c :: t) = true
    · refine ⟨c :: t, by simp [cutWhen, hP], Or.inr hP, ?_⟩
      intro k hk
      simp [cutWhen, hP] at hk
    · have hP2 : P (c :: t) = false := by simpa using hP
      obtain ⟨rest, h1, h2, h3⟩ := ih
      have hc : cutWhen P (c :: t) = c :: cutWhen P t := by simp [cutWhen, hP2]
      refine ⟨rest, ?_, h2, ?_⟩
      · rw [hc, List.cons_append, ← h1]
      · intro k hk
        rw [hc] at hk
        cases k with
        | zero => exact hP2
        | succ k => exact h3 k (by simpa using hk)

theorem startsWith_mono (m a b : Str) (hab : a <+: b) (h : (dropLit m a).isSome = true) :
    (dropLit m b).isSome = true :=
  dropLit_isSome_mono m a b hab h

/-- The three sequential cuts of the fallback are one cut at the first marker. -/
theorem cutAll_eq_cutWhen (u : Str) :
    trackingMarkers.foldl (fun t p => if includes p t then before p t else t) u =
      cutWhen markerAt u := by
  have h12 : ∀ s, cutWhen (fun x => (dropLit "utm_source=".toList x).isSome)
      (cutWhen (fun x => (dropLit "uls_trackid=".toList x).isSome) s) =
      cutWhen (fun x => (dropLit "uls_trackid=".toList x).isSome ||
        (dropLit "utm_source=".toList x).isSome) s := by
    intro s
    apply cutWhen_comp
    · exact fun a b hab h => startsWith_mono _ a b hab h
    · intro x hx _
      obtain ⟨r, hr⟩ := Option.isSome_iff_exists.1 hx
      rw [dropLit_eq_some.1 hr]
      have : cutWhen (fun x => (dropLit "uls_trackid=".toList x).isSome)
          ("utm_source=".toList ++ r) = "utm_source=".toList ++
            cutWhen (fun x => (dropLit "uls_trackid=".toList x).isSome) r := rfl
      rw [this, dropLit_append]
      rfl
  have h123 : ∀ s, cutWhen (fun x => (dropLit "mmp_pid=".toList x).isSome)
      (cutWhen (fun x => (dropLit "uls_trackid=".toList x).isSome ||
        (dropLit "utm_source=".toList x).isSome) s) =
      cutWhen (fun x => ((dropLit "uls_trackid=".toList x).isSome ||
        (dropLit "utm_source=".toList x).isSome) || (dropLit "mmp_pid=".toList x).isSome) s := by
    intro s
    apply cutWhen_comp
    · exact fun a b hab h => startsWith_mono _ a b hab h
    · intro x hx _
      obtain ⟨r, hr⟩ := Option.isSome_iff_exists.1 hx
      rw [dropLit_eq_some.1 hr]
      have : cutWhen (fun x => (dropLit "uls_trackid=".toList x).isSome ||
          (dropLit "utm_source=".toList x).isSome) ("mmp_pid=".toList ++ r) =
          "mmp_pid=".toList ++ cutWhen (fun x => (dropLit "uls_trackid=".toList x).isSome ||
            (dropLit "utm_source=".toList x).isSome) r := rfl
      rw [this, dropLit_append]
      rfl
  have hm : markerAt = fun x => ((dropLit "uls_trackid=".toList x).isSome ||
      (dropLit "utm_source=".toList x).isSome) || (dropLit "mmp_pid=".toList x).isSome := by
    funext x
    simp [markerAt, trackingMarkers, Bool.or_assoc]
  show List.foldl _ u ["uls_trackid=".toList, "utm_source=".toList, "mmp_pid=".toList] = _
  simp only [List.foldl_cons, List.foldl_nil, cut_eq_before]
  rw [before_eq_cutWhen, before_eq_cutWhen, before_eq_cutWhen, h12, h123, hm]

theorem isFallback_parts (u : Str) (h : isFallback u = true) :
    includes "/search".toList (baseOf u) = false ∧ shopProductRe.search (baseOf u) = none ∧
      (includes "/m/".toList (baseOf u) || includes "/product/".toList (baseOf u)
        || splitCount '/' (baseOf u) = 4) = false := by
  unfold isFallback at h
  simp only [Bool.and_eq_true, Bool.not_eq_true', Option.isNone_iff_eq_none] at h
  exact ⟨h.1.1, h.1.2, h.2⟩

/-- C18 (amended). Fallback tracking strip: for a URL that reaches the fallback, let `T` be
the input cut at the earliest position where one of the markers `uls_trackid=`,
`utm_source=`, `mmp_pid=` starts (the whole input when none occurs).  The cleaned URL is
`T` with its last character removed when that character is `?` or `&`, and `T` otherwise;
it is a prefix of the input and contains no marker.  One character is removed: the result
still ends with `?` or `&` exactly when `T` ends with two such characters. -/
theorem cleanUrl_fallback (sp : Str → Option Params) (u : Str) (h : isFallback u = true) :
    ∃ T rest, u = T ++ rest ∧ (rest = [] ∨ markerAt rest = true) ∧
      (∀ k, k < T.length → markerAt (u.drop k) = false) ∧
      cleanUrl sp u = (if dangling T then T.dropLast else T) ∧
      cleanUrl sp u <+: u ∧
      (∀ m ∈ trackingMarkers, includes m (cleanUrl sp u) = false) ∧
      (dangling (cleanUrl sp u) = true ↔ dangling T = true ∧ dangling T.dropLast = true) := by
  obtain ⟨hS, hM, hStd⟩ := isFallback_parts u h
  obtain ⟨rest, h1, h2, h3⟩ := cutWhen_spec markerAt u
  have hclean : cleanUrl sp u =
      (if dangling (cutWhen markerAt u) then (cutWhen markerAt u).dropLast
        else cutWhen markerAt u) := by
    rw [cleanUrl_of_fallback sp u hS hM hStd, stripTracking_eq, cutAll_eq_cutWhen]
  refine ⟨cutWhen markerAt u, rest, h1, h2, h3, hclean, ?_, ?_, ?_⟩
  · rw [cleanUrl_of_fallback sp u hS hM hStd]
    exact stripTracking_isPrefix u
  · intro m hm
    rw [cleanUrl_of_fallback sp u hS hM hStd]
    exact stripTracking_no_marker u m hm
  · rw [hclean]
    cases hd : dangling (cutWhen markerAt u) with
    | true => simp
    | false => simp [hd]

theorem cleanUrl_fallback_witness :
    ∃ T rest, "https://shopee.vn/a/b/c?x=1&utm_source=fb&y=2".toList = T ++ rest ∧
      (rest = [] ∨ markerAt rest = true) ∧
      (∀ k, k < T.length →
        markerAt ("https://shopee.vn/a/b/c?x=1&utm_source=fb&y=2".toList.drop k) = false) ∧
      cleanUrl whatwgSearchParams "https://shopee.vn/a/b/c?x=1&utm_source=fb&y=2".toList =
        (if dangling T then T.dropLast else T) ∧
      cleanUrl whatwgSearchParams "https://shopee.vn/a/b/c?x=1&utm_source=fb&y=2".toList <+:
        "https://shopee.vn/a/b/c?x=1&utm_source=fb&y=2".toList ∧
      (∀ m ∈ trackingMarkers, includes m (cleanUrl whatwgSearchParams
        "https://shopee.vn/a/b/c?x=1&utm_source=fb&y=2".toList) = false) ∧
      (dangling (cleanUrl whatwgSearchParams
          "https://shopee.vn/a/b/c?x=1&utm_source=fb&y=2".toList) = true ↔
        dangling T = true ∧ dangling T.dropLast = true) :=
  cleanUrl_fallback whatwgSearchParams "https://shopee.vn/a/b/c?x=1&utm_source=fb&y=2".toList
    (by decide)

/-- C18, as stated, fails: `https://shopee.vn/a/b/c?x=1&&mmp_pid=9` reaches the fallback,
the cut leaves `https://shopee.vn/a/b/c?x=1&&`, one `&` is trimmed, and the result still
ends with `&`. -/
theorem cleanUrl_fallback_counterexample :
    isFallback "https://shopee.vn/a/b/c?x=1&&mmp_pid=9".toList = true ∧
      cleanUrl whatwgSearchParams "https://shopee.vn/a/b/c?x=1&&mmp_pid=9".toList =
        "https://shopee.vn/a/b/c?x=1&".toList ∧
      dangling (cleanUrl whatwgSearchParams "https://shopee.vn/a/b/c?x=1&&mmp_pid=9".toList)
        = true := by
  decide

/-! ## The extracted identifier is a digit run of the URL -/

theorem search_some_drop {α : Type} (r : Re) (f : Str → Option α) (g : α → List Str)
    (hrf : ∀ s, ((r.run s).head?).map Prod.fst = (f s).map g) (url : Str) (m : List Str × Str)
    (h : r.search url = some m) : ∃ s x, s <:+ url ∧ f s = some x ∧ m.1 = g x := by
  induction url with
  | nil =>
    have h2 := hrf []
    simp only [Re.search] at h
    rw [h] at h2
    cases hf : f [] with
    | none => simp [hf] at h2
    | some x => exact ⟨[], x, List.suffix_refl _, hf, by simpa [hf] using h2⟩
  | cons c t ih =>
    cases hrun : r.run (c :: t) with
    | nil =>
      simp only [Re.search, hrun] at h
      obtain ⟨s, x, hs, hx, hm⟩ := ih h
      exact ⟨s, x, hs.trans (List.suffix_cons c t), hx, hm⟩
    | cons y ys =>
      simp only [Re.search, hrun, Option.some.injEq] at h
      subst h
      have h2 := hrf (c :: t)
      cases hf : f (c :: t) with
      | none => simp [hf, hrun] at h2
      | some x => exact ⟨c :: t, x, List.suffix_refl _, hf, by simpa [hf, hrun] using h2⟩

/-- A digit run found by `digitsAt` in a suffix of `s` after a known head is a substring. -/
theorem digitsAt_isInfix (pre r : Str) (x : Str × Str) (h : digitsAt r = some x) :
    x.1 ≠ [] ∧ x.1.all Char.isDigit = true ∧ x.1 <:+: pre ++ r := by
  obtain ⟨h1, h2, h3, -⟩ := digitsAt_eq_some r x h
  exact ⟨h1, h2, ⟨pre, x.2, by rw [h3, List.append_assoc]⟩⟩

theorem dashIAt_capture (s : Str) (x : Str × Str) (h : dashIAt s = some x) :
    x.2 ≠ [] ∧ x.2.all Char.isDigit = true ∧ x.2 <:+: s := by
  unfold dashIAt at h
  cases h0 : dropLit "-i.".toList s with
  | none => rw [h0, Option.none_bind] at h; cases h
  | some r =>
    rw [h0, Option.some_bind] at h
    cases h1 : digitsAt r with
    | none => rw [h1, Option.none_bind] at h; cases h
    | some a =>
      rw [h1, Option.some_bind] at h
      cases h2 : dropLit ".".toList a.2 with
      | none => rw [h2, Option.none_bind] at h; cases h
      | some r2 =>
        rw [h2, Option.some_bind] at h
        cases h3 : digitsAt r2 with
        | none => rw [h3] at h; cases h
        | some b =>
          rw [h3] at h
          simp only [Option.map_some', Option.some.injEq] at h
          subst h
          obtain ⟨-, -, hra, -⟩ := digitsAt_eq_some r a h1
          have := digitsAt_isInfix ("-i.".toList ++ (a.1 ++ ".".toList)) r2 b h3
          rw [dropLit_eq_some.1 h0, hra, dropLit_eq_some.1 h2]
          simpa [List.append_assoc] using this

theorem productPathAt_capture (s : Str) (x : Str × Str) (h : productPathAt s = some x) :
    x.2 ≠ [] ∧ x.2.all Char.isDigit = true ∧ x.2 <:+: s := by
  unfold productPathAt at h
  cases h0 : dropLit "/product/".toList s with
  | none => rw [h0, Option.none_bind] at h; cases h
  | some r =>
    rw [h0, Option.some_bind] at h
    cases h1 : digitsAt r with
    | none => rw [h1, Option.none_bind] at h; cases h
    | some a =>
      rw [h1, Option.some_bind] at h
      cases h2 : dropLit "/".toList a.2 with
      | none => rw [h2, Option.none_bind] at h; cases h
      | some r2 =>
        rw [h2, Option.some_bind] at h
        cases h3 : digitsAt r2 with
        | none => rw [h3] at h; cases h
        | some b =>
          rw [h3] at h
          simp only [Option.map_some', Option.some.injEq] at h
          subst h
          obtain ⟨-, -, hra, -⟩ := digitsAt_eq_some r a h1
          have := digitsAt_isInfix ("/product/".toList ++ (a.1 ++ "/".toList)) r2 b h3
          rw [dropLit_eq_some.1 h0, hra, dropLit_eq_some.1 h2]
          simpa [List.append_assoc] using this

theorem genericIdAt_capture (s n : Str) (h : genericIdAt s = some n) :
    n ≠ [] ∧ n.all Char.isDigit = true ∧ n <:+: s := by
  unfold genericIdAt at h
  cases h0 : dropLit "itemId=".toList s with
  | some r =>
    rw [h0] at h
    simp only [Option.orElse, Option.some_bind] at h
    cases h1 : digitsAt r with
    | none => rw [h1] at h; cases h
    | some a =>
      rw [h1] at h
      simp only [Option.map_some', Option.some.injEq] at h
      subst h
      have := digitsAt_isInfix "itemId=".toList r a h1
      rw [dropLit_eq_some.1 h0]
      exact this
  | none =>
    rw [h0] at h
    simp only [Option.orElse] at h
    cases h0b : dropLit "/product/".toList s with
    | none => rw [h0b, Option.none_bind] at h; cases h
    | some r =>
      rw [h0b, Option.some_bind] at h
      cases h1 : digitsAt r with
      | none => rw [h1] at h; cases h
      | some a =>
        rw [h1] at h
        simp only [Option.map_some', Option.some.injEq] at h
        subst h
        have := digitsAt_isInfix "/product/".toList r a h1
        rw [dropLit_eq_some.1 h0b]
        exact this

theorem lastDigitAt_capture (s n : Str) (h : lastDigitAt s = some n) :
    n ≠ [] ∧ n.all Char.isDigit = true ∧ n <:+: s := by
  unfold lastDigitAt at h
  cases h0 : dropLit "/".toList s with
  | none => rw [h0, Option.none_bind] at h; cases h
  | some r =>
    rw [h0, Option.some_bind] at h
    cases h1 : digitsAt r with
    | none => rw [h1, Option.none_bind] at h; cases h
    | some a =>
      rw [h1, Option.some_bind] at h
      by_cases hp : a.2 = [] ∨ a.2.head? = some '?'
      · simp only [hp, if_true, Option.some.injEq] at h
        subst h
        have := digitsAt_isInfix "/".toList r a h1
        rw [dropLit_eq_some.1 h0]
        exact this
      · simp only [hp, if_false] at h
        cases h

theorem extractItemId_digits (url id : Str) (h : extractItemId url = some id) :
    id ≠ [] ∧ id.all Char.isDigit = true ∧ id <:+: url := by
  unfold extractItemId at h
  cases h1 : dashIRe.search url with
  | some m =>
    obtain ⟨s, x, hs, hx, hm⟩ := search_some_drop dashIRe dashIAt _ dashIRe_head url m h1
    simp only [h1, group, hm] at h
    simp only [Nat.add_one_sub_one, List.getElem?_cons_succ, List.getElem?_cons_zero,
      Option.some.injEq] at h
    subst h
    obtain ⟨a, b, c⟩ := dashIAt_capture s x hx
    exact ⟨a, b, c.trans hs.isInfix⟩
  | none =>
    cases h2 : productPathRe.search url with
    | some m =>
      obtain ⟨s, x, hs, hx, hm⟩ :=
        search_some_drop productPathRe productPathAt _ productPathRe_head url m h2
      simp only [h1, h2, group, hm] at h
      simp only [Nat.sub_self, List.getElem?_cons_zero, Option.some.injEq] at h
      subst h
      obtain ⟨a, b, c⟩ := productPathAt_capture s x hx
      exact ⟨a, b, c.trans hs.isInfix⟩
    | none =>
      cases h3 : genericIdRe.search url with
      | some m =>
        obtain ⟨s, x, hs, hx, hm⟩ :=
          search_some_drop genericIdRe genericIdAt _ genericIdRe_head url m h3
        simp only [h1, h2, h3, group, hm] at h
        simp only [Nat.sub_self, List.getElem?_cons_zero, Option.some.injEq] at h
        subst h
        obtain ⟨a, b, c⟩ := genericIdAt_capture s x hx
        exact ⟨a, b, c.trans hs.isInfix⟩
      | none =>
        cases h4 : lastDigitRe.search url with
        | some m =>
          obtain ⟨s, x, hs, hx, hm⟩ :=
            search_some_drop lastDigitRe lastDigitAt _ lastDigitRe_head url m h4
          simp only [h1, h2, h3, h4, group, hm] at h
          simp only [Nat.sub_self, List.getElem?_cons_zero, Option.some.injEq] at h
          subst h
          obtain ⟨a, b, c⟩ := lastDigitAt_capture s x hx
          exact ⟨a, b, c.trans hs.isInfix⟩
        | none =>
          simp only [h1, h2, h3, h4] at h
          cases h

/-- C20. Extracted identifiers are numeric: a non-null item id yielded by
`resolveAndProcessUrl` is a non-empty string of digits `0`-`9` that occurs as a contiguous
substring of the resolved URL, and the product query interpolates exactly this string. -/
theorem itemId_numeric (sp : Str → Option Params) (remote : Remote) (cand inputUrl id : Str)
    (h : (resolveAndProcessUrl sp remote cand inputUrl).2 = some id) :
    id ≠ [] ∧ (∀ c ∈ id, '0' ≤ c ∧ c ≤ '9') ∧ id <:+: resolveUrl remote cand inputUrl ∧
      getShopeeProductInfo remote cand (resolveAndProcessUrl sp remote cand inputUrl).2 =
        remote.productInfo cand ("query \x7b productOfferV2(itemId: ".toList ++ id
          ++ ") \x7b nodes \x7b productName imageUrl \x7d \x7d \x7d".toList) := by
  have h2 : extractItemId (resolveUrl remote cand inputUrl) = some id := h
  obtain ⟨h3, h4, h5⟩ := extractItemId_digits _ id h2
  refine ⟨h3, ?_, h5, ?_⟩
  · intro c hc
    have hd : c.isDigit = true := (List.all_eq_true.1 h4) c hc
    simp only [Char.isDigit, Bool.and_eq_true, decide_eq_true_eq] at hd
    exact ⟨hd.1, hd.2⟩
  · rw [h]
    unfold getShopeeProductInfo
    have ht : truthy (some id) = some id := by
      simp [truthy, Option.filter, h3]
    rw [ht]
    rfl

theorem itemId_numeric_witness :
    "4567".toList ≠ [] ∧ (∀ c ∈ "4567".toList, '0' ≤ c ∧ c ≤ '9') ∧
      "4567".toList <:+: resolveUrl remoteFail "shopee.vn/ao-i.123.4567".toList
        "https://shopee.vn/ao-i.123.4567".toList ∧
      getShopeeProductInfo remoteFail "shopee.vn/ao-i.123.4567".toList
          (resolveAndProcessUrl whatwgSearchParams remoteFail "shopee.vn/ao-i.123.4567".toList
            "https://shopee.vn/ao-i.123.4567".toList).2 =
        remoteFail.productInfo "shopee.vn/ao-i.123.4567".toList
          ("query \x7b productOfferV2(itemId: ".toList ++ "4567".toList
            ++ ") \x7b nodes \x7b productName imageUrl \x7d \x7d \x7d".toList) :=
  itemId_numeric whatwgSearchParams remoteFail "shopee.vn/ao-i.123.4567".toList
    "https://shopee.vn/ao-i.123.4567".toList "4567".toList (by decide)

/-! ## Replacement of the links: the order of the candidates -/

theorem splitOn_ne_nil (sep : Str) (s : Str) : ∀ k, splitOn sep k s ≠ [] := by
  induction s with
  | nil => intro k; cases k <;> simp [splitOn]
  | cons c t ih =>
    intro k
    cases k with
    | succ k => simpa [splitOn] using ih k
    | zero =>
      unfold splitOn
      split
      · simp
      · split <;> simp

theorem intercalate_splitOn_skip (c s : Str) (A B : Str)
    (h : noStart c A.length (A ++ B) = true) :
    s.intercalate (splitOn c 0 (A ++ B)) = A ++ s.intercalate (splitOn c 0 B) := by
  induction A with
  | nil => rfl
  | cons a A ih =>
    simp only [List.length_cons, noStart, List.cons_append, List.tail_cons, Bool.and_eq_true,
      Option.isNone_iff_eq_none] at h
    have h1 : splitOn c 0 (a :: (A ++ B)) =
        match splitOn c 0 (A ++ B) with
        | p :: ps => (a :: p) :: ps
        | [] => [[a]] := by
      rw [splitOn]
      simp [h.1]
    rw [List.cons_append, h1]
    cases hs : splitOn c 0 (A ++ B) with
    | nil => exact absurd hs (splitOn_ne_nil c _ 0)
    | cons p ps =>
      simp only
      rw [intercalate_cons_head, ← hs, ih h.2]
      rfl

theorem intercalate_splitOn_hit (c s B : Str) (hc : c ≠ []) :
    s.intercalate (splitOn c 0 (c ++ B)) = s ++ s.intercalate (splitOn c 0 B) := by
  cases c with
  | nil => exact absurd rfl hc
  | cons x c =>
    have h0 : dropLit (x :: c) (x :: (c ++ B)) = some B := dropLit_append (x :: c) B
    have h1 : splitOn (x :: c) 0 (x :: (c ++ B)) =
        [] :: splitOn (x :: c) ((x :: c).length - 1) (c ++ B) := by
      rw [splitOn]
      simp [h0]
    have h2 : splitOn (x :: c) ((x :: c).length - 1) (c ++ B) = splitOn (x :: c) 0 B := by
      rw [splitOn_skip (x :: c) (c ++ B) ((x :: c).length - 1) (by simp)]
      simp
    rw [List.cons_append, h1, h2]
    cases hs : splitOn (x :: c) 0 B with
    | nil => exact absurd hs (splitOn_ne_nil _ _ 0)
    | cons p ps => rw [intercalate_cons_cons]; simp

/-- One `split`/`join` step on a text in which the candidate stands at its own places only:
exactly these places are rewritten. -/
theorem replace_onlyAt (c s : Str) (hc : c ≠ []) (ρ : Str → Str) :
    ∀ gaps ms, onlyAt c ρ gaps ms = true →
      s.intercalate (splitOn c 0 (weave gaps (ms.map ρ))) =
        weave gaps (ms.map (fun m => if m = c then s else ρ m)) := by
  intro gaps
  induction gaps with
  | nil => intro ms h; cases ms <;> simp [onlyAt] at h
  | cons g gs ih =>
    intro ms h
    cases ms with
    | nil =>
      cases gs with
      | cons g1 gs => simp [onlyAt] at h
      | nil =>
        simp only [onlyAt] at h
        have := intercalate_splitOn_skip c s g [] (by simpa using h)
        simpa [weave, splitOn, List.intercalate] using this
    | cons m ms =>
      simp only [onlyAt, Bool.and_eq_true] at h
      obtain ⟨⟨hg, hm⟩, hrest⟩ := h
      have ih2 := ih ms hrest
      simp only [List.map_cons, weave]
      rw [List.append_assoc, intercalate_splitOn_skip c s g _ (by rw [← List.append_assoc]; exact hg)]
      by_cases hmc : m = c
      · simp only [hmc, if_true, decide_eq_true_eq] at hm ⊢
        rw [hm, intercalate_splitOn_hit c s _ hc]
        simp only [hmc] at ih2
        rw [ih2, List.append_assoc]
      · simp only [hmc, if_false] at hm ⊢
        rw [intercalate_splitOn_skip c s _ _ hm, ih2, List.append_assoc]

theorem renderLink_nil (m : Str) : renderLink [] m = m := rfl

theorem find_original_none (done : List Conversion) (m : Str)
    (h : m ∉ done.map Conversion.original) :
    done.find? (fun c => decide (c.original = m)) = none := by
  rw [List.find?_eq_none]
  intro x hx
  simp only [decide_eq_true_eq]
  intro e
  exact h (List.mem_map.2 ⟨x, hx, e⟩)

theorem renderLink_snoc (done : List Conversion) (c : Conversion) (m : Str)
    (h : c.original ∉ done.map Conversion.original) :
    renderLink (done ++ [c]) m =
      if m = c.original then (truthy c.short).getD m else renderLink done m := by
  unfold renderLink
  rw [List.find?_append]
  by_cases hm : m = c.original
  · subst hm
    rw [find_original_none done _ h]
    simp [List.find?]
  · have hm2 : ¬ c.original = m := fun e => hm e.symm
    simp [List.find?, hm, hm2]

theorem renderLink_perm (m : Str) {l₁ l₂ : List Conversion} (h : l₁.Perm l₂)
    (nd : (l₁.map Conversion.original).Nodup) : renderLink l₁ m = renderLink l₂ m := by
  induction h with
  | nil => rfl
  | @cons x la lb _ ih =>
    have nd2 : (la.map Conversion.original).Nodup := by
      rw [List.map_cons] at nd
      exact (List.nodup_cons.1 nd).2
    unfold renderLink at ih ⊢
    by_cases hx : x.original = m
    · simp [List.find?, hx]
    · simp only [List.find?, hx, decide_False]
      exact ih nd2
  | swap x y l =>
    simp only [List.map_cons, List.nodup_cons, List.mem_cons, not_or] at nd
    have hxy : ¬ y.original = x.original := nd.1.1
    unfold renderLink
    by_cases hx : x.original = m
    · have hy : ¬ y.original = m := fun e => hxy (e.trans hx.symm)
      simp [List.find?, hx, hy]
    · by_cases hy : y.original = m
      · simp [List.find?, hx, hy]
      · simp [List.find?, hx, hy]
  | trans h1 _ ih1 ih2 =>
    exact (ih1 nd).trans (ih2 ((h1.map Conversion.original).nodup_iff.1 nd))

theorem replaceLinks_cons (text : Str) (c : Conversion) (rest : List Conversion) :
    replaceLinks text (c :: rest) =
      replaceLinks (match truthy c.short with
        | some short => short.intercalate (jsSplit c.original text)
        | none => text) rest := rfl

/-- A run of replacements whose steps are all clean rewrites every match into what its
conversion shows for it. -/
theorem replaceLinks_steps (gaps ms : List Str) :
    ∀ (rest done : List Conversion), (∀ c ∈ rest, c.original ≠ []) →
      ((done ++ rest).map Conversion.original).Nodup → cleanSteps gaps ms done rest = true →
      replaceLinks (weave gaps (ms.map (renderLink done))) rest =
        weave gaps (ms.map (renderLink (done ++ rest))) := by
  intro rest
  induction rest with
  | nil => intro done _ _ _; simp [replaceLinks]
  | cons c rest ih =>
    intro done hne nd hclean
    have hc : c.original ≠ [] := hne c (List.mem_cons_self _ _)
    have hnot : c.original ∉ done.map Conversion.original := by
      rw [List.map_append, List.map_cons] at nd
      have := (List.nodup_append.1 nd).2.2
      intro hmem
      exact this hmem (List.mem_cons_self _ _)
    have nd2 : (((done ++ [c]) ++ rest).map Conversion.original).Nodup := by
      simpa [List.append_assoc] using nd
    simp only [cleanSteps, Bool.and_eq_true] at hclean
    have ih2 := ih (done ++ [c]) (fun x hx => hne x (List.mem_cons_of_mem _ hx)) nd2 hclean.2
    have happ : done ++ c :: rest = (done ++ [c]) ++ rest := by simp
    rw [replaceLinks_cons, happ, ← ih2]
    congr 1
    cases ht : truthy c.short with
    | none =>
      simp only
      congr 1
      apply List.map_congr_left
      intro m _
      rw [renderLink_snoc done c m hnot, ht]
      by_cases hm : m = c.original
      · subst hm
        simp only [if_true, Option.getD_none]
        unfold renderLink
        rw [find_original_none done _ hnot]
      · simp [hm]
    | some s =>
      have h1 := hclean.1
      rw [ht] at h1
      simp only at h1 ⊢
      have hsplit : jsSplit c.original (weave gaps (ms.map (renderLink done))) =
          splitOn c.original 0 (weave gaps (ms.map (renderLink done))) := by
        unfold jsSplit
        rw [if_neg hc]
      rw [hsplit, replace_onlyAt c.original s hc (renderLink done) gaps ms h1]
      congr 1
      apply List.map_congr_left
      intro m _
      rw [renderLink_snoc done c m hnot, ht]
      by_cases hm : m = c.original
      · simp [hm]
      · simp [hm]

theorem renderLink_congr {l₁ l₂ : List Conversion} (h : l₁.Perm l₂)
    (nd : (l₁.map Conversion.original).Nodup) : renderLink l₁ = renderLink l₂ :=
  funext (fun m => renderLink_perm m h nd)

/-- When no candidate is disturbed by the replacement of any part of the others, every step
of every order is clean. -/
theorem cleanSteps_of_subsets (gaps ms : List Str) (convs : List Conversion)
    (hnodup : (convs.map Conversion.original).Nodup)
    (hclean : ∀ done ∈ convs.sublists, ∀ c ∈ convs, c ∉ done → truthy c.short ≠ none →
      onlyAt c.original (renderLink done) gaps ms = true) :
    ∀ (rest done : List Conversion), (done ++ rest).Perm convs →
      cleanSteps gaps ms done rest = true := by
  intro rest
  induction rest with
  | nil => intro done _; rfl
  | cons c rest ih =>
    intro done hperm
    have hnd : ((done ++ c :: rest).map Conversion.original).Nodup :=
      (hperm.map Conversion.original).nodup_iff.2 hnodup
    have hnot : c ∉ done := by
      intro hmem
      rw [List.map_append, List.map_cons] at hnd
      exact (List.nodup_append.1 hnd).2.2 (List.mem_map.2 ⟨c, hmem, rfl⟩)
        (List.mem_cons_self _ _)
    have hsub : List.Subperm done convs :=
      (List.sublist_append_left done (c :: rest)).subperm.trans hperm.subperm
    obtain ⟨l, hl, hls⟩ := hsub
    have hcl : c ∉ l := fun h => hnot (hl.mem_iff.1 h)
    have hc : c ∈ convs := hperm.mem_iff.1 (by simp)
    have hlnd : (l.map Conversion.original).Nodup := (hls.map Conversion.original).nodup hnodup
    simp only [cleanSteps, Bool.and_eq_true]
    refine ⟨?_, ih (done ++ [c]) (by simpa [List.append_assoc] using hperm)⟩
    cases ht : truthy c.short with
    | none => rfl
    | some s =>
      simp only
      rw [← renderLink_congr hl hlnd]
      exact hclean l (List.mem_sublists.2 hls) c hc hcl (by rw [ht]; exact fun h => by cases h)

/-- C19 (amended). Replacement order independence: let the text be woven from gaps and
matched links, and let the conversions have distinct non-empty `original` strings. Suppose
that, whichever part of the other conversions has been applied, each candidate with a short
link starts in the text only at the places of its own matches. Then the `split`/`join`
replacements yield the same `newText` in any two orders of the conversions: the text in
which every match shows the short link of its conversion, when it has one. -/
theorem replaceLinks_order (gaps ms : List Str) (convs convs₁ convs₂ : List Conversion)
    (h₁ : convs₁.Perm convs) (h₂ : convs₂.Perm convs)
    (hne : ∀ c ∈ convs, c.original ≠ [])
    (hnodup : (convs.map Conversion.original).Nodup)
    (hclean : ∀ done ∈ convs.sublists, ∀ c ∈ convs, c ∉ done → truthy c.short ≠ none →
      onlyAt c.original (renderLink done) gaps ms = true) :
    replaceLinks (weave gaps ms) convs₁ = replaceLinks (weave gaps ms) convs₂ ∧
      replaceLinks (weave gaps ms) convs₁ = weave gaps (ms.map (renderLink convs)) := by
  have hid : ms.map (renderLink []) = ms := by
    rw [List.map_congr_left (fun m _ => renderLink_nil m)]
    simp
  have key : ∀ l : List Conversion, l.Perm convs →
      replaceLinks (weave gaps ms) l = weave gaps (ms.map (renderLink convs)) := by
    intro l hl
    have hndl : (l.map Conversion.original).Nodup :=
      (hl.map Conversion.original).nodup_iff.2 hnodup
    have e := replaceLinks_steps gaps ms l [] (fun c hc => hne c (hl.mem_iff.1 hc))
      (by simpa using hndl)
      (cleanSteps_of_subsets gaps ms convs hnodup hclean l [] (by simpa using hl))
    rw [hid, List.nil_append, renderLink_congr hl hndl] at e
    exact e
  exact ⟨(key convs₁ h₁).trans (key convs₂ h₂).symm, key convs₁ h₁⟩

theorem replaceLinks_order_witness :
    replaceLinks (weave ["see ".toList, " ".toList, []]
        ["https://shopee.vn/product/1/2".toList, "https://s.shopee.vn/abc".toList])
        [freshFirst, chainSecond] =
      replaceLinks (weave ["see ".toList, " ".toList, []]
        ["https://shopee.vn/product/1/2".toList, "https://s.shopee.vn/abc".toList])
        [chainSecond, freshFirst] ∧
    replaceLinks (weave ["see ".toList, " ".toList, []]
        ["https://shopee.vn/product/1/2".toList, "https://s.shopee.vn/abc".toList])
        [freshFirst, chainSecond] =
      weave ["see ".toList, " ".toList, []]
        (["https://shopee.vn/product/1/2".toList, "https://s.shopee.vn/abc".toList].map
          (renderLink [freshFirst, chainSecond])) :=
  replaceLinks_order ["see ".toList, " ".toList, []]
    ["https://shopee.vn/product/1/2".toList, "https://s.shopee.vn/abc".toList]
    [freshFirst, chainSecond] [freshFirst, chainSecond] [chainSecond, freshFirst]
    (List.Perm.refl _) (List.Perm.swap _ _ _) (by decide) (by decide) (by decide)

/-- The text of the witness after the replacements, in both orders. -/
theorem replaceLinks_order_example :
    replaceLinks "see https://shopee.vn/product/1/2 https://s.shopee.vn/abc".toList
        [chainSecond, freshFirst] =
      "see https://s.shopee.vn/pqr https://s.shopee.vn/xyz".toList ∧
    replaceLinks "see https://shopee.vn/product/1/2 https://s.shopee.vn/abc".toList
        [freshFirst, chainSecond] =
      "see https://s.shopee.vn/pqr https://s.shopee.vn/xyz".toList := by
  decide

/-- C19, as stated, fails: in `chainText` both links are matches, neither is a substring of
the other, and the short link assigned to the first is the second; replacing the first
before the second rewrites both places to the short link of the second, the other order
does not. -/
theorem replaceLinks_order_counterexample :
    urlRegex.scan 0 chainText = [chainFirst.original, chainSecond.original] ∧
      includes chainFirst.original chainSecond.original = false ∧
      includes chainSecond.original chainFirst.original = false ∧
      replaceLinks chainText [chainFirst, chainSecond] =
        "https://s.shopee.vn/xyz https://s.shopee.vn/xyz".toList ∧
      replaceLinks chainText [chainSecond, chainFirst] =
        "https://s.shopee.vn/abc https://s.shopee.vn/xyz".toList ∧
      replaceLinks chainText [chainFirst, chainSecond] ≠
        replaceLinks chainText [chainSecond, chainFirst] ∧
      cleanSteps [[], " ".toList, []] [chainFirst.original, chainSecond.original] []
        [chainFirst, chainSecond] = false := by
  decide

end Shopee
